import Mathlib

/-!
Sentiment scorer (hw4.go).

A shallow embedding of `hw4.go`: the rater `getStarRating`, the scorer
`getSocialSentimentScore` and the lexicon loader `buildSocialSentimentTable`,
together with the parts of the Go runtime they rest on (float64 arithmetic,
`bufio.Scanner` with `bufio.ScanWords`, `strings.Trim`, `strings.ToLower`,
`strconv.ParseFloat`, the record reader of `encoding/csv`).
-/

set_option exponentiation.threshold 4000

namespace HW4

/-! ## float64 -/

/-- IEEE 754 binary64 values as Go's `float64` holds them. A finite value is a
sign and a magnitude; the magnitude is counted in units of `2^-1074`, the
smallest positive subnormal, so that every finite float64 is a whole number of
units and the sum of two of them is again a whole number of units. -/
inductive F64 where
  | nan : F64
  | inf (neg : Bool) : F64
  | fin (neg : Bool) (mag : Nat) : F64
  deriving DecidableEq, Repr

namespace F64

/-- Number of units of `2^-1074` in `1.0`. -/
def one : Nat := 2 ^ 1074

/-- First magnitude (in units) that is too large for a finite float64: `2^1024`. -/
def overflowMag : Nat := 2 ^ 2098

/-- Number of bits of `n`, counted by halving at most `fuel` times. -/
def bitLenAux : Nat → Nat → Nat → Nat
  | 0, _, acc => acc
  | fuel + 1, n, acc => if n = 0 then acc else bitLenAux fuel (n / 2) (acc + 1)

/-- Number of bits of `n` (0 for 0). -/
def bitLen (n : Nat) : Nat := bitLenAux n n 0

/-- The integer nearest to `num / den`, ties going to the even integer. -/
def roundHalfEven (num den : Nat) : Nat :=
  let q := num / den
  let r := num % den
  if 2 * r < den then q
  else if den < 2 * r then q + 1
  else if q % 2 = 0 then q else q + 1

/-- Round the positive rational `num / den` (in units of `2^-1074`) to the
nearest magnitude with at most 53 significant bits, ties to even; the result
may reach `overflowMag`. -/
def roundMag (num den : Nat) : Nat :=
  let sh := bitLen (num / den) - 53
  roundHalfEven num (den * 2 ^ sh) * 2 ^ sh

/-- The float64 nearest to `± num / den` units: round to nearest, ties to even,
overflow to infinity. -/
def round (neg : Bool) (num den : Nat) : F64 :=
  let m := roundMag num den
  if overflowMag ≤ m then inf neg else fin neg m

/-- A magnitude a float64 can hold: at most 53 significant bits, below `2^1024`. -/
def magOk (m : Nat) : Bool := decide (roundMag m 1 = m) && decide (m < overflowMag)

/-- Well-formed float64 values: the finite ones carry a representable magnitude. -/
def wf : F64 → Bool
  | fin _ m => magOk m
  | _ => true

/-- Signed number of units of a finite value. -/
def signed (neg : Bool) (mag : Nat) : Int := if neg then -(mag : Int) else (mag : Int)

/-- The float64 of a small integer constant such as `-5.0`. -/
def ofInt (z : Int) : F64 := fin (decide (z < 0)) (z.natAbs * one)

/-- Go's `a < b` on float64: false whenever an operand is NaN, and `-0 = +0`. -/
def lt : F64 → F64 → Bool
  | nan, _ => false
  | _, nan => false
  | inf a, inf b => a && !b
  | inf a, fin _ _ => a
  | fin _ _, inf b => !b
  | fin n1 m1, fin n2 m2 => decide (signed n1 m1 < signed n2 m2)

/-- Go's `a <= b` on float64: false whenever an operand is NaN. -/
def le : F64 → F64 → Bool
  | nan, _ => false
  | _, nan => false
  | inf a, inf b => a || !b
  | inf a, fin _ _ => a
  | fin _ _, inf b => !b
  | fin n1 m1, fin n2 m2 => decide (signed n1 m1 ≤ signed n2 m2)

/-- Go's `a >= b` on float64. -/
def ge (a b : F64) : Bool := le b a

/-- Go's `a + b` on float64: IEEE 754 addition, round to nearest, ties to even. -/
def add : F64 → F64 → F64
  | nan, _ => nan
  | _, nan => nan
  | inf a, inf b => if a = b then inf a else nan
  | inf a, fin _ _ => inf a
  | fin _ _, inf b => inf b
  | fin n1 m1, fin n2 m2 =>
    let s := signed n1 m1 + signed n2 m2
    if s = 0 then fin (n1 && n2) 0
    else round (decide (s < 0)) s.natAbs 1

/-- The constant `0` a `float64` variable is initialised with: positive zero. -/
def zero : F64 := fin false 0

end F64

/-! ## The rater -/

/-- `getStarRating` (hw4.go:174-192): `stars` starts as the zero value of `int`
and the first `case` of the expressionless `switch` whose condition holds
assigns it; there is no `default`. -/
def getStarRating (totalScore : F64) : Int :=
  if F64.lt totalScore (F64.ofInt (-5)) then 1
  else if F64.ge totalScore (F64.ofInt (-5)) && F64.lt totalScore (F64.ofInt (-1)) then 2
  else if F64.ge totalScore (F64.ofInt (-1)) && F64.lt totalScore (F64.ofInt 1) then 3
  else if F64.ge totalScore (F64.ofInt 1) && F64.lt totalScore (F64.ofInt 5) then 4
  else if F64.ge totalScore (F64.ofInt 5) then 5
  else 0

/-! ## Strings, UTF-8 and package `unicode` -/

/-- One byte. -/
abbrev Byte := Fin 256

/-- Go strings: arbitrary byte sequences. -/
abbrev Str := List Byte

/-- The constant `utf8.RuneError`, U+FFFD. -/
def runeError : Nat := 0xFFFD

/-- A continuation byte in the range `lo..hi`. -/
def inRange (lo hi : Nat) (b : Byte) : Bool := decide (lo ≤ b.val) && decide (b.val ≤ hi)

/-- `utf8.DecodeRune`: the first rune of `p` and its width in bytes; an invalid
or incomplete encoding gives `(RuneError, 1)`, the empty input `(RuneError, 0)`. -/
def decodeRune : Str → Nat × Nat
  | [] => (runeError, 0)
  | p0 :: rest =>
    if p0.val < 0x80 then (p0.val, 1)
    else if p0.val < 0xC2 then (runeError, 1)
    else if p0.val < 0xE0 then
      match rest with
      | b1 :: _ =>
        if inRange 0x80 0xBF b1 then (p0.val % 32 * 64 + b1.val % 64, 2) else (runeError, 1)
      | [] => (runeError, 1)
    else if p0.val < 0xF0 then
      match rest with
      | b1 :: b2 :: _ =>
        if inRange (if p0.val = 0xE0 then 0xA0 else 0x80) (if p0.val = 0xED then 0x9F else 0xBF) b1
            && inRange 0x80 0xBF b2 then
          (p0.val % 16 * 4096 + b1.val % 64 * 64 + b2.val % 64, 3)
        else (runeError, 1)
      | _ => (runeError, 1)
    else if p0.val < 0xF5 then
      match rest with
      | b1 :: b2 :: b3 :: _ =>
        if inRange (if p0.val = 0xF0 then 0x90 else 0x80) (if p0.val = 0xF4 then 0x8F else 0xBF) b1
            && inRange 0x80 0xBF b2 && inRange 0x80 0xBF b3 then
          (p0.val % 8 * 262144 + b1.val % 64 * 4096 + b2.val % 64 * 64 + b3.val % 64, 4)
        else (runeError, 1)
      | _ => (runeError, 1)
    else (runeError, 1)

/-- `utf8.AppendRune`: the UTF-8 encoding of a rune; surrogates and values
above `utf8.MaxRune` are written as `RuneError`. -/
def encodeRune (r : Nat) : Str :=
  if r ≤ 0x7F then [Fin.ofNat r]
  else if r ≤ 0x7FF then [Fin.ofNat (0xC0 + r / 64), Fin.ofNat (0x80 + r % 64)]
  else if 0x10FFFF < r ∨ (0xD800 ≤ r ∧ r ≤ 0xDFFF) then [0xEF, 0xBF, 0xBD]
  else if r ≤ 0xFFFF then
    [Fin.ofNat (0xE0 + r / 4096), Fin.ofNat (0x80 + r / 64 % 64), Fin.ofNat (0x80 + r % 64)]
  else
    [Fin.ofNat (0xF0 + r / 262144), Fin.ofNat (0x80 + r / 4096 % 64),
     Fin.ofNat (0x80 + r / 64 % 64), Fin.ofNat (0x80 + r % 64)]

/-- The bytes of a string literal. -/
def bytes (s : String) : Str := s.toList.flatMap (fun c => encodeRune c.toNat)

/-- `isSpace` of package `bufio`: the runes `bufio.ScanWords` treats as white space. -/
def isSpace (r : Nat) : Bool :=
  if r ≤ 0xFF then
    r = 0x20 || r = 0x09 || r = 0x0A || r = 0x0B || r = 0x0C || r = 0x0D || r = 0x85 || r = 0xA0
  else if 0x2000 ≤ r ∧ r ≤ 0x200A then true
  else r = 0x1680 || r = 0x2028 || r = 0x2029 || r = 0x202F || r = 0x205F || r = 0x3000

/-- `unicode.ToLower`: the ASCII range is handled by the function itself; above
it the answer comes from the case tables of package `unicode`, which are data of
the Go distribution and enter as the parameter `lowerTable`. -/
def unicodeToLower (lowerTable : Nat → Nat) (r : Nat) : Nat :=
  if r ≤ 0x7F then (if 0x41 ≤ r ∧ r ≤ 0x5A then r + 32 else r)
  else lowerTable r

/-- The runes of a string in order, as `for _, c := range s` yields them, each
with the bytes it was decoded from. -/
def chunksAux : Nat → Str → List (Nat × Str)
  | 0, _ => []
  | _, [] => []
  | fuel + 1, b :: bs =>
    ((decodeRune (b :: bs)).1, (b :: bs).take (decodeRune (b :: bs)).2) ::
      chunksAux fuel ((b :: bs).drop (decodeRune (b :: bs)).2)

/-- The runes of a string, each with its bytes. -/
def chunks (s : Str) : List (Nat × Str) := chunksAux s.length s

/-- The runes of a string. -/
def runes (s : Str) : List Nat := (chunks s).map Prod.fst

/-- `strings.Map`: every rune is replaced by the encoding of its image. -/
def stringsMap (mapping : Nat → Nat) (s : Str) : Str :=
  (runes s).flatMap (fun r => encodeRune (mapping r))

/-- The byte loop of `strings.ToLower` for ASCII-only strings. -/
def lowerByte (c : Byte) : Byte := if 0x41 ≤ c.val ∧ c.val ≤ 0x5A then c + 32 else c

/-- `strings.ToLower`: a byte loop when every byte is below `utf8.RuneSelf`,
otherwise `strings.Map(unicode.ToLower, s)`. -/
def toLower (lowerTable : Nat → Nat) (s : Str) : Str :=
  if s.all (fun c => decide (c.val < 0x80)) then s.map lowerByte
  else stringsMap (unicodeToLower lowerTable) s

/-- The cutset of the call to `strings.Trim` (hw4.go:81). -/
def cutset : Str := bytes ".,!?:;\"()[]\x7b\x7d-"

/-- `strings.Trim` with an ASCII cutset: the bytes of the set are removed from
the right end and then from the left end. -/
def trim (s : Str) (cut : Str) : Str :=
  (s.rdropWhile (fun c => decide (c ∈ cut))).dropWhile (fun c => decide (c ∈ cut))

/-- The cleaning of a scanned word (hw4.go:81):
`strings.ToLower(strings.Trim(word, cutset))`. -/
def clean (lowerTable : Nat → Nat) (word : Str) : Str :=
  toLower lowerTable (trim word cutset)

/-! ## The lexicon -/

/-- The Go map `map[string]float64`, as an association list with one entry per key. -/
abbrev Lexicon := List (Str × F64)

/-- The map index expression `score, exists := sentimentMap[word]`. -/
def Lexicon.index (m : Lexicon) (word : Str) : Option F64 := m.lookup word

/-- The map assignment `socialSentimentTable[word] = score`. -/
def Lexicon.assign (m : Lexicon) (word : Str) (score : F64) : Lexicon :=
  (word, score) :: m.filter (fun e => !(e.1 == word))

/-! ## `bufio.Scanner` with `bufio.ScanWords` -/

/-- The target file as the scorer meets it: the bytes the reads deliver, and
whether the read after them fails with an error other than `io.EOF`. -/
structure FileData where
  content : Str
  readErr : Bool
  deriving DecidableEq, Repr

/-- The ways `scanner.Err()` can be non-nil. -/
inductive ScanErr where
  | io
  | tooLong
  deriving DecidableEq, Repr

/-- The constant `bufio.MaxScanTokenSize`, the size the scanner's buffer grows to. -/
def maxScanTokenSize : Nat := 65536

/-- First loop of `bufio.ScanWords`: skip leading spaces. -/
def skipSpaces : Nat → Str → Str
  | 0, data => data
  | _, [] => []
  | fuel + 1, b :: bs =>
    if isSpace (decodeRune (b :: bs)).1 then skipSpaces fuel ((b :: bs).drop (decodeRune (b :: bs)).2)
    else b :: bs

/-- Second loop of `bufio.ScanWords`: scan until a space; the answer is the
index of the space and its width. -/
def findSpace : Nat → Str → Option (Nat × Nat)
  | 0, _ => none
  | _, [] => none
  | fuel + 1, b :: bs =>
    if isSpace (decodeRune (b :: bs)).1 then some (0, (decodeRune (b :: bs)).2)
    else (findSpace fuel ((b :: bs).drop (decodeRune (b :: bs)).2)).map
      (fun f => (f.1 + (decodeRune (b :: bs)).2, f.2))

/-- What one call of `scanner.Scan()` does. -/
inductive ScanStep where
  | token (tok : Str) (rest : Str)
  | done (err : Option ScanErr)
  deriving DecidableEq, Repr

/-- One call of `scanner.Scan()` on the unread input `rest`. Leading spaces are
consumed; the word that follows is searched for its closing space in the buffer,
which holds at most `maxScanTokenSize` bytes: a word closed inside the buffer is
the token, a word that ends with the input before the buffer is full is the
final token, and a full buffer without a closing space ends the scan with
`bufio.ErrTooLong`. At the end of the input the scan stops, with the read error
when there is one. -/
def scan (readErr : Bool) (rest : Str) : ScanStep :=
  match skipSpaces rest.length rest with
  | [] => .done (if readErr then some .io else none)
  | b :: bs =>
    match findSpace maxScanTokenSize ((b :: bs).take maxScanTokenSize) with
    | some (i, w) => .token ((b :: bs).take i) ((b :: bs).drop (i + w))
    | none =>
      if (b :: bs).length < maxScanTokenSize then .token (b :: bs) []
      else .done (some .tooLong)

/-! ## The scorer -/

/-- What the scorer prints: the heading, one line per matched word, and the summary. -/
inductive OutLine where
  | heading
  | word (word : Str) (score total : F64)
  | summary (filename : Str) (total : F64)
  deriving DecidableEq, Repr

/-- The state of the loop of `getSocialSentimentScore`: the running total and
the lines printed so far. -/
structure ScoreState where
  totalScore : F64
  out : List OutLine
  deriving DecidableEq, Repr

/-- The body of the loop (hw4.go:80-99) for one scanned word. -/
def scoreWord (lowerTable : Nat → Nat) (sentimentMap : Lexicon) (st : ScoreState)
    (text : Str) : ScoreState :=
  let word := clean lowerTable text
  if word = [] then st
  else
    match sentimentMap.index word with
    | some score =>
      let totalScore := F64.add st.totalScore score
      { totalScore := totalScore, out := st.out ++ [OutLine.word word score totalScore] }
    | none => st

/-- The loop `for scanner.Scan() { ... }` (hw4.go:79-101) together with the
value of `scanner.Err()` after it. -/
def scoreLoop (lowerTable : Nat → Nat) (sentimentMap : Lexicon) (readErr : Bool) :
    Nat → Str → ScoreState → ScoreState × Option ScanErr
  | 0, _, st => (st, none)
  | fuel + 1, rest, st =>
    match scan readErr rest with
    | .token tok rest' =>
      scoreLoop lowerTable sentimentMap readErr fuel rest' (scoreWord lowerTable sentimentMap st tok)
    | .done err => (st, err)

/-- The errors of `getSocialSentimentScore`. -/
inductive ScoreErr where
  | openFile
  | readFile (e : ScanErr)
  deriving DecidableEq, Repr

/-- What `getSocialSentimentScore` returns, and what it has printed. -/
structure ScoreResult where
  total : F64
  err : Option ScoreErr
  out : List OutLine
  deriving DecidableEq, Repr

/-- `getSocialSentimentScore` (hw4.go:62-112). `file` is what `os.Open(filename)`
finds: `none` when the file cannot be opened. -/
def getSocialSentimentScore (lowerTable : Nat → Nat) (file : Option FileData)
    (filename : Str) (sentimentMap : Lexicon) : ScoreResult :=
  match file with
  | none => { total := F64.zero, err := some .openFile, out := [] }
  | some f =>
    match scoreLoop lowerTable sentimentMap f.readErr (f.content.length + 1) f.content
        { totalScore := F64.zero, out := [OutLine.heading] } with
    | (st, some e) => { total := F64.zero, err := some (.readFile e), out := st.out }
    | (st, none) =>
      { total := st.totalScore, err := none,
        out := st.out ++ [OutLine.summary filename st.totalScore] }

/-! ## `strconv.ParseFloat` -/

/-- The helper `lower` of package `strconv`: `c | ('x' - 'X')`. -/
def lowerBit (c : Byte) : Nat := if c.val / 32 % 2 = 1 then c.val else c.val + 32

/-- `commonPrefixLenIgnoreCase` of package `strconv`; `prefix` is lower case. -/
def commonPrefixLenIgnoreCase : Str → Str → Nat
  | c :: cs, p :: ps =>
    if (if 0x41 ≤ c.val ∧ c.val ≤ 0x5A then c.val + 32 else c.val) = p.val then
      commonPrefixLenIgnoreCase cs ps + 1
    else 0
  | _, _ => 0

/-- The length of the prefix of `s` that spells infinity: 3 for `inf`, 8 for
`infinity`, 0 otherwise. -/
def infPrefixLen (s : Str) : Nat :=
  let n := commonPrefixLenIgnoreCase s (bytes "infinity")
  let n := if 3 < n ∧ n < 8 then 3 else n
  if n = 3 ∨ n = 8 then n else 0

/-- `special` of package `strconv`: the special value `s` starts with and the
number of bytes it takes. -/
def special (s : Str) : Option (F64 × Nat) :=
  match s with
  | [] => none
  | c :: cs =>
    if c.val = 0x2B ∨ c.val = 0x2D then
      if infPrefixLen cs = 0 then none
      else some (F64.inf (decide (c.val = 0x2D)), 1 + infPrefixLen cs)
    else if c.val = 0x69 ∨ c.val = 0x49 then
      if infPrefixLen (c :: cs) = 0 then none
      else some (F64.inf false, infPrefixLen (c :: cs))
    else if c.val = 0x6E ∨ c.val = 0x4E then
      if commonPrefixLenIgnoreCase (c :: cs) (bytes "nan") = 3 then some (F64.nan, 3) else none
    else none

/-- The state of the digit loop of `readFloat`: the digits read so far as a
number, their count without leading zeros, the position of the point, and the
flags of the loop. -/
structure Digits where
  mant : Nat
  nd : Nat
  dp : Int
  sawdot : Bool
  sawdigits : Bool
  underscores : Bool
  deriving DecidableEq, Repr

/-- The digit loop of `readFloat`; the answer is the state at the first byte
that ends the loop, and the input from that byte on. -/
def readDigits (hex : Bool) : Str → Digits → Digits × Str
  | [], d => (d, [])
  | c :: cs, d =>
    if c.val = 0x5F then readDigits hex cs { d with underscores := true }
    else if c.val = 0x2E then
      if d.sawdot then (d, c :: cs)
      else readDigits hex cs { d with sawdot := true, dp := d.nd }
    else if 0x30 ≤ c.val ∧ c.val ≤ 0x39 then
      if c.val = 0x30 ∧ d.nd = 0 then
        readDigits hex cs { d with sawdigits := true, dp := d.dp - 1 }
      else
        readDigits hex cs { d with sawdigits := true, nd := d.nd + 1,
                                   mant := d.mant * (if hex then 16 else 10) + (c.val - 0x30) }
    else if hex ∧ 0x61 ≤ lowerBit c ∧ lowerBit c ≤ 0x66 then
      readDigits hex cs { d with sawdigits := true, nd := d.nd + 1,
                                 mant := d.mant * 16 + (lowerBit c - 0x61 + 10) }
    else (d, c :: cs)

/-- The digit loop of the exponent of `readFloat`: the exponent stops growing
once it has reached 10000. -/
def readExpDigits : Str → Nat → Bool → Nat × Bool × Str
  | [], e, u => (e, u, [])
  | c :: cs, e, u =>
    if c.val = 0x5F then readExpDigits cs e true
    else if 0x30 ≤ c.val ∧ c.val ≤ 0x39 then
      readExpDigits cs (if e < 10000 then e * 10 + (c.val - 0x30) else e) u
    else (e, u, c :: cs)

/-- The loop of `underscoreOK`; `saw` is 0 for a digit or base prefix, 1 for an
underscore, 2 for anything else, 3 at the beginning. -/
def underscoreLoop (hex : Bool) : Str → Nat → Bool
  | [], saw => saw ≠ 1
  | c :: cs, saw =>
    if (0x30 ≤ c.val ∧ c.val ≤ 0x39) ∨ (hex ∧ 0x61 ≤ lowerBit c ∧ lowerBit c ≤ 0x66) then
      underscoreLoop hex cs 0
    else if c.val = 0x5F then
      if saw ≠ 0 then false else underscoreLoop hex cs 1
    else if saw = 1 then false
    else underscoreLoop hex cs 2

/-- The base prefix part of `underscoreOK`, after the sign. -/
def underscoreBody (s : Str) : Bool :=
  match s with
  | c0 :: c1 :: cs =>
    if c0.val = 0x30 ∧ (lowerBit c1 = 0x62 ∨ lowerBit c1 = 0x6F ∨ lowerBit c1 = 0x78) then
      underscoreLoop (decide (lowerBit c1 = 0x78)) cs 0
    else underscoreLoop false s 3
  | _ => underscoreLoop false s 3

/-- `underscoreOK` of package `strconv`: underscores stand only between digits
or between a base prefix and a digit. -/
def underscoreOK (s : Str) : Bool :=
  match s with
  | c :: cs => if c.val = 0x2D ∨ c.val = 0x2B then underscoreBody cs else underscoreBody s
  | [] => underscoreBody s

/-- A floating-point literal as `readFloat` reads it: `± mant * base ^ exp`,
with base 16 digits and a power of 2 when `hex`. -/
structure FloatLit where
  neg : Bool
  hex : Bool
  mant : Nat
  exp : Int
  deriving DecidableEq, Repr

/-- The optional exponent of `readFloat`, after the digits: the input starts at
the exponent character, if any. `none` is a syntax error, for trailing bytes too. -/
def readExponent (hex : Bool) (d : Digits) (rest : Str) : Option (Int × Bool) :=
  match rest with
  | [] => if hex then none else some (0, d.underscores)
  | c :: cs =>
    if lowerBit c = (if hex then 0x70 else 0x65) then
      match cs with
      | [] => none
      | c1 :: cs1 =>
        let neg := decide (c1.val = 0x2D)
        let ds := if c1.val = 0x2B ∨ c1.val = 0x2D then cs1 else c1 :: cs1
        match ds with
        | [] => none
        | c2 :: _ =>
          if c2.val < 0x30 ∨ 0x39 < c2.val then none
          else
            match readExpDigits ds 0 d.underscores with
            | (e, u, []) => some (if neg then -(e : Int) else (e : Int), u)
            | _ => none
    else none

/-- `readFloat` of package `strconv` on a whole string: sign, optional `0x`,
digits with an optional point, optional exponent, and the check of the
underscores. All the digits are kept in `mant`. -/
def readFloat (s : Str) : Option FloatLit :=
  let neg := match s with
    | c :: _ => decide (c.val = 0x2D)
    | [] => false
  let body := match s with
    | c :: cs => if c.val = 0x2B ∨ c.val = 0x2D then cs else s
    | [] => s
  let hex := match body with
    | c0 :: c1 :: _ :: _ => decide (c0.val = 0x30 ∧ lowerBit c1 = 0x78)
    | _ => false
  let digits := if hex then body.drop 2 else body
  match s with
  | [] => none
  | _ =>
    match readDigits hex digits
        { mant := 0, nd := 0, dp := 0, sawdot := false, sawdigits := false, underscores := false } with
    | (d, rest) =>
      if !d.sawdigits then none
      else
        let dp : Int := if d.sawdot then d.dp else d.nd
        match readExponent hex d rest with
        | none => none
        | some (e, underscores) =>
          if underscores && !underscoreOK s then none
          else
            some { neg := neg, hex := hex, mant := d.mant,
                   exp := (if hex then 4 * dp - 4 * d.nd else dp - d.nd) + e }

/-- The float64 nearest to a literal; `none` when it is out of range. -/
def FloatLit.toF64 (l : FloatLit) : Option F64 :=
  let base := if l.hex then 2 else 10
  let v :=
    if 0 ≤ l.exp then F64.round l.neg (l.mant * base ^ l.exp.toNat * F64.one) 1
    else F64.round l.neg (l.mant * F64.one) (base ^ (-l.exp).toNat)
  match v with
  | .inf _ => none
  | v => some v

/-- `strconv.ParseFloat(s, 64)`: `none` stands for a non-nil error (a syntax
error, or a value out of range). -/
def parseFloat (s : Str) : Option F64 :=
  match special s with
  | some (v, n) => if n = s.length then some v else none
  | none =>
    match readFloat s with
    | some l => l.toF64
    | none => none

/-! ## The record reader of `encoding/csv` -/

/-- The kinds of error `(*csv.Reader).Read` returns: `io.EOF`, a failed read, a
quoting error in a line (`csv.ErrBareQuote`, `csv.ErrQuote`), and
`csv.ErrFieldCount`. The line and column a `csv.ParseError` carries are left
out: two errors of the same kind on different lines are one value here. -/
inductive CsvErr where
  | eof
  | io
  | quote
  | fieldCount
  deriving DecidableEq, Repr

/-- One record of the file as the field parser of `encoding/csv` splits it (empty
lines are not records): the fields, and whether the parser met a quoting error. -/
structure RawRecord where
  fields : List Str
  badQuote : Bool
  deriving DecidableEq, Repr

/-- The lexicon file as the loader meets it: its records in order, and whether
the read after them fails with an error other than `io.EOF`. -/
structure CsvData where
  records : List RawRecord
  readErr : Bool
  deriving DecidableEq, Repr

/-- The state of a `csv.Reader`: the records not yet read and the field
`FieldsPerRecord`. -/
structure Reader where
  input : List RawRecord
  readErr : Bool
  fieldsPerRecord : Nat
  deriving DecidableEq, Repr

/-- `csv.NewReader(file)`: `FieldsPerRecord` is 0 and the code never sets it. -/
def newReader (f : CsvData) : Reader :=
  { input := f.records, readErr := f.readErr, fieldsPerRecord := 0 }

/-- `(*csv.Reader).Read`. With `FieldsPerRecord` 0 the first record read sets it
to its number of fields; with `FieldsPerRecord` positive a record with another
number of fields is returned with `csv.ErrFieldCount`. -/
def Reader.read (r : Reader) : Except CsvErr (List Str) × Reader :=
  match r.input with
  | [] => (.error (if r.readErr then .io else .eof), r)
  | rec :: rest =>
    if 0 < r.fieldsPerRecord then
      if rec.badQuote then (.error .quote, { r with input := rest })
      else if rec.fields.length ≠ r.fieldsPerRecord then (.error .fieldCount, { r with input := rest })
      else (.ok rec.fields, { r with input := rest })
    else
      (if rec.badQuote then .error .quote else .ok rec.fields,
       { r with input := rest, fieldsPerRecord := rec.fields.length })

/-! ## The lexicon loader -/

deriving instance DecidableEq for Except

/-- The errors of `buildSocialSentimentTable`. -/
inductive LoadErr where
  | openFile
  | header (e : CsvErr)
  | record (e : CsvErr)
  deriving DecidableEq, Repr

/-- The body of the loop of `buildSocialSentimentTable` for a record that was
read (hw4.go:151-166): a record with fewer than 2 fields and a record whose
second field does not parse leave the table as it is (`continue`). -/
def storeRecord (table : Lexicon) (record : List Str) : Lexicon :=
  match record with
  | word :: field :: _ =>
    match parseFloat field with
    | some score => Lexicon.assign table word score
    | none => table
  | _ => table

/-- The loop of `buildSocialSentimentTable` (hw4.go:142-167). -/
def loadLoop : Nat → Reader → Lexicon → Except LoadErr Lexicon
  | 0, _, table => .ok table
  | fuel + 1, reader, table =>
    match reader.read with
    | (.error .eof, _) => .ok table
    | (.error e, _) => .error (.record e)
    | (.ok record, reader') => loadLoop fuel reader' (storeRecord table record)

/-- `buildSocialSentimentTable` (hw4.go:120-171). `file` is what
`os.Open(filename)` finds: `none` when the file cannot be opened. -/
def buildSocialSentimentTable (file : Option CsvData) : Except LoadErr Lexicon :=
  match file with
  | none => .error .openFile
  | some f =>
    match (newReader f).read with
    | (.error e, _) => .error (.header e)
    | (.ok _, reader) => loadLoop (reader.input.length + 1) reader []

/-! ## The lexicon file, row by row -/

/-- The rows after the first row of the file. -/
def dataRows (f : CsvData) : List (List Str) := (f.records.drop 1).map (fun r => r.fields)

/-- The entry a row stands for: its first field and the score its second field
parses to, when it has at least 2 fields and the second field parses. -/
def entryOf (row : List Str) : Option (Str × F64) :=
  match row with
  | word :: field :: _ => (parseFloat field).map (fun score => (word, score))
  | _ => none

/-- The score of the last row that stands for an entry with first field `word`. -/
def lastScore (rows : List (List Str)) (word : Str) : Option F64 :=
  (((rows.filterMap entryOf).filter (fun e => e.1 = word)).getLast?).map (fun e => e.2)

/-- The table with the entry of a row stored, when the row stands for one. -/
def storeRow (table : Lexicon) (row : List Str) : Lexicon :=
  match entryOf row with
  | some e => Lexicon.assign table e.1 e.2
  | none => table

/-- A lexicon file that loads: it has a first row, no read fails, no row has a
quoting error, and every row has as many fields as the first. -/
def validCsv (f : CsvData) : Bool :=
  match f.records with
  | [] => false
  | hdr :: rest =>
    !f.readErr && !hdr.badQuote &&
      rest.all (fun r => !r.badQuote && decide (r.fields.length = hdr.fields.length))

/-- A record without quoting error, from its fields as string literals. -/
def row (fields : List String) : RawRecord := { fields := fields.map bytes, badQuote := false }

/-- A lexicon file that is read without error, from the fields of its rows as
string literals. -/
def csvFile (rows : List (List String)) : CsvData := { records := rows.map row, readErr := false }

/-- A target file that is read without error, from its text as a string literal. -/
def textFile (text : String) : FileData := { content := bytes text, readErr := false }

/-! ## The words of a text -/

/-- The text cut at every white-space rune: the pieces between two consecutive
white-space runes, before the first and after the last, empty pieces included. -/
def fieldsOf (text : Str) : List Str :=
  ((chunks text).splitOnP (fun c => isSpace c.1)).map (fun piece => piece.flatMap Prod.snd)

/-- The whitespace-separated tokens of a text: its maximal runs of runes that
are not white space, in order. -/
def wordsOf (text : Str) : List Str := (fieldsOf text).filter (fun w => decide (w ≠ []))

/-- The score a token contributes: the lexicon's score of its cleaned form, when
the cleaned form is not empty and is a key of the lexicon. -/
def tokenScore (lowerTable : Nat → Nat) (sentimentMap : Lexicon) (token : Str) : Option F64 :=
  if clean lowerTable token = [] then none else Lexicon.index sentimentMap (clean lowerTable token)

/-- The sum, accumulated from 0 in the order of the text, of the scores the
tokens of the text contribute. -/
def sumOfScores (lowerTable : Nat → Nat) (sentimentMap : Lexicon) (text : Str) : F64 :=
  ((wordsOf text).filterMap (tokenScore lowerTable sentimentMap)).foldl F64.add F64.zero

/-! ## Cleaning: case and the case tables -/

/-- An ASCII lower-case letter turned into its upper-case letter; any other byte
is left as it is. -/
def upperByte (c : Byte) : Byte := if 0x61 ≤ c.val ∧ c.val ≤ 0x7A then c - 32 else c

/-- A string with its ASCII letters upper-cased. -/
def asciiUpper (s : Str) : Str := s.map upperByte

/-- A rune that is a Unicode scalar value: at most `utf8.MaxRune` and not a
surrogate. -/
def validRune (r : Nat) : Prop := r ≤ 0x10FFFF ∧ ¬(0xD800 ≤ r ∧ r ≤ 0xDFFF)

/-- What the idempotence of cleaning asks of the case tables of package
`unicode`: the lower-case form of a scalar value above ASCII is a scalar value,
is its own lower-case form, and is not one of the characters of the cutset. -/
def LowerTableOk (lowerTable : Nat → Nat) : Prop :=
  ∀ r, 0x80 ≤ r → validRune r →
    validRune (lowerTable r) ∧ unicodeToLower lowerTable (lowerTable r) = lowerTable r ∧
      ∀ c ∈ cutset, lowerTable r ≠ c.val

/-- The Latin-1 part of the case tables of package `unicode`: the upper-case
letters U+00C0..U+00DE (without the multiplication sign U+00D7) have their
lower-case letters 32 places higher. -/
def latin1Lower (r : Nat) : Nat := if 0xC0 ≤ r ∧ r ≤ 0xDE ∧ r ≠ 0xD7 then r + 32 else r

/-! ## The driver -/

/-- The default target file name (hw4.go:15). -/
def defaultFilename : Str := bytes "review.txt"

/-- The path of the lexicon file (hw4.go:31). -/
def lexiconPath : Str := bytes "socialsent.csv"

/-- What the run finds on disk: the lexicon file as the loader meets it, and for
every name the file the scorer meets; `none` is a file that cannot be opened. -/
structure World where
  lexicon : Option CsvData
  target : Str → Option FileData

/-- What one printing call writes to standard output: a constant text followed
by a newline (`fmt.Println` of a string constant), the line `Error: ...` for an
error of the loader or of the scorer, what the scorer prints, and the line
`<filename> Stars: <n>`. -/
inductive StdoutLine where
  | println (text : Str)
  | loadError (e : LoadErr)
  | scoreError (e : ScoreErr)
  | scorer (l : OutLine)
  | stars (filename : Str) (starRating : Int)
  deriving DecidableEq, Repr

/-- What a run of the program does: the lines it prints, the names it passes to
`os.Open` in order, and its exit status. -/
structure Run where
  stdout : List StdoutLine
  opened : List Str
  exitCode : Nat
  deriving DecidableEq, Repr

/-- The three calls of `fmt.Println` of the `default` case (hw4.go:24-26). -/
def usageLines : List StdoutLine :=
  [.println (bytes "Error: Too many arguments"),
   .println (bytes "Usage: program <filename>"),
   .println (bytes "\tIf a filename is not provided, 'review.txt' will be used")]

/-- The number of lines a constant text printed by `fmt.Println` takes: one more
than the newlines inside the text. -/
def printedLines (text : Str) : Nat := text.count 0x0A + 1

/-- The `switch len(os.Args)` of `main` (hw4.go:18-28): the target file name, or
`none` when the `default` case prints the usage error and calls `os.Exit(1)`.
`args` is `os.Args`, the program name first. -/
def resolveFilename (args : List Str) : Option Str :=
  match args with
  | [_] => some defaultFilename
  | [_, arg] => some arg
  | _ => none

/-- The part of `main` after the `switch` (hw4.go:30-47): load the lexicon, score
the target file, rate the total, print the rating. An error of the loader or of
the scorer is printed and `main` returns, which ends the program with status 0. -/
def pipeline (lowerTable : Nat → Nat) (w : World) (filename : Str) : Run :=
  match buildSocialSentimentTable w.lexicon with
  | .error e => { stdout := [.loadError e], opened := [lexiconPath], exitCode := 0 }
  | .ok socialSentimentMap =>
    let r := getSocialSentimentScore lowerTable (w.target filename) filename socialSentimentMap
    match r.err with
    | some e =>
      { stdout := r.out.map .scorer ++ [.scoreError e], opened := [lexiconPath, filename],
        exitCode := 0 }
    | none =>
      { stdout := r.out.map .scorer ++ [.stars filename (getStarRating r.total)],
        opened := [lexiconPath, filename], exitCode := 0 }

/-- `main` (hw4.go:13-49). -/
def main (lowerTable : Nat → Nat) (w : World) (args : List Str) : Run :=
  match resolveFilename args with
  | none => { stdout := usageLines, opened := [], exitCode := 1 }
  | some filename => pipeline lowerTable w filename

/-- A disk for examples: the lexicon `good,2.0` under the header `word,score`,
and one target file, "review.txt", with the text "good". -/
def exampleWorld : World :=
  { lexicon := some (csvFile [["word", "score"], ["good", "2.0"]]),
    target := fun name => if name = bytes "review.txt" then some (textFile "good") else none }

/-! ## The cases of the rater, one by one -/

/-- The five `case` clauses of the `switch` of `getStarRating` (hw4.go:179-188),
in the order of the source: the condition, and the stars it assigns. -/
def starCases : List ((F64 → Bool) × Int) :=
  [(fun t => F64.lt t (F64.ofInt (-5)), 1),
   (fun t => F64.ge t (F64.ofInt (-5)) && F64.lt t (F64.ofInt (-1)), 2),
   (fun t => F64.ge t (F64.ofInt (-1)) && F64.lt t (F64.ofInt 1), 3),
   (fun t => F64.ge t (F64.ofInt 1) && F64.lt t (F64.ofInt 5), 4),
   (fun t => F64.ge t (F64.ofInt 5), 5)]

/-- An expressionless `switch` over a list of cases that assign to a variable
whose zero value is 0: the first case whose condition holds decides. -/
def switchOn (cases : List ((F64 → Bool) × Int)) (t : F64) : Int :=
  match cases with
  | [] => 0
  | c :: rest => if c.1 t then c.2 else switchOn rest t

/-- The number of cases whose condition holds for `t`. -/
def casesHolding (cases : List ((F64 → Bool) × Int)) (t : F64) : Nat :=
  cases.countP (fun c => c.1 t)

/-! ## White space, upper case and deleted keys -/

/-- The bytes that are white space by themselves: tab, line feed, vertical tab,
form feed, carriage return and space. -/
def isAsciiSpace (b : Byte) : Bool := decide (b.val < 0x80) && isSpace b.val

/-- The entry of the key `k` deleted from the map, as `delete(m, k)` does. -/
def Lexicon.delete (m : Lexicon) (k : Str) : Lexicon := m.filter (fun e => !(e.1 == k))

/-- A string that holds a rune `bufio.ScanWords` treats as white space. -/
def hasSpace (s : Str) : Bool := (runes s).any isSpace

/-- A string that holds a rune with a lower-case form other than itself: an
upper-case letter. -/
def hasUpper (lowerTable : Nat → Nat) (s : Str) : Bool :=
  (runes s).any (fun r => decide (unicodeToLower lowerTable r ≠ r))

/-- What the scanning of words asks of the case tables of package `unicode`: the
lower-case form of a scalar value above ASCII that is not white space is not
white space. -/
def LowerTableSpace (lowerTable : Nat → Nat) : Prop :=
  ∀ r, 0x80 ≤ r → validRune r → isSpace r = false → isSpace (lowerTable r) = false

/-! ## Comparisons with the thresholds of the rater -/

theorem F64.one_pos : 0 < F64.one := by unfold F64.one; positivity

/-- `t < z` for a finite `t` and an integer constant `z`, in units. -/
theorem F64.lt_ofInt (n : Bool) (m : Nat) (z : Int) :
    F64.lt (F64.fin n m) (F64.ofInt z) = decide (F64.signed n m < z * F64.one) := by
  simp only [F64.lt, F64.ofInt, F64.signed]
  congr 1
  by_cases hz : z < 0
  · simp [hz, abs_of_neg hz]
  · simp [hz, abs_of_nonneg (not_lt.mp hz)]

/-- `t >= z` for a finite `t` and an integer constant `z`, in units. -/
theorem F64.ge_ofInt (n : Bool) (m : Nat) (z : Int) :
    F64.ge (F64.fin n m) (F64.ofInt z) = decide (z * F64.one ≤ F64.signed n m) := by
  simp only [F64.ge, F64.le, F64.ofInt, F64.signed]
  congr 1
  by_cases hz : z < 0
  · simp [hz, abs_of_neg hz]
  · simp [hz, abs_of_nonneg (not_lt.mp hz)]

/-- The rating of a finite total, by its number of units. -/
theorem getStarRating_fin (n : Bool) (m : Nat) :
    getStarRating (F64.fin n m) =
      if F64.signed n m < -5 * F64.one then 1
      else if F64.signed n m < -1 * F64.one then 2
      else if F64.signed n m < 1 * F64.one then 3
      else if F64.signed n m < 5 * F64.one then 4 else 5 := by
  have hK := F64.one_pos
  simp only [getStarRating, F64.lt_ofInt, F64.ge_ofInt, Bool.and_eq_true, decide_eq_true_eq]
  generalize F64.signed n m = x
  generalize F64.one = K at *
  split_ifs <;> first | rfl | omega

/-! ## The rater: the table of thresholds -/

/-- C1: for every total `t`, `getStarRating t` is 1 when `t < -5.0`, 2 when
`-5.0 <= t < -1.0`, 3 when `-1.0 <= t < 1.0`, 4 when `1.0 <= t < 5.0` and 5 when
`t >= 5.0` (the comparisons are Go's on float64); the boundary values -5.0,
-1.0, 1.0 and 5.0 are rated 2, 3, 4 and 5. -/
theorem getStarRating_table (t : F64) :
    (F64.lt t (F64.ofInt (-5)) = true → getStarRating t = 1) ∧
    (F64.ge t (F64.ofInt (-5)) = true ∧ F64.lt t (F64.ofInt (-1)) = true → getStarRating t = 2) ∧
    (F64.ge t (F64.ofInt (-1)) = true ∧ F64.lt t (F64.ofInt 1) = true → getStarRating t = 3) ∧
    (F64.ge t (F64.ofInt 1) = true ∧ F64.lt t (F64.ofInt 5) = true → getStarRating t = 4) ∧
    (F64.ge t (F64.ofInt 5) = true → getStarRating t = 5) ∧
    getStarRating (F64.ofInt (-5)) = 2 ∧ getStarRating (F64.ofInt (-1)) = 3 ∧
    getStarRating (F64.ofInt 1) = 4 ∧ getStarRating (F64.ofInt 5) = 5 := by
  refine ⟨?_, ?_, ?_, ?_, ?_, by decide, by decide, by decide, by decide⟩
  all_goals
    cases t with
    | nan => decide
    | inf b => cases b <;> decide
    | fin n m =>
      have hK := F64.one_pos
      rw [getStarRating_fin]
      simp only [F64.lt_ofInt, F64.ge_ofInt, decide_eq_true_eq]
      generalize F64.signed n m = x
      generalize F64.one = K at *
      intro h
      split_ifs <;> first | rfl | omega

/-- C1 at concrete totals: -7.0 is rated 1, -3.0 is rated 2, 0 is rated 3, 2.0 is
rated 4 and 9.0 is rated 5. -/
theorem getStarRating_table_witness :
    getStarRating (F64.ofInt (-7)) = 1 ∧ getStarRating (F64.ofInt (-3)) = 2 ∧
    getStarRating F64.zero = 3 ∧ getStarRating (F64.ofInt 2) = 4 ∧
    getStarRating (F64.ofInt 9) = 5 :=
  ⟨(getStarRating_table (F64.ofInt (-7))).1 (by decide),
   (getStarRating_table (F64.ofInt (-3))).2.1 (by decide),
   (getStarRating_table F64.zero).2.2.1 (by decide),
   (getStarRating_table (F64.ofInt 2)).2.2.2.1 (by decide),
   (getStarRating_table (F64.ofInt 9)).2.2.2.2.1 (by decide)⟩

/-! ## The lexicon as a map -/

theorem Lexicon.index_filter_ne (m : Lexicon) (w k : Str) (h : k ≠ w) :
    Lexicon.index (m.filter (fun e => !(e.1 == w))) k = Lexicon.index m k := by
  induction m with
  | nil => rfl
  | cons e m ih =>
    obtain ⟨a, b⟩ := e
    by_cases haw : a = w
    · subst haw
      have : (k == a) = false := by simpa using h
      simp [Lexicon.index, List.lookup, this] at ih ⊢
      exact ih
    · by_cases hka : k = a
      · subst hka
        simp [Lexicon.index, List.lookup, haw]
      · have : (k == a) = false := by simpa using hka
        simp [Lexicon.index, List.lookup, haw, this] at ih ⊢
        exact ih

theorem Lexicon.index_assign (m : Lexicon) (w : Str) (s : F64) (k : Str) :
    Lexicon.index (Lexicon.assign m w s) k = if k = w then some s else Lexicon.index m k := by
  by_cases h : k = w
  · subst h; simp [Lexicon.index, Lexicon.assign, List.lookup]
  · have : (k == w) = false := by simpa using h
    have h2 := Lexicon.index_filter_ne m w k h
    simp only [Lexicon.index, Lexicon.assign, List.lookup, this, h, if_false] at h2 ⊢
    exact h2

theorem Lexicon.keys_assign (m : Lexicon) (w : Str) (s : F64) :
    (Lexicon.assign m w s).map Prod.fst = w :: (m.map Prod.fst).filter (fun k => !(k == w)) := by
  simp [Lexicon.assign, List.filter_map, Function.comp_def]

theorem Lexicon.nodup_assign (m : Lexicon) (w : Str) (s : F64) (h : (m.map Prod.fst).Nodup) :
    ((Lexicon.assign m w s).map Prod.fst).Nodup := by
  rw [Lexicon.keys_assign]
  refine List.nodup_cons.mpr ⟨?_, h.filter _⟩
  simp [List.mem_filter]

/-! ## The loop of the loader -/

theorem storeRecord_eq (m : Lexicon) (row : List Str) : storeRecord m row = storeRow m row := by
  rcases row with _ | ⟨word, _ | ⟨field, more⟩⟩
  · rfl
  · rfl
  · cases hp : parseFloat field <;> simp [storeRecord, storeRow, entryOf, hp]

theorem loadLoop_ok (fuel : Nat) : ∀ (r : Reader) (m m' : Lexicon),
    r.input.length < fuel → loadLoop fuel r m = .ok m' →
    m' = (r.input.map (fun rec => rec.fields)).foldl storeRow m := by
  induction fuel with
  | zero => intro r m m' h; omega
  | succ fuel ih =>
    intro r m m' hlen h
    obtain ⟨input, readErr, fpr⟩ := r
    cases input with
    | nil =>
      cases readErr <;> simp [loadLoop, Reader.read] at h
      simp [h]
    | cons rec rest =>
      simp only [List.length_cons] at hlen
      simp only [List.map_cons, List.foldl_cons]
      unfold loadLoop at h
      simp only [Reader.read] at h
      rw [← storeRecord_eq]
      by_cases hpos : 0 < fpr
      · simp only [hpos, if_true] at h
        by_cases hq : rec.badQuote = true
        · simp [hq] at h
        · simp only [hq] at h
          by_cases hn : rec.fields.length ≠ fpr
          · simp [hn] at h
          · simp only [hn, if_false] at h
            exact ih _ _ _ (by simpa using hlen) h
      · simp only [hpos, if_false] at h
        by_cases hq : rec.badQuote = true
        · simp [hq] at h
        · simp only [hq] at h
          exact ih _ _ _ (by simpa using hlen) h

/-- A reader whose remaining records all have the expected number of fields and
no quoting error, and whose input ends without a read error, is read to the end. -/
theorem loadLoop_uniform (fuel : Nat) : ∀ (r : Reader) (m : Lexicon),
    r.input.length < fuel → r.readErr = false →
    (∀ rec ∈ r.input, rec.badQuote = false ∧ rec.fields.length = r.fieldsPerRecord) →
    loadLoop fuel r m = .ok ((r.input.map (fun rec => rec.fields)).foldl storeRow m) := by
  induction fuel with
  | zero => intro r m h; omega
  | succ fuel ih =>
    intro r m hlen herr hall
    obtain ⟨input, readErr, fpr⟩ := r
    simp only at herr
    subst herr
    cases input with
    | nil => simp [loadLoop, Reader.read]
    | cons rec rest =>
      simp only [List.length_cons] at hlen
      have h1 := hall rec (List.mem_cons_self _ _)
      simp only at h1
      simp only [List.map_cons, List.foldl_cons]
      unfold loadLoop
      simp only [Reader.read, h1.1, h1.2]
      rw [← storeRecord_eq]
      by_cases hpos : 0 < fpr
      · simp only [hpos, if_true, ne_eq, not_true_eq_false, if_false, Bool.false_eq_true]
        exact ih _ _ (by simpa using hlen) rfl (fun r hr => hall r (List.mem_cons_of_mem _ hr))
      · simp only [hpos, if_false, Bool.false_eq_true]
        exact ih _ _ (by simpa using hlen) rfl (fun r hr => hall r (List.mem_cons_of_mem _ hr))

/-! ## The table a load returns -/

theorem lastScore_snoc (rows : List (List Str)) (r : List Str) (k : Str) :
    lastScore (rows ++ [r]) k =
      match entryOf r with
      | some e => if e.1 = k then some e.2 else lastScore rows k
      | none => lastScore rows k := by
  unfold lastScore
  rw [List.filterMap_append, List.filter_append]
  cases he : entryOf r with
  | none => simp [he]
  | some e =>
    by_cases hk : e.1 = k
    · simp [he, hk, List.getLast?_append]
    · simp [he, hk]

theorem index_foldl_storeRow (rows : List (List Str)) (m : Lexicon) (k : Str) :
    Lexicon.index (rows.foldl storeRow m) k =
      match lastScore rows k with
      | some s => some s
      | none => Lexicon.index m k := by
  induction rows using List.reverseRecOn with
  | nil => simp [lastScore]
  | append_singleton rows r ih =>
    rw [List.foldl_append, lastScore_snoc]
    simp only [List.foldl_cons, List.foldl_nil]
    cases he : entryOf r with
    | none => simpa [storeRow, he] using ih
    | some e =>
      simp only [storeRow, he, Lexicon.index_assign]
      by_cases hk : e.1 = k
      · simp [hk]
      · have hk' : ¬ k = e.1 := fun h => hk h.symm
        simpa [hk, hk'] using ih

theorem nodup_foldl_storeRow (rows : List (List Str)) (m : Lexicon)
    (h : (m.map Prod.fst).Nodup) : ((rows.foldl storeRow m).map Prod.fst).Nodup := by
  induction rows generalizing m with
  | nil => simpa using h
  | cons r rows ih =>
    simp only [List.foldl_cons]
    apply ih
    unfold storeRow
    cases entryOf r with
    | none => exact h
    | some e => exact Lexicon.nodup_assign m e.1 e.2 h

theorem Lexicon.mem_keys_iff (m : Lexicon) (k : Str) :
    k ∈ m.map Prod.fst ↔ ∃ s, Lexicon.index m k = some s := by
  induction m with
  | nil => simp [Lexicon.index]
  | cons e m ih =>
    obtain ⟨a, b⟩ := e
    by_cases hka : k = a
    · subst hka; simp [Lexicon.index, List.lookup]
    · have : (k == a) = false := by simpa using hka
      simp only [Lexicon.index, List.lookup, this, List.map_cons, List.mem_cons, hka, false_or] at ih ⊢
      exact ih

theorem lastScore_isSome_iff (rows : List (List Str)) (k : Str) :
    (∃ s, lastScore rows k = some s) ↔
      ∃ row ∈ rows, ∃ field more score, row = k :: field :: more ∧ parseFloat field = some score := by
  induction rows using List.reverseRecOn with
  | nil => simp [lastScore]
  | append_singleton rows r ih =>
    rw [lastScore_snoc]
    constructor
    · intro ⟨s, hs⟩
      cases he : entryOf r with
      | none =>
        rw [he] at hs
        obtain ⟨row, hrow, h⟩ := ih.mp ⟨s, hs⟩
        exact ⟨row, List.mem_append_left _ hrow, h⟩
      | some e =>
        rw [he] at hs
        by_cases hk : e.1 = k
        · refine ⟨r, by simp, ?_⟩
          rcases r with _ | ⟨word, _ | ⟨field, more⟩⟩
          · simp [entryOf] at he
          · simp [entryOf] at he
          · cases hp : parseFloat field with
            | none => simp [entryOf, hp] at he
            | some score =>
              simp [entryOf, hp] at he
              subst he
              exact ⟨field, more, score, by simpa using hk, hp⟩
        · simp only [hk, if_false] at hs
          obtain ⟨row, hrow, h⟩ := ih.mp ⟨s, hs⟩
          exact ⟨row, List.mem_append_left _ hrow, h⟩
    · rintro ⟨row, hrow, field, more, score, rfl, hp⟩
      rcases List.mem_append.mp hrow with h | h
      · obtain ⟨s, hs⟩ := ih.mpr ⟨_, h, field, more, score, rfl, hp⟩
        cases he : entryOf r with
        | none => exact ⟨s, hs⟩
        | some e =>
          by_cases hk : e.1 = k
          · exact ⟨e.2, by simp [hk]⟩
          · exact ⟨s, by simpa [hk] using hs⟩
      · simp only [List.mem_singleton] at h
        subst h
        exact ⟨score, by simp [entryOf, hp]⟩

theorem build_ok (f : CsvData) (m : Lexicon) (h : buildSocialSentimentTable (some f) = .ok m) :
    m = (dataRows f).foldl storeRow [] := by
  obtain ⟨records, readErr⟩ := f
  cases records with
  | nil => cases readErr <;> simp [buildSocialSentimentTable, newReader, Reader.read] at h
  | cons hdr rest =>
    simp only [buildSocialSentimentTable, newReader, Reader.read, lt_irrefl, if_false] at h
    by_cases hq : hdr.badQuote = true
    · simp [hq] at h
    · simp only [hq, if_false] at h
      have := loadLoop_ok _ _ _ _ (by simp) h
      simpa [dataRows] using this

theorem build_valid (f : CsvData) (hv : validCsv f = true) :
    buildSocialSentimentTable (some f) = .ok ((dataRows f).foldl storeRow []) := by
  obtain ⟨records, readErr⟩ := f
  cases records with
  | nil => simp [validCsv] at hv
  | cons hdr rest =>
    simp only [validCsv, Bool.and_eq_true, Bool.not_eq_true', List.all_eq_true,
      decide_eq_true_eq] at hv
    obtain ⟨⟨he, hq⟩, hall⟩ := hv
    simp only [buildSocialSentimentTable, newReader, Reader.read, lt_irrefl, if_false, hq,
      Bool.false_eq_true]
    have := loadLoop_uniform (rest.length + 1)
      { input := rest, readErr := readErr, fieldsPerRecord := hdr.fields.length } []
      (by simp) he (by simpa using hall)
    simpa [dataRows] using this

/-! ## Rows the loader passes over -/

/-- Reading the next record when `FieldsPerRecord` is already set. -/
theorem Reader.read_cons (rec : RawRecord) (rest : List RawRecord) (readErr : Bool) (fpr : Nat)
    (hpos : 0 < fpr) :
    Reader.read { input := rec :: rest, readErr := readErr, fieldsPerRecord := fpr } =
      (if rec.badQuote = true then .error .quote
       else if rec.fields.length ≠ fpr then .error .fieldCount else .ok rec.fields,
       { input := rest, readErr := readErr, fieldsPerRecord := fpr }) := by
  simp only [Reader.read, hpos, if_true]
  split_ifs <;> rfl

/-- The loop gives the same answer with any fuel above the number of records. -/
theorem loadLoop_fuel (input : List RawRecord) : ∀ (a b : Nat) (readErr : Bool) (fpr : Nat)
    (m : Lexicon), 0 < fpr → input.length < a → input.length < b →
    loadLoop a { input := input, readErr := readErr, fieldsPerRecord := fpr } m =
      loadLoop b { input := input, readErr := readErr, fieldsPerRecord := fpr } m := by
  induction input with
  | nil =>
    intro a b readErr fpr m _ ha hb
    obtain ⟨a, rfl⟩ : ∃ k, a = k + 1 := ⟨a - 1, by simp at ha; omega⟩
    obtain ⟨b, rfl⟩ : ∃ k, b = k + 1 := ⟨b - 1, by simp at hb; omega⟩
    cases readErr <;> simp [loadLoop, Reader.read]
  | cons rec rest ih =>
    intro a b readErr fpr m hpos ha hb
    simp only [List.length_cons] at ha hb
    obtain ⟨a, rfl⟩ : ∃ k, a = k + 1 := ⟨a - 1, by omega⟩
    obtain ⟨b, rfl⟩ : ∃ k, b = k + 1 := ⟨b - 1, by omega⟩
    simp only [loadLoop, Reader.read_cons _ _ _ _ hpos]
    by_cases hq : rec.badQuote = true
    · simp [hq]
    · by_cases hn : rec.fields.length ≠ fpr
      · simp [hq, hn]
      · simp only [hq, hn, if_false]
        exact ih a b readErr fpr _ hpos (by omega) (by omega)

/-- A record with the expected number of fields that leaves the table as it is
can be taken out of the input. -/
theorem loadLoop_skip (pre : List RawRecord) : ∀ (a b : Nat) (readErr : Bool) (fpr : Nat)
    (m : Lexicon) (r : RawRecord) (post : List RawRecord), 0 < fpr →
    (pre ++ r :: post).length < a → (pre ++ post).length < b →
    r.badQuote = false → r.fields.length = fpr → (∀ t, storeRecord t r.fields = t) →
    loadLoop a { input := pre ++ r :: post, readErr := readErr, fieldsPerRecord := fpr } m =
      loadLoop b { input := pre ++ post, readErr := readErr, fieldsPerRecord := fpr } m := by
  induction pre with
  | nil =>
    intro a b readErr fpr m r post hpos ha hb hq hn hs
    simp only [List.nil_append, List.length_cons] at ha hb ⊢
    obtain ⟨a, rfl⟩ : ∃ k, a = k + 1 := ⟨a - 1, by omega⟩
    simp only [loadLoop, Reader.read_cons _ _ _ _ hpos, hq, hn, hs, ne_eq, not_true_eq_false,
      if_false, Bool.false_eq_true]
    exact loadLoop_fuel post a b readErr fpr m hpos (by omega) hb
  | cons rec rest ih =>
    intro a b readErr fpr m r post hpos ha hb hq hn hs
    simp only [List.cons_append, List.length_cons] at ha hb ⊢
    obtain ⟨a, rfl⟩ : ∃ k, a = k + 1 := ⟨a - 1, by omega⟩
    obtain ⟨b, rfl⟩ : ∃ k, b = k + 1 := ⟨b - 1, by omega⟩
    simp only [loadLoop, Reader.read_cons _ _ _ _ hpos]
    by_cases hq' : rec.badQuote = true
    · simp [hq']
    · by_cases hn' : rec.fields.length ≠ fpr
      · simp [hq', hn']
      · simp only [hq', hn', if_false]
        exact ih a b readErr fpr _ r post hpos (by omega) (by omega) hq hn hs

/-- A data row with as many fields as the first row of the file whose second
field does not parse as a number is skipped. The load of the file succeeds
exactly when the load of the file without that row succeeds, and with the same
mapping: no failure is due to the row, and no entry of the mapping. -/
theorem non_numeric_row_passed_over (hdr : RawRecord) (pre post : List RawRecord)
    (readErr : Bool) (word field : Str) (more : List Str) (hnum : parseFloat field = none)
    (hlen : (word :: field :: more).length = hdr.fields.length) (m : Lexicon) :
    buildSocialSentimentTable (some { records := hdr :: (pre ++
        { fields := word :: field :: more, badQuote := false } :: post), readErr := readErr }) =
      .ok m ↔
    buildSocialSentimentTable (some { records := hdr :: (pre ++ post), readErr := readErr }) =
      .ok m := by
  have key : buildSocialSentimentTable (some { records := hdr :: (pre ++
        { fields := word :: field :: more, badQuote := false } :: post), readErr := readErr }) =
      buildSocialSentimentTable (some { records := hdr :: (pre ++ post), readErr := readErr }) := by
    simp only [buildSocialSentimentTable, newReader, Reader.read, lt_irrefl, if_false]
    by_cases hq : hdr.badQuote = true
    · simp [hq]
    · simp only [hq, if_false]
      have hpos : 0 < hdr.fields.length := by rw [← hlen]; simp
      exact loadLoop_skip pre _ _ readErr _ [] _ post hpos (by simp) (by simp) rfl hlen
        (fun t => by simp [storeRecord, hnum])
  rw [key]

set_option maxRecDepth 100000 in
/-- The row `weird,abc` between `good,2.0` and `bad,-3.0`: the file loads to the
mapping of the file without the row. -/
theorem non_numeric_row_passed_over_example :
    buildSocialSentimentTable (some (csvFile
        [["word", "score"], ["good", "2.0"], ["weird", "abc"], ["bad", "-3.0"]])) =
      .ok [(bytes "bad", F64.ofInt (-3)), (bytes "good", F64.ofInt 2)] :=
  (non_numeric_row_passed_over (row ["word", "score"]) [row ["good", "2.0"]]
    [row ["bad", "-3.0"]] false (bytes "weird") (bytes "abc") [] (by decide) (by decide) _).mpr
    (by decide)

set_option maxRecDepth 100000 in
/-- C6 on the code: after the first row `word,score` the row `weird,abc,x`,
whose second field is not a number, is not skipped. The reader returns it with
`csv.ErrFieldCount`, since `FieldsPerRecord` is left at 0 and the first row has
fixed the number of fields at 2, and the load ends with that error before the
score is parsed (hw4.go:147-149), although the comment at hw4.go:161 says the
row is skipped. The file without the row loads, to the mapping `good = 2.0`. -/
theorem non_numeric_row_not_skipped :
    parseFloat (bytes "abc") = none ∧
    buildSocialSentimentTable
        (some (csvFile [["word", "score"], ["weird", "abc", "x"], ["good", "2.0"]])) =
      .error (.record .fieldCount) ∧
    buildSocialSentimentTable (some (csvFile [["word", "score"], ["good", "2.0"]])) =
      .ok [(bytes "good", F64.ofInt 2)] := by
  decide

set_option maxRecDepth 100000 in
/-- C7 on the code: after the first row `word,score` the row `lonely`, which has
one field, ends the load with `csv.ErrFieldCount`; the check `len(record) < 2`
is never reached for it. The file without the row loads. -/
theorem short_row_is_fatal :
    buildSocialSentimentTable (some (csvFile [["word", "score"], ["lonely"], ["good", "2.0"]])) =
      .error (.record .fieldCount) ∧
    buildSocialSentimentTable (some (csvFile [["word", "score"], ["good", "2.0"]])) =
      .ok [(bytes "good", F64.ofInt 2)] := by
  decide

/-! ## The loader: what the table holds -/

/-- C5: a valid lexicon file (it has a first row, it is read without error and
all its rows have the same number of fields) loads, and the mapping returned has
one entry per key; its keys are exactly the first fields of the rows after the
first row that have at least 2 fields and a second field that parses as a
number, and each key maps to the score of the last such row with that first
field. -/
theorem buildSocialSentimentTable_valid (f : CsvData) (hv : validCsv f = true) :
    ∃ m, buildSocialSentimentTable (some f) = .ok m ∧
      (m.map Prod.fst).Nodup ∧
      (∀ k, k ∈ m.map Prod.fst ↔
        ∃ r ∈ dataRows f, ∃ field more score,
          r = k :: field :: more ∧ parseFloat field = some score) ∧
      (∀ k, Lexicon.index m k = lastScore (dataRows f) k) := by
  refine ⟨_, build_valid f hv, nodup_foldl_storeRow _ _ (by simp), ?_, ?_⟩
  · intro k
    rw [Lexicon.mem_keys_iff, ← lastScore_isSome_iff]
    simp only [index_foldl_storeRow]
    cases lastScore (dataRows f) k <;> simp [Lexicon.index]
  · intro k
    rw [index_foldl_storeRow]
    cases lastScore (dataRows f) k <;> simp [Lexicon.index]

set_option maxRecDepth 100000 in
/-- C5 at a concrete file: of two rows for `good` the later one gives the score,
and the row `weird,abc` gives no key. -/
theorem buildSocialSentimentTable_valid_witness :
    ∃ m, buildSocialSentimentTable (some (csvFile [["word", "score"], ["good", "2.0"],
        ["weird", "abc"], ["bad", "-3.0"], ["good", "5"]])) = .ok m ∧
      (m.map Prod.fst).Nodup ∧
      (∀ k, k ∈ m.map Prod.fst ↔
        ∃ r ∈ dataRows (csvFile [["word", "score"], ["good", "2.0"], ["weird", "abc"],
            ["bad", "-3.0"], ["good", "5"]]), ∃ field more score,
          r = k :: field :: more ∧ parseFloat field = some score) ∧
      (∀ k, Lexicon.index m k = lastScore (dataRows (csvFile [["word", "score"],
        ["good", "2.0"], ["weird", "abc"], ["bad", "-3.0"], ["good", "5"]])) k) :=
  buildSocialSentimentTable_valid _ (by decide)

/-- C8: the loader discards the first row and no other. Whenever a load
succeeds, every lookup in the mapping is answered from the rows after the first
row alone, every key of the mapping is the first field of such a row byte for
byte, a file made of one row of the shape `word,score` gives the empty mapping,
and a second row with a score that parses is stored. -/
theorem header_row_discarded (f : CsvData) (m : Lexicon)
    (h : buildSocialSentimentTable (some f) = .ok m) :
    (∀ k, Lexicon.index m k = lastScore (dataRows f) k) ∧
    (∀ k ∈ m.map Prod.fst, ∃ r ∈ dataRows f, r.head? = some k) ∧
    (∀ word field : Str, buildSocialSentimentTable
        (some { records := [{ fields := [word, field], badQuote := false }], readErr := false }) =
      .ok []) ∧
    (∀ (hdr : RawRecord) (word field : Str) (score : F64), hdr.badQuote = false →
      hdr.fields.length = 2 → parseFloat field = some score →
      buildSocialSentimentTable (some { records := [hdr,
        { fields := [word, field], badQuote := false }], readErr := false }) =
      .ok [(word, score)]) := by
  have hm := build_ok f m h
  refine ⟨?_, ?_, ?_, ?_⟩
  · intro k
    rw [hm, index_foldl_storeRow]
    cases lastScore (dataRows f) k <;> simp [Lexicon.index]
  · intro k hk
    rw [Lexicon.mem_keys_iff, hm] at hk
    have h2 : ∃ s, lastScore (dataRows f) k = some s := by
      obtain ⟨s, hs⟩ := hk
      rw [index_foldl_storeRow] at hs
      cases hl : lastScore (dataRows f) k with
      | none => rw [hl] at hs; simp [Lexicon.index] at hs
      | some s' => exact ⟨s', rfl⟩
    obtain ⟨r, hr, field, more, score, rfl, _⟩ := (lastScore_isSome_iff _ _).mp h2
    exact ⟨_, hr, rfl⟩
  · intro word field
    simp [buildSocialSentimentTable, newReader, Reader.read, loadLoop]
  · intro hdr word field score hq hlen hp
    simp [buildSocialSentimentTable, newReader, Reader.read, loadLoop, hq, hlen, storeRecord, hp,
      Lexicon.assign]

set_option maxRecDepth 100000 in
/-- C8 at a concrete file: a first row `good,2.0` is not stored, the second row
`bad,-3.0` is. -/
theorem header_row_discarded_witness :
    (∀ k, Lexicon.index [(bytes "bad", F64.ofInt (-3))] k =
      lastScore (dataRows (csvFile [["good", "2.0"], ["bad", "-3.0"]])) k) ∧
    (∀ k ∈ ([(bytes "bad", F64.ofInt (-3))] : Lexicon).map Prod.fst,
      ∃ r ∈ dataRows (csvFile [["good", "2.0"], ["bad", "-3.0"]]), r.head? = some k) :=
  ⟨(header_row_discarded (csvFile [["good", "2.0"], ["bad", "-3.0"]])
      [(bytes "bad", F64.ofInt (-3))] (by decide)).1,
   (header_row_discarded (csvFile [["good", "2.0"], ["bad", "-3.0"]])
      [(bytes "bad", F64.ofInt (-3))] (by decide)).2.1⟩

/-! ## Worked examples -/

set_option maxRecDepth 100000 in
/-- C10: with the lexicon loaded from a first row followed by the rows
`good,2.0` and `bad,-3.0`, the text "good good bad" is read without error,
scores exactly 1.0 and is rated 4 stars, and the text "bad bad bad bad" scores
exactly -12.0 and is rated 1 star. -/
theorem good_bad_example (lowerTable : Nat → Nat) (hdr : RawRecord) (readErr : Bool)
    (filename : Str) (m : Lexicon)
    (h : buildSocialSentimentTable (some (CsvData.mk
      [hdr, row ["good", "2.0"], row ["bad", "-3.0"]] readErr)) = .ok m) :
    (getSocialSentimentScore lowerTable (some (textFile "good good bad")) filename m).err = none ∧
    (getSocialSentimentScore lowerTable (some (textFile "good good bad")) filename m).total =
      F64.ofInt 1 ∧
    getStarRating
      (getSocialSentimentScore lowerTable (some (textFile "good good bad")) filename m).total = 4 ∧
    (getSocialSentimentScore lowerTable (some (textFile "bad bad bad bad")) filename m).err =
      none ∧
    (getSocialSentimentScore lowerTable (some (textFile "bad bad bad bad")) filename m).total =
      F64.ofInt (-12) ∧
    getStarRating
      (getSocialSentimentScore lowerTable (some (textFile "bad bad bad bad")) filename m).total =
      1 := by
  have hm : m = [(bytes "bad", F64.ofInt (-3)), (bytes "good", F64.ofInt 2)] := by
    rw [build_ok _ m h]
    rfl
  subst hm
  exact ⟨by rfl, by rfl, by rfl, by rfl, by rfl, by rfl⟩

set_option maxRecDepth 100000 in
/-- C10 with the first row `word,score`: the file loads, and the two texts score
1.0 and -12.0. -/
theorem good_bad_example_witness :
    buildSocialSentimentTable (some (CsvData.mk
      [row ["word", "score"], row ["good", "2.0"], row ["bad", "-3.0"]] false)) =
      .ok [(bytes "bad", F64.ofInt (-3)), (bytes "good", F64.ofInt 2)] ∧
    (getSocialSentimentScore id (some (textFile "good good bad")) (bytes "review.txt")
      [(bytes "bad", F64.ofInt (-3)), (bytes "good", F64.ofInt 2)]).total = F64.ofInt 1 ∧
    (getSocialSentimentScore id (some (textFile "bad bad bad bad")) (bytes "review.txt")
      [(bytes "bad", F64.ofInt (-3)), (bytes "good", F64.ofInt 2)]).total = F64.ofInt (-12) :=
  ⟨by decide,
   (good_bad_example id (row ["word", "score"]) false (bytes "review.txt")
      [(bytes "bad", F64.ofInt (-3)), (bytes "good", F64.ofInt 2)] (by decide)).2.1,
   (good_bad_example id (row ["word", "score"]) false (bytes "review.txt")
      [(bytes "bad", F64.ofInt (-3)), (bytes "good", F64.ofInt 2)] (by decide)).2.2.2.2.1⟩

set_option maxRecDepth 100000 in
/-- C9 on the code: the lexicon file with the rows `word,score` and `bad,NaN`
loads, because `strconv.ParseFloat` accepts `NaN`; the text "bad" is then read
without error, its total is NaN, for which no case of `getStarRating` holds, and
the rating is 0. -/
theorem nan_total_rated_zero (lowerTable : Nat → Nat) (filename : Str) :
    buildSocialSentimentTable (some (csvFile [["word", "score"], ["bad", "NaN"]])) =
      .ok [(bytes "bad", F64.nan)] ∧
    (getSocialSentimentScore lowerTable (some (textFile "bad")) filename
      [(bytes "bad", F64.nan)]).err = none ∧
    (getSocialSentimentScore lowerTable (some (textFile "bad")) filename
      [(bytes "bad", F64.nan)]).total = F64.nan ∧
    getStarRating (getSocialSentimentScore lowerTable (some (textFile "bad")) filename
      [(bytes "bad", F64.nan)]).total = 0 :=
  ⟨by decide, by rfl, by rfl, by rfl⟩

/-! ## Decoding runes -/

theorem decodeRune_width_pos (b : Byte) (bs : Str) : 1 ≤ (decodeRune (b :: bs)).2 := by
  rcases bs with _ | ⟨b1, _ | ⟨b2, _ | ⟨b3, rest⟩⟩⟩ <;> simp only [decodeRune] <;>
    split_ifs <;> simp

theorem decodeRune_width_le (s : Str) : (decodeRune s).2 ≤ s.length := by
  rcases s with _ | ⟨b0, _ | ⟨b1, _ | ⟨b2, _ | ⟨b3, rest⟩⟩⟩⟩ <;> simp only [decodeRune] <;>
    (try split_ifs) <;> simp

/-- Only the first four bytes matter. -/
theorem decodeRune_take (s : Str) (n : Nat) (h : 4 ≤ n) : decodeRune (s.take n) = decodeRune s := by
  obtain ⟨n, rfl⟩ : ∃ k, n = k + 4 := ⟨n - 4, by omega⟩
  rcases s with _ | ⟨b0, _ | ⟨b1, _ | ⟨b2, _ | ⟨b3, rest⟩⟩⟩⟩ <;> simp [decodeRune]

/-- What is left after the first rune is shorter. -/
theorem length_drop_rune (b : Byte) (bs : Str) :
    ((b :: bs).drop (decodeRune (b :: bs)).2).length < (b :: bs).length := by
  have := decodeRune_width_pos b bs
  simp only [List.length_drop, List.length_cons]
  omega

/-- Induction along the runes of a string. -/
theorem rune_induction {P : Str → Prop} (nil : P [])
    (step : ∀ b bs, P ((b :: bs).drop (decodeRune (b :: bs)).2) → P (b :: bs)) : ∀ s, P s := by
  have key : ∀ n, ∀ s : Str, s.length ≤ n → P s := by
    intro n
    induction n with
    | zero =>
      intro s hs
      cases s with
      | nil => exact nil
      | cons b bs => simp at hs
    | succ n ih =>
      intro s hs
      cases s with
      | nil => exact nil
      | cons b bs =>
        apply step
        apply ih
        have := length_drop_rune b bs
        simp only [List.length_cons] at hs this
        omega
  exact fun s => key s.length s le_rfl

/-! ## The runes of a string -/

theorem chunksAux_fuel (fuel : Nat) : ∀ (s : Str), s.length ≤ fuel →
    chunksAux fuel s = chunksAux s.length s := by
  induction fuel using Nat.strong_induction_on with
  | _ fuel ih =>
    intro s hs
    cases s with
    | nil => cases fuel <;> rfl
    | cons b bs =>
      obtain ⟨fuel, rfl⟩ : ∃ k, fuel = k + 1 := ⟨fuel - 1, by simp at hs; omega⟩
      have hlt := length_drop_rune b bs
      simp only [List.length_cons] at hs hlt ⊢
      simp only [chunksAux]
      rw [ih fuel (by omega) _ (by omega), ih bs.length (by omega) _ (by omega)]

theorem chunks_nil : chunks [] = [] := rfl

theorem chunks_cons (b : Byte) (bs : Str) :
    chunks (b :: bs) =
      ((decodeRune (b :: bs)).1, (b :: bs).take (decodeRune (b :: bs)).2) ::
        chunks ((b :: bs).drop (decodeRune (b :: bs)).2) := by
  have hlt := length_drop_rune b bs
  simp only [List.length_cons] at hlt
  simp only [chunks, List.length_cons, chunksAux]
  rw [chunksAux_fuel bs.length _ (by omega)]

/-! ## The pieces of a text -/

theorem fieldsOf_nil : fieldsOf [] = [[]] := by
  simp [fieldsOf, chunks_nil]

theorem fieldsOf_space (b : Byte) (bs : Str) (h : isSpace (decodeRune (b :: bs)).1 = true) :
    fieldsOf (b :: bs) = [] :: fieldsOf ((b :: bs).drop (decodeRune (b :: bs)).2) := by
  simp [fieldsOf, chunks_cons, List.splitOnP_cons, h]

theorem fieldsOf_ne_nil (s : Str) : fieldsOf s ≠ [] := by
  simp [fieldsOf, List.splitOnP_ne_nil]

theorem fieldsOf_not_space (b : Byte) (bs : Str) (h : isSpace (decodeRune (b :: bs)).1 = false) :
    fieldsOf (b :: bs) =
      (fieldsOf ((b :: bs).drop (decodeRune (b :: bs)).2)).modifyHead
        (fun w => (b :: bs).take (decodeRune (b :: bs)).2 ++ w) := by
  simp only [fieldsOf, chunks_cons, List.splitOnP_cons, h, Bool.false_eq_true, if_false]
  generalize List.splitOnP _ (chunks _) = l
  cases l <;> simp [List.modifyHead]

/-! ## The two loops of `bufio.ScanWords` -/

/-- Skipping leading spaces drops empty pieces only. -/
theorem skipSpaces_spec (fuel : Nat) : ∀ (s : Str), s.length ≤ fuel →
    wordsOf (skipSpaces fuel s) = wordsOf s ∧
    (skipSpaces fuel s).length ≤ s.length ∧
    (∀ b bs, skipSpaces fuel s = b :: bs → isSpace (decodeRune (b :: bs)).1 = false) := by
  induction fuel with
  | zero =>
    intro s hs
    cases s with
    | nil => simp [skipSpaces]
    | cons b bs => simp at hs
  | succ fuel ih =>
    intro s hs
    cases s with
    | nil => simp [skipSpaces]
    | cons b bs =>
      have hlt := length_drop_rune b bs
      simp only [List.length_cons] at hs hlt
      by_cases hsp : isSpace (decodeRune (b :: bs)).1 = true
      · obtain ⟨h1, h2, h3⟩ := ih ((b :: bs).drop (decodeRune (b :: bs)).2) (by omega)
        simp only [skipSpaces, hsp, if_true]
        refine ⟨?_, ?_, h3⟩
        · rw [h1]
          simp [wordsOf, fieldsOf_space b bs hsp]
        · simp only [List.length_cons]; omega
      · have hk : skipSpaces (fuel + 1) (b :: bs) = b :: bs := by simp [skipSpaces, hsp]
        rw [hk]
        refine ⟨rfl, le_rfl, ?_⟩
        intro b' bs' h
        rw [← h]
        simpa using hsp

/-- What the search for the closing space finds, in terms of the pieces. -/
theorem findSpace_spec (fuel : Nat) : ∀ (s : Str), s.length ≤ fuel →
    match findSpace fuel s with
    | none => fieldsOf s = [s]
    | some (i, w) =>
      fieldsOf s = s.take i :: fieldsOf (s.drop (i + w)) ∧ i + w ≤ s.length ∧ 0 < w ∧
        (∀ b bs, s = b :: bs → isSpace (decodeRune (b :: bs)).1 = false → 0 < i) := by
  induction fuel with
  | zero =>
    intro s hs
    cases s with
    | nil => simp [findSpace, fieldsOf_nil]
    | cons b bs => simp at hs
  | succ fuel ih =>
    intro s hs
    cases s with
    | nil => simp [findSpace, fieldsOf_nil]
    | cons b bs =>
      have hlt := length_drop_rune b bs
      have hpos := decodeRune_width_pos b bs
      have hle := decodeRune_width_le (b :: bs)
      simp only [List.length_cons] at hs hlt hle
      by_cases hsp : isSpace (decodeRune (b :: bs)).1 = true
      · simp only [findSpace, hsp, if_true]
        refine ⟨?_, ?_, hpos, ?_⟩
        · simpa using fieldsOf_space b bs hsp
        · simpa using hle
        · intro b' bs' h hns
          rw [← h, hsp] at hns
          cases hns
      · have hsp' : isSpace (decodeRune (b :: bs)).1 = false := by simpa using hsp
        have := ih ((b :: bs).drop (decodeRune (b :: bs)).2) (by omega)
        simp only [findSpace, hsp, if_false, Bool.false_eq_true]
        rw [fieldsOf_not_space b bs hsp']
        cases hf : findSpace fuel ((b :: bs).drop (decodeRune (b :: bs)).2) with
        | none =>
          rw [hf] at this
          simp only [Option.map_none']
          rw [this]
          simp [List.modifyHead]
        | some f =>
          obtain ⟨i, w⟩ := f
          rw [hf] at this
          obtain ⟨h1, h2, h3, _⟩ := this
          simp only [Option.map_some']
          refine ⟨?_, ?_, h3, ?_⟩
          · rw [h1]
            simp only [List.modifyHead, List.drop_drop]
            congr 1
            · rw [Nat.add_comm i, List.take_add]
            · congr 2; omega
          · simp only [List.length_drop, List.length_cons] at h2 ⊢
            omega
          · intro _ _ _ _; omega

/-! ## The buffer of the scanner cuts a rune -/

theorem findSpace_nil (fuel : Nat) : findSpace fuel [] = none := by
  cases fuel <;> rfl

/-- A byte that decodes to `RuneError` is passed over by the search. -/
theorem findSpace_error_cons (b : Byte) (t : Str) (hd : decodeRune (b :: t) = (runeError, 1))
    (ht : ∀ fuel, findSpace fuel t = none) : ∀ fuel, findSpace fuel (b :: t) = none := by
  intro fuel
  cases fuel with
  | zero => rfl
  | succ fuel =>
    have hs : isSpace runeError = false := by decide
    simp [findSpace, hd, hs, ht]

theorem decodeRune_single (b : Byte) (h : 0x80 ≤ b.val) : decodeRune [b] = (runeError, 1) := by
  simp only [decodeRune]
  split_ifs <;> first | rfl | omega

theorem decodeRune_cont (b : Byte) (t : Str) (h : 0x80 ≤ b.val) (h2 : b.val < 0xC2) :
    decodeRune (b :: t) = (runeError, 1) := by
  simp only [decodeRune]
  split_ifs <;> first | rfl | omega

theorem decodeRune_ascii (b : Byte) (t : Str) (h : b.val < 0x80) :
    decodeRune (b :: t) = (b.val, 1) := by
  simp only [decodeRune, h, if_true]

theorem decodeRune_high (b : Byte) (t : Str) (h : 0xF5 ≤ b.val) :
    decodeRune (b :: t) = (runeError, 1) := by
  simp only [decodeRune]
  split_ifs <;> first | rfl | omega

theorem inRange_cont (lo hi : Nat) (b : Byte) (h : inRange lo hi b = true) (hlo : 0x80 ≤ lo)
    (hhi : hi ≤ 0xBF) : 0x80 ≤ b.val ∧ b.val < 0xC2 := by
  simp only [inRange, Bool.and_eq_true, decide_eq_true_eq] at h
  omega


theorem decodeRune_bad_second (b0 b1 : Byte) (t : Str) (h : 0xC2 ≤ b0.val)
    (hb1 : ¬(0x80 ≤ b1.val ∧ b1.val < 0xC2)) : decodeRune (b0 :: b1 :: t) = (runeError, 1) := by
  rcases t with _ | ⟨b2, _ | ⟨b3, rest⟩⟩ <;> simp only [decodeRune] <;> split_ifs <;>
    first
    | rfl
    | (exfalso; simp only [inRange, Bool.and_eq_true, decide_eq_true_eq] at *; omega)

theorem decodeRune_bad_third (b0 b1 b2 : Byte) (t : Str) (h : 0xE0 ≤ b0.val)
    (hb2 : ¬(0x80 ≤ b2.val ∧ b2.val < 0xC2)) :
    decodeRune (b0 :: b1 :: b2 :: t) = (runeError, 1) := by
  rcases t with _ | ⟨b3, rest⟩ <;> simp only [decodeRune] <;> split_ifs <;>
    first
    | rfl
    | (exfalso; simp only [inRange, Bool.and_eq_true, decide_eq_true_eq] at *; omega)

/-- Cutting a string short either leaves its first rune as it is, or leaves a
broken rune: a lead byte and continuation bytes, among which the search for a
space finds nothing. -/
theorem decodeRune_take_or (s : Str) (n : Nat) :
    decodeRune (s.take n) = decodeRune s ∨ ∀ fuel, findSpace fuel (s.take n) = none := by
  by_cases hn : 4 ≤ n
  · exact Or.inl (decodeRune_take s n hn)
  rcases s with _ | ⟨b0, rest⟩
  · left; simp
  rcases n with _ | n
  · right; intro fuel; simpa using findSpace_nil fuel
  by_cases h0 : b0.val < 0x80
  · left; simp [decodeRune_ascii _ _ h0]
  by_cases h1 : b0.val < 0xC2
  · left; simp [decodeRune_cont _ _ (by omega) h1]
  by_cases h5 : 0xF5 ≤ b0.val
  · left; simp [decodeRune_high _ _ h5]
  rcases rest with _ | ⟨b1, rest⟩
  · left; simp
  rcases n with _ | n
  · right
    simp only [List.take_succ_cons, List.take_zero]
    exact findSpace_error_cons b0 [] (decodeRune_single b0 (by omega)) findSpace_nil
  by_cases h2 : b0.val < 0xE0
  · left
    simp only [List.take_succ_cons, decodeRune, h0, h1, h2, if_true, if_false]
  by_cases hb1 : 0x80 ≤ b1.val ∧ b1.val < 0xC2
  swap
  · left
    simp only [List.take_succ_cons]
    rw [decodeRune_bad_second b0 b1 _ (by omega) hb1, decodeRune_bad_second b0 b1 _ (by omega) hb1]
  rcases rest with _ | ⟨b2, rest⟩
  · left; simp
  rcases n with _ | n
  · right
    simp only [List.take_succ_cons, List.take_zero]
    refine findSpace_error_cons b0 [b1] ?_
      (findSpace_error_cons b1 [] (decodeRune_single b1 hb1.1) findSpace_nil)
    simp only [decodeRune, h0, h1, h2, if_false]
    split_ifs <;> rfl
  have hn3 : n = 0 := by omega
  subst hn3
  by_cases h3 : b0.val < 0xF0
  · left
    rcases rest with _ | ⟨b3, rest⟩ <;>
      simp only [List.take_succ_cons, List.take_zero, List.take_nil, decodeRune, h0, h1, h2, h3,
        if_true, if_false]
  by_cases hb2 : 0x80 ≤ b2.val ∧ b2.val < 0xC2
  swap
  · left
    simp only [List.take_succ_cons]
    rw [decodeRune_bad_third b0 b1 b2 _ (by omega) hb2,
      decodeRune_bad_third b0 b1 b2 _ (by omega) hb2]
  rcases rest with _ | ⟨b3, rest⟩
  · left; simp
  right
  simp only [List.take_succ_cons, List.take_zero]
  refine findSpace_error_cons b0 [b1, b2] ?_
    (findSpace_error_cons b1 [b2] (decodeRune_cont b1 _ hb1.1 hb1.2)
      (findSpace_error_cons b2 [] (decodeRune_single b2 hb2.1) findSpace_nil))
  simp only [decodeRune, h0, h1, h2, h3, if_false]
  split_ifs <;> rfl

/-- A space found in the buffer is the space the whole input has at that place. -/
theorem findSpace_take (fuel : Nat) : ∀ (s : Str) (n fuel' i w : Nat),
    findSpace fuel (s.take n) = some (i, w) → s.length ≤ fuel' →
    findSpace fuel' s = some (i, w) := by
  induction fuel with
  | zero => intro s n fuel' i w h; simp [findSpace] at h
  | succ fuel ih =>
    intro s n fuel' i w h hlen
    rcases s with _ | ⟨b, bs⟩
    · simp [findSpace] at h
    rcases n with _ | n
    · simp [findSpace] at h
    obtain ⟨fuel', rfl⟩ : ∃ k, fuel' = k + 1 := ⟨fuel' - 1, by simp at hlen; omega⟩
    rcases decodeRune_take_or (b :: bs) (n + 1) with hd | hd
    swap
    · rw [hd] at h; cases h
    simp only [List.take_succ_cons] at h hd
    simp only [findSpace, hd] at h ⊢
    by_cases hsp : isSpace (decodeRune (b :: bs)).1 = true
    · simpa [hsp] using h
    · simp only [hsp, if_false, Bool.false_eq_true] at h ⊢
      have hlt := length_drop_rune b bs
      simp only [List.length_cons] at hlt hlen
      cases hf : findSpace fuel (List.drop (decodeRune (b :: bs)).2 (b :: List.take n bs)) with
      | none => rw [hf] at h; cases h
      | some f =>
        rw [hf] at h
        rw [← List.take_succ_cons, List.drop_take] at hf
        have := ih _ _ fuel' f.1 f.2 hf (by omega)
        rw [this]
        exact h

/-! ## One call of `scanner.Scan()` -/

theorem wordsOf_nil : wordsOf [] = [] := by
  simp [wordsOf, fieldsOf_nil]

/-- A call that delivers a token delivers the first word of the unread input
and leaves the input after it. -/
theorem scan_token (readErr : Bool) (rest tok rest' : Str)
    (h : scan readErr rest = .token tok rest') :
    wordsOf rest = tok :: wordsOf rest' ∧ rest'.length < rest.length := by
  obtain ⟨h1, h2, h3⟩ := skipSpaces_spec rest.length rest le_rfl
  unfold scan at h
  rcases hd : skipSpaces rest.length rest with _ | ⟨b, bs⟩
  · rw [hd] at h; cases h
  rw [hd] at h h1 h2
  have hns := h3 b bs hd
  simp only at h
  cases hf : findSpace maxScanTokenSize ((b :: bs).take maxScanTokenSize) with
  | some f =>
    obtain ⟨i, w⟩ := f
    rw [hf] at h
    simp only [ScanStep.token.injEq] at h
    obtain ⟨rfl, rfl⟩ := h
    have hfull := findSpace_take _ _ _ (b :: bs).length i w hf le_rfl
    have hspec := findSpace_spec (b :: bs).length (b :: bs) le_rfl
    rw [hfull] at hspec
    obtain ⟨e1, e2, e3, e4⟩ := hspec
    have hi := e4 b bs rfl hns
    refine ⟨?_, ?_⟩
    · rw [← h1]
      have hne : (b :: bs).take i ≠ [] := by
        obtain ⟨i, rfl⟩ : ∃ k, i = k + 1 := ⟨i - 1, by omega⟩
        simp
      simp only [wordsOf]
      rw [e1, List.filter_cons_of_pos (by simpa using hne)]
    · simp only [List.length_drop]
      omega
  | none =>
    rw [hf] at h
    simp only [List.length_cons] at h
    by_cases hlen : bs.length + 1 < maxScanTokenSize
    · simp only [hlen, if_true, ScanStep.token.injEq] at h
      obtain ⟨rfl, rfl⟩ := h
      rw [List.take_of_length_le (by simpa using le_of_lt hlen)] at hf
      have hspec := findSpace_spec maxScanTokenSize (b :: bs) (by simpa using le_of_lt hlen)
      rw [hf] at hspec
      refine ⟨?_, ?_⟩
      · rw [← h1, wordsOf_nil]
        simp only [wordsOf]
        rw [hspec]
        simp
      · simp only [List.length_cons, List.length_nil] at h2 ⊢
        omega
    · simp [hlen] at h

/-- A call that delivers nothing has met the end of the input, unless it stops
on a word that does not fit the buffer. -/
theorem scan_done (readErr : Bool) (rest : Str) (e : Option ScanErr)
    (h : scan readErr rest = .done e) :
    e = some .tooLong ∨ (wordsOf rest = [] ∧ e = if readErr then some .io else none) := by
  obtain ⟨h1, _, _⟩ := skipSpaces_spec rest.length rest le_rfl
  unfold scan at h
  rcases hd : skipSpaces rest.length rest with _ | ⟨b, bs⟩
  · rw [hd] at h h1
    simp only [ScanStep.done.injEq] at h
    right
    exact ⟨by rw [← h1, wordsOf_nil], h.symm⟩
  · rw [hd] at h
    simp only at h
    cases hf : findSpace maxScanTokenSize ((b :: bs).take maxScanTokenSize) with
    | some f => rw [hf] at h; cases h
    | none =>
      rw [hf] at h
      simp only [List.length_cons] at h
      by_cases hlen : bs.length + 1 < maxScanTokenSize
      · simp [hlen] at h
      · simp only [hlen, if_false, ScanStep.done.injEq] at h
        exact Or.inl h.symm


/-! ## The loop of the scorer -/

/-- The loop has handled a prefix of the words of the text, all of them when the
scanner reports no error. -/
theorem scoreLoop_spec (lowerTable : Nat → Nat) (m : Lexicon) (readErr : Bool) (fuel : Nat) :
    ∀ (rest : Str) (st st' : ScoreState) (e : Option ScanErr), rest.length < fuel →
    scoreLoop lowerTable m readErr fuel rest st = (st', e) →
    ∃ ws, ws <+: wordsOf rest ∧ st' = ws.foldl (scoreWord lowerTable m) st ∧
      (e = none → ws = wordsOf rest ∧ readErr = false) ∧
      (readErr = false → e ≠ some .io) := by
  induction fuel with
  | zero => intro rest st st' e h; omega
  | succ fuel ih =>
    intro rest st st' e hlen h
    unfold scoreLoop at h
    cases hs : scan readErr rest with
    | token tok rest' =>
      rw [hs] at h
      simp only at h
      obtain ⟨hw, hl⟩ := scan_token readErr rest tok rest' hs
      obtain ⟨ws, hp, hst, he, hio⟩ := ih rest' _ st' e (by omega) h
      refine ⟨tok :: ws, ?_, ?_, ?_, hio⟩
      · rw [hw]; exact (List.prefix_cons_inj tok).mpr hp
      · simpa using hst
      · intro hn
        obtain ⟨h1, h2⟩ := he hn
        exact ⟨by rw [hw, h1], h2⟩
    | done err =>
      rw [hs] at h
      simp only [Prod.mk.injEq] at h
      obtain ⟨rfl, rfl⟩ := h
      refine ⟨[], List.nil_prefix, rfl, ?_, ?_⟩
      · intro hn
        rcases scan_done readErr rest err hs with h1 | ⟨h1, h2⟩
        · rw [hn] at h1; cases h1
        · refine ⟨h1.symm, ?_⟩
          cases readErr with
          | false => rfl
          | true => rw [hn] at h2; cases h2
      · intro hr
        rcases scan_done readErr rest err hs with h1 | ⟨_, h2⟩
        · rw [h1]; simp
        · rw [h2, hr]; simp

/-- The running total after a list of words: the scores the words contribute,
added in order. -/
theorem foldl_scoreWord_total (lowerTable : Nat → Nat) (m : Lexicon) (ws : List Str) :
    ∀ st : ScoreState, (ws.foldl (scoreWord lowerTable m) st).totalScore =
      (ws.filterMap (tokenScore lowerTable m)).foldl F64.add st.totalScore := by
  induction ws with
  | nil => intro st; rfl
  | cons w ws ih =>
    intro st
    simp only [List.foldl_cons]
    rw [ih]
    by_cases hc : clean lowerTable w = []
    · simp [scoreWord, tokenScore, hc]
    · cases hi : Lexicon.index m (clean lowerTable w) with
      | none => simp [scoreWord, tokenScore, hc, hi]
      | some score => simp [scoreWord, tokenScore, hc, hi]

/-! ## The scorer -/

/-- C2: on a successful read the total `getSocialSentimentScore` returns is the
sum, accumulated from 0 in the order of the file, of the lexicon's scores of the
whitespace-separated tokens of the text, each token cleaned (cutset stripped at
both ends, then lowercased) and counted only when its cleaned form is not empty
and is a key of the lexicon. -/
theorem score_is_sum_of_matches (lowerTable : Nat → Nat) (f : FileData) (filename : Str)
    (m : Lexicon) (h : (getSocialSentimentScore lowerTable (some f) filename m).err = none) :
    (getSocialSentimentScore lowerTable (some f) filename m).total =
      sumOfScores lowerTable m f.content := by
  simp only [getSocialSentimentScore] at h ⊢
  generalize hl : scoreLoop lowerTable m f.readErr (f.content.length + 1) f.content
      { totalScore := F64.zero, out := [OutLine.heading] } = r at h ⊢
  obtain ⟨st, e⟩ := r
  cases e with
  | some e => cases h
  | none =>
    simp only
    obtain ⟨ws, _, hst, he, _⟩ := scoreLoop_spec lowerTable m f.readErr _ _ _ _ _ (by omega) hl
    rw [hst, (he rfl).1, foldl_scoreWord_total]
    rfl

set_option maxRecDepth 100000 in
/-- C2 at a concrete text: "Good, bad... (good) unknown --" against the lexicon
good = 2.0, bad = -3.0. -/
theorem score_is_sum_of_matches_witness :
    (getSocialSentimentScore id (some (textFile "Good, bad... (good) unknown --"))
        (bytes "review.txt") [(bytes "bad", F64.ofInt (-3)), (bytes "good", F64.ofInt 2)]).total =
      sumOfScores id [(bytes "bad", F64.ofInt (-3)), (bytes "good", F64.ofInt 2)]
        (textFile "Good, bad... (good) unknown --").content :=
  score_is_sum_of_matches id (textFile "Good, bad... (good) unknown --") (bytes "review.txt")
    [(bytes "bad", F64.ofInt (-3)), (bytes "good", F64.ofInt 2)] (by rfl)

/-- C3: when no cleaned token of the text is a key of the lexicon (the empty
text included), the total `getSocialSentimentScore` returns is exactly 0, and
`getStarRating` of it is 3. -/
theorem no_match_total_zero (lowerTable : Nat → Nat) (f : FileData) (filename : Str)
    (m : Lexicon)
    (h : ∀ t ∈ wordsOf f.content, Lexicon.index m (clean lowerTable t) = none) :
    (getSocialSentimentScore lowerTable (some f) filename m).total = F64.zero ∧
    getStarRating (getSocialSentimentScore lowerTable (some f) filename m).total = 3 := by
  have key : (getSocialSentimentScore lowerTable (some f) filename m).total = F64.zero := by
    simp only [getSocialSentimentScore]
    generalize hl : scoreLoop lowerTable m f.readErr (f.content.length + 1) f.content
        { totalScore := F64.zero, out := [OutLine.heading] } = r
    obtain ⟨st, e⟩ := r
    cases e with
    | some e => rfl
    | none =>
      simp only
      obtain ⟨ws, hp, hst, _, _⟩ := scoreLoop_spec lowerTable m f.readErr _ _ _ _ _ (by omega) hl
      rw [hst, foldl_scoreWord_total]
      have hnone : ws.filterMap (tokenScore lowerTable m) = [] := by
        rw [List.filterMap_eq_nil_iff]
        intro t ht
        have := h t (hp.subset ht)
        simp [tokenScore, this]
      rw [hnone]
      rfl
  rw [key]
  exact ⟨rfl, by decide⟩

set_option maxRecDepth 100000 in
/-- C3 at concrete texts: the empty text, and a text none of whose words is in
the lexicon. -/
theorem no_match_total_zero_witness :
    ((getSocialSentimentScore id (some (textFile "")) (bytes "review.txt")
        [(bytes "good", F64.ofInt 2)]).total = F64.zero ∧
      getStarRating (getSocialSentimentScore id (some (textFile "")) (bytes "review.txt")
        [(bytes "good", F64.ofInt 2)]).total = 3) ∧
    ((getSocialSentimentScore id (some (textFile "Nothing here!")) (bytes "review.txt")
        [(bytes "good", F64.ofInt 2)]).total = F64.zero ∧
      getStarRating (getSocialSentimentScore id (some (textFile "Nothing here!"))
        (bytes "review.txt") [(bytes "good", F64.ofInt 2)]).total = 3) :=
  ⟨no_match_total_zero id (textFile "") (bytes "review.txt") [(bytes "good", F64.ofInt 2)]
      (by decide),
   no_match_total_zero id (textFile "Nothing here!") (bytes "review.txt")
      [(bytes "good", F64.ofInt 2)] (by decide)⟩

/-! ## `strings.Trim` -/

/-- Bytes of the cutset around a word are trimmed away with the word's own. -/
theorem trim_append (w p s cut : Str) (hp : ∀ c ∈ p, c ∈ cut) (hs : ∀ c ∈ s, c ∈ cut) :
    trim (p ++ w ++ s) cut = trim w cut := by
  unfold trim
  have h1 : (p ++ w ++ s).rdropWhile (fun c => decide (c ∈ cut)) =
      (p ++ w).rdropWhile (fun c => decide (c ∈ cut)) := by
    induction s using List.reverseRecOn with
    | nil => simp
    | append_singleton s c ih =>
      rw [← List.append_assoc, List.rdropWhile_concat_pos]
      · exact ih (fun x hx => hs x (by simp [hx]))
      · simpa using hs c (by simp)
  rw [h1]
  by_cases hw : w.rdropWhile (fun c => decide (c ∈ cut)) = []
  · have h2 : (p ++ w).rdropWhile (fun c => decide (c ∈ cut)) = [] := by
      rw [List.rdropWhile_eq_nil_iff] at hw ⊢
      intro x hx
      rcases List.mem_append.mp hx with h | h
      · simpa using hp x h
      · exact hw x h
    rw [h2, hw]
  · have h2 : (p ++ w).rdropWhile (fun c => decide (c ∈ cut)) =
        p ++ w.rdropWhile (fun c => decide (c ∈ cut)) := by
      simp only [List.rdropWhile, List.reverse_append]
      rw [List.dropWhile_append]
      simp only [List.rdropWhile, List.reverse_eq_nil_iff] at hw
      simp [hw]
    rw [h2, List.dropWhile_append]
    have h3 : List.dropWhile (fun c => decide (c ∈ cut)) p = [] := by
      rw [List.dropWhile_eq_nil_iff]
      intro x hx
      simpa using hp x hx
    simp [h3]

/-! ## `strings.ToLower` as a map over runes -/

theorem chunks_ascii (b : Byte) (bs : Str) (h : b.val < 0x80) :
    chunks (b :: bs) = (b.val, [b]) :: chunks bs := by
  rw [chunks_cons, decodeRune_ascii b bs h]
  simp

theorem encodeRune_lower_ascii (lowerTable : Nat → Nat) (b : Byte) (h : b.val < 0x80) :
    encodeRune (unicodeToLower lowerTable b.val) = [lowerByte b] := by
  have hb : unicodeToLower lowerTable b.val = (lowerByte b).val := by
    simp only [unicodeToLower, lowerByte]
    split_ifs <;> first | rfl | omega
  have hl : (lowerByte b).val ≤ 0x7F := by
    simp only [lowerByte]
    split_ifs <;> omega
  rw [hb]
  simp only [encodeRune, hl, if_true]
  congr 1
  apply Fin.ext
  simp [Fin.ofNat]

/-- The byte loop of `strings.ToLower` gives what `strings.Map` would give. -/
theorem toLower_eq_stringsMap (lowerTable : Nat → Nat) (s : Str) :
    toLower lowerTable s = stringsMap (unicodeToLower lowerTable) s := by
  unfold toLower
  split_ifs with h
  · induction s with
    | nil => simp [stringsMap, runes, chunks_nil]
    | cons b bs ih =>
      simp only [List.all_cons, Bool.and_eq_true, decide_eq_true_eq] at h
      have := ih h.2
      simp only [stringsMap, runes] at this ⊢
      rw [chunks_ascii b bs h.1]
      simp only [List.map_cons, List.flatMap_cons, encodeRune_lower_ascii lowerTable b h.1]
      rw [← this]
      rfl
  · rfl

theorem stringsMap_nil (f : Nat → Nat) : stringsMap f [] = [] := by
  simp [stringsMap, runes, chunks_nil]

theorem stringsMap_cons (f : Nat → Nat) (b : Byte) (bs : Str) :
    stringsMap f (b :: bs) =
      encodeRune (f (decodeRune (b :: bs)).1) ++
        stringsMap f ((b :: bs).drop (decodeRune (b :: bs)).2) := by
  simp [stringsMap, runes, chunks_cons]

/-! ## Encoding and decoding -/

theorem runeError_valid : validRune runeError := by
  simp [validRune, runeError]

/-- Decoding yields Unicode scalar values only. -/
theorem decodeRune_valid (s : Str) : validRune (decodeRune s).1 := by
  rcases s with _ | ⟨b0, _ | ⟨b1, _ | ⟨b2, _ | ⟨b3, rest⟩⟩⟩⟩ <;>
    simp only [decodeRune] <;> (try split_ifs) <;>
    first
    | exact runeError_valid
    | (simp only [validRune, inRange, Bool.and_eq_true, decide_eq_true_eq] at *; omega)

/-- A byte outside ASCII starts a rune outside ASCII. -/
theorem decodeRune_ge (b : Byte) (bs : Str) (h : 0x80 ≤ b.val) :
    0x80 ≤ (decodeRune (b :: bs)).1 := by
  rcases bs with _ | ⟨b1, _ | ⟨b2, _ | ⟨b3, rest⟩⟩⟩ <;>
    simp only [decodeRune] <;> (try split_ifs) <;>
    first
    | (simp only [runeError]; omega)
    | (simp only [validRune, inRange, Bool.and_eq_true, decide_eq_true_eq] at *; omega)

theorem encodeRune_length_pos (r : Nat) : 1 ≤ (encodeRune r).length := by
  unfold encodeRune
  split_ifs <;> simp

theorem val_ofNat (n : Nat) (h : n < 256) : (Fin.ofNat n : Byte).val = n := by
  simp only [Fin.ofNat, Nat.succ_eq_add_one]
  omega

theorem decodeRune_two (x y : Byte) (rest : Str) (hx : 0xC2 ≤ x.val ∧ x.val < 0xE0)
    (hy : 0x80 ≤ y.val ∧ y.val ≤ 0xBF) :
    decodeRune (x :: y :: rest) = (x.val % 32 * 64 + y.val % 64, 2) := by
  simp only [decodeRune, inRange]
  split_ifs <;>
    first
    | rfl
    | (exfalso; simp only [Bool.and_eq_true, decide_eq_true_eq] at *; omega)

theorem decodeRune_three (x y z : Byte) (rest : Str) (hx : 0xE0 ≤ x.val ∧ x.val < 0xF0)
    (hy : 0x80 ≤ y.val ∧ y.val ≤ 0xBF) (hz : 0x80 ≤ z.val ∧ z.val ≤ 0xBF)
    (h0 : x.val = 0xE0 → 0xA0 ≤ y.val) (hD : x.val = 0xED → y.val ≤ 0x9F) :
    decodeRune (x :: y :: z :: rest) = (x.val % 16 * 4096 + y.val % 64 * 64 + z.val % 64, 3) := by
  simp only [decodeRune, inRange]
  split_ifs <;>
    first
    | rfl
    | (exfalso; simp only [Bool.and_eq_true, decide_eq_true_eq] at *; omega)

theorem decodeRune_four (x y z u : Byte) (rest : Str) (hx : 0xF0 ≤ x.val ∧ x.val < 0xF5)
    (hy : 0x80 ≤ y.val ∧ y.val ≤ 0xBF) (hz : 0x80 ≤ z.val ∧ z.val ≤ 0xBF)
    (hu : 0x80 ≤ u.val ∧ u.val ≤ 0xBF)
    (h0 : x.val = 0xF0 → 0x90 ≤ y.val) (h4 : x.val = 0xF4 → y.val ≤ 0x8F) :
    decodeRune (x :: y :: z :: u :: rest) =
      (x.val % 8 * 262144 + y.val % 64 * 4096 + z.val % 64 * 64 + u.val % 64, 4) := by
  have c1 : ¬ x.val < 0x80 := by omega
  have c2 : ¬ x.val < 0xC2 := by omega
  have c3 : ¬ x.val < 0xE0 := by omega
  have c4 : ¬ x.val < 0xF0 := by omega
  have c5 : x.val < 0xF5 := by omega
  simp only [decodeRune, c1, c2, c3, c4, c5, if_true, if_false]
  rw [if_pos]
  simp only [inRange, Bool.and_eq_true, decide_eq_true_eq]
  split_ifs <;> omega

/-- A scalar value is decoded back from its encoding. -/
theorem decodeRune_encodeRune (r : Nat) (rest : Str) (h : validRune r) :
    decodeRune (encodeRune r ++ rest) = (r, (encodeRune r).length) := by
  simp only [validRune] at h
  unfold encodeRune
  split_ifs with h1 h2 h3 h4
  · have e := val_ofNat r (by omega)
    generalize (Fin.ofNat r : Byte) = x at e ⊢
    rw [List.singleton_append, decodeRune_ascii _ _ (by omega), e]
    rfl
  · have e1 := val_ofNat (0xC0 + r / 64) (by omega)
    have e2 := val_ofNat (0x80 + r % 64) (by omega)
    generalize (Fin.ofNat (0xC0 + r / 64) : Byte) = x at e1 ⊢
    generalize (Fin.ofNat (0x80 + r % 64) : Byte) = y at e2 ⊢
    rw [List.cons_append, List.cons_append, List.nil_append,
      decodeRune_two _ _ _ (by omega) (by omega)]
    simp only [List.length_cons, List.length_nil, Prod.mk.injEq]
    exact ⟨by omega, trivial⟩
  · exfalso; omega
  · have e1 := val_ofNat (0xE0 + r / 4096) (by omega)
    have e2 := val_ofNat (0x80 + r / 64 % 64) (by omega)
    have e3 := val_ofNat (0x80 + r % 64) (by omega)
    generalize (Fin.ofNat (0xE0 + r / 4096) : Byte) = x at e1 ⊢
    generalize (Fin.ofNat (0x80 + r / 64 % 64) : Byte) = y at e2 ⊢
    generalize (Fin.ofNat (0x80 + r % 64) : Byte) = z at e3 ⊢
    rw [List.cons_append, List.cons_append, List.cons_append, List.nil_append,
      decodeRune_three _ _ _ _ (by omega) (by omega) (by omega) (by omega) (by omega)]
    simp only [List.length_cons, List.length_nil, Prod.mk.injEq]
    exact ⟨by omega, trivial⟩
  · have e1 := val_ofNat (0xF0 + r / 262144) (by omega)
    have e2 := val_ofNat (0x80 + r / 4096 % 64) (by omega)
    have e3 := val_ofNat (0x80 + r / 64 % 64) (by omega)
    have e4 := val_ofNat (0x80 + r % 64) (by omega)
    generalize (Fin.ofNat (0xF0 + r / 262144) : Byte) = x at e1 ⊢
    generalize (Fin.ofNat (0x80 + r / 4096 % 64) : Byte) = y at e2 ⊢
    generalize (Fin.ofNat (0x80 + r / 64 % 64) : Byte) = z at e3 ⊢
    generalize (Fin.ofNat (0x80 + r % 64) : Byte) = u at e4 ⊢
    rw [List.cons_append, List.cons_append, List.cons_append, List.cons_append, List.nil_append,
      decodeRune_four _ _ _ _ _ (by omega) (by omega) (by omega) (by omega) (by omega) (by omega)]
    simp only [List.length_cons, List.length_nil, Prod.mk.injEq]
    exact ⟨by omega, trivial⟩

/-! ## Lower-casing twice -/

theorem stringsMap_encode (f : Nat → Nat) (r : Nat) (rest : Str) (h : validRune r) :
    stringsMap f (encodeRune r ++ rest) = encodeRune (f r) ++ stringsMap f rest := by
  have hd := decodeRune_encodeRune r rest h
  have hl := encodeRune_length_pos r
  rcases he : encodeRune r ++ rest with _ | ⟨b, bs⟩
  · have := congrArg List.length he
    simp only [List.length_append, List.length_nil] at this
    omega
  · rw [stringsMap_cons, ← he, hd]
    simp

/-- On scalar values the lower-case form is a scalar value and is its own
lower-case form, when the case tables are as `LowerTableOk` says. -/
theorem unicodeToLower_idem (lowerTable : Nat → Nat) (hT : LowerTableOk lowerTable) (r : Nat)
    (h : validRune r) :
    validRune (unicodeToLower lowerTable r) ∧
      unicodeToLower lowerTable (unicodeToLower lowerTable r) = unicodeToLower lowerTable r := by
  by_cases hr : r ≤ 0x7F
  · by_cases h1 : 0x41 ≤ r ∧ r ≤ 0x5A
    · have e1 : unicodeToLower lowerTable r = r + 32 := by
        simp only [unicodeToLower]
        rw [if_pos hr, if_pos h1]
      have e2 : unicodeToLower lowerTable (r + 32) = r + 32 := by
        simp only [unicodeToLower]
        rw [if_pos (by omega), if_neg (by omega)]
      rw [e1, e2]
      exact ⟨by simp only [validRune]; omega, rfl⟩
    · have e1 : unicodeToLower lowerTable r = r := by
        simp only [unicodeToLower]
        rw [if_pos hr, if_neg h1]
      rw [e1, e1]
      exact ⟨h, rfl⟩
  · obtain ⟨h1, h2, _⟩ := hT r (by omega) h
    have e1 : unicodeToLower lowerTable r = lowerTable r := by
      simp only [unicodeToLower]
      rw [if_neg hr]
    rw [e1]
    exact ⟨h1, h2⟩

theorem stringsMap_idem (lowerTable : Nat → Nat) (hT : LowerTableOk lowerTable) (s : Str) :
    stringsMap (unicodeToLower lowerTable) (stringsMap (unicodeToLower lowerTable) s) =
      stringsMap (unicodeToLower lowerTable) s := by
  induction s using rune_induction with
  | nil => simp [stringsMap_nil]
  | step b bs ih =>
    obtain ⟨h1, h2⟩ := unicodeToLower_idem lowerTable hT _ (decodeRune_valid (b :: bs))
    rw [stringsMap_cons, stringsMap_encode _ _ _ h1, h2, ih]

/-! ## The ends of a lower-cased string -/

set_option maxRecDepth 100000 in
theorem cutset_ascii : ∀ c ∈ cutset, c.val < 0x80 := by decide

set_option maxRecDepth 100000 in
theorem lowerByte_not_mem_cutset : ∀ b : Byte, b ∉ cutset → lowerByte b ∉ cutset := by decide

theorem encodeRune_high (r : Nat) (h : 0x80 ≤ r) : ∀ c ∈ encodeRune r, 0x80 ≤ c.val := by
  unfold encodeRune
  split_ifs with h1 h2 h3 h4
  · omega
  · intro c hc
    simp only [List.mem_cons, List.mem_singleton, List.not_mem_nil, or_false] at hc
    rcases hc with rfl | rfl
    · rw [val_ofNat _ (by omega)]; omega
    · rw [val_ofNat _ (by omega)]; omega
  · intro c hc
    simp only [List.mem_cons, List.mem_singleton, List.not_mem_nil, or_false] at hc
    rcases hc with rfl | rfl | rfl <;> decide
  · intro c hc
    simp only [List.mem_cons, List.mem_singleton, List.not_mem_nil, or_false] at hc
    rcases hc with rfl | rfl | rfl
    · rw [val_ofNat _ (by omega)]; omega
    · rw [val_ofNat _ (by omega)]; omega
    · rw [val_ofNat _ (by omega)]; omega
  · intro c hc
    simp only [List.mem_cons, List.mem_singleton, List.not_mem_nil, or_false] at hc
    have hr : r ≤ 0x10FFFF := by omega
    rcases hc with rfl | rfl | rfl | rfl
    · rw [val_ofNat _ (by omega)]; omega
    · rw [val_ofNat _ (by omega)]; omega
    · rw [val_ofNat _ (by omega)]; omega
    · rw [val_ofNat _ (by omega)]; omega

/-- A rune that starts outside ASCII is lower-cased to bytes outside the cutset. -/
theorem encode_lower_high (lowerTable : Nat → Nat) (hT : LowerTableOk lowerTable) (b : Byte)
    (bs : Str) (hb : 0x80 ≤ b.val) :
    ∀ c ∈ encodeRune (unicodeToLower lowerTable (decodeRune (b :: bs)).1), c ∉ cutset := by
  have hge := decodeRune_ge b bs hb
  obtain ⟨_, _, h3⟩ := hT _ hge (decodeRune_valid (b :: bs))
  have hL : unicodeToLower lowerTable (decodeRune (b :: bs)).1 =
      lowerTable (decodeRune (b :: bs)).1 := by
    simp only [unicodeToLower]
    rw [if_neg (by omega)]
  rw [hL]
  intro c hc hcut
  by_cases hr : lowerTable (decodeRune (b :: bs)).1 ≤ 0x7F
  · simp only [encodeRune, hr, if_true, List.mem_singleton] at hc
    have := h3 c hcut
    rw [hc, val_ofNat _ (by omega)] at this
    exact this rfl
  · have h1 := encodeRune_high _ (by omega) c hc
    have h2 := cutset_ascii c hcut
    omega

theorem stringsMap_ne_nil (f : Nat → Nat) (b : Byte) (bs : Str) : stringsMap f (b :: bs) ≠ [] := by
  rw [stringsMap_cons]
  have := encodeRune_length_pos (f (decodeRune (b :: bs)).1)
  intro h
  have h2 := congrArg List.length h
  simp only [List.length_append, List.length_nil] at h2
  omega

/-- A string that does not start with a byte of the cutset is lower-cased to
such a string. -/
theorem head_stringsMap (lowerTable : Nat → Nat) (hT : LowerTableOk lowerTable) (s : Str)
    (h : ∀ c, s.head? = some c → c ∉ cutset) :
    ∀ c, (stringsMap (unicodeToLower lowerTable) s).head? = some c → c ∉ cutset := by
  rcases s with _ | ⟨b, bs⟩
  · simp [stringsMap_nil]
  intro c hc
  rw [stringsMap_cons] at hc
  have hb := h b rfl
  by_cases hlt : b.val < 0x80
  · rw [decodeRune_ascii b bs hlt, encodeRune_lower_ascii lowerTable b hlt] at hc
    simp only [List.singleton_append, List.head?_cons, Option.some.injEq] at hc
    rw [← hc]
    exact lowerByte_not_mem_cutset b hb
  · have hE := encode_lower_high lowerTable hT b bs (by omega)
    have hl := encodeRune_length_pos (unicodeToLower lowerTable (decodeRune (b :: bs)).1)
    rcases he : encodeRune (unicodeToLower lowerTable (decodeRune (b :: bs)).1) with _ | ⟨x, xs⟩
    · rw [he] at hl; simp at hl
    · rw [he] at hc hE
      simp only [List.cons_append, List.head?_cons, Option.some.injEq] at hc
      rw [← hc]
      exact hE x (by simp)

/-- A string that does not end with a byte of the cutset is lower-cased to such
a string. -/
theorem getLast_stringsMap (lowerTable : Nat → Nat) (hT : LowerTableOk lowerTable) (s : Str) :
    (∀ c, s.getLast? = some c → c ∉ cutset) →
    ∀ c, (stringsMap (unicodeToLower lowerTable) s).getLast? = some c → c ∉ cutset := by
  induction s using rune_induction with
  | nil => simp [stringsMap_nil]
  | step b bs ih =>
    intro h c hc
    rw [stringsMap_cons] at hc
    have hpos := decodeRune_width_pos b bs
    rcases hd : (b :: bs).drop (decodeRune (b :: bs)).2 with _ | ⟨d, ds⟩
    · rw [hd, stringsMap_nil, List.append_nil] at hc
      by_cases hlt : b.val < 0x80
      · rw [decodeRune_ascii b bs hlt] at hd
        simp only [List.drop_succ_cons, List.drop_zero] at hd
        subst hd
        rw [decodeRune_ascii b [] hlt, encodeRune_lower_ascii lowerTable b hlt] at hc
        simp only [List.getLast?_singleton, Option.some.injEq] at hc
        rw [← hc]
        exact lowerByte_not_mem_cutset b (h b rfl)
      · exact encode_lower_high lowerTable hT b bs (by omega) c (List.mem_of_getLast?_eq_some hc)
    · rw [hd] at hc ih
      have hne := stringsMap_ne_nil (unicodeToLower lowerTable) d ds
      rw [List.getLast?_append_of_ne_nil _ hne] at hc
      refine ih ?_ c hc
      intro c' hc'
      apply h c'
      have hsplit := List.take_append_drop (decodeRune (b :: bs)).2 (b :: bs)
      rw [hd] at hsplit
      rw [← hsplit, List.getLast?_append_of_ne_nil _ (by simp)]
      exact hc'

/-! ## Trimming what is trimmed -/

/-- What `strings.Trim` returns neither starts nor ends with a byte of the cutset. -/
theorem trim_ends (w cut : Str) :
    (∀ c, (trim w cut).head? = some c → c ∉ cut) ∧
    (∀ c, (trim w cut).getLast? = some c → c ∉ cut) := by
  unfold trim
  constructor
  · intro c hc
    have := List.head?_dropWhile_not (fun c => decide (c ∈ cut))
      (w.rdropWhile (fun c => decide (c ∈ cut)))
    rw [hc] at this
    simpa using this
  · intro c hc
    have hne : List.dropWhile (fun c => decide (c ∈ cut))
        (w.rdropWhile (fun c => decide (c ∈ cut))) ≠ [] := by
      intro h; rw [h] at hc; cases hc
    have hne2 : w.rdropWhile (fun c => decide (c ∈ cut)) ≠ [] := by
      intro h; rw [h] at hne; exact hne rfl
    have h1 := (List.dropWhile_suffix (fun c => decide (c ∈ cut))
      (l := w.rdropWhile (fun c => decide (c ∈ cut)))).getLast hne
    have h2 := List.rdropWhile_last_not (fun c => decide (c ∈ cut)) w hne2
    rw [List.getLast?_eq_getLast _ hne, Option.some.injEq] at hc
    rw [← hc, h1]
    simpa using h2

/-- A string that neither starts nor ends with a byte of the cutset is trimmed
to itself. -/
theorem trim_self (z cut : Str) (hh : ∀ c, z.head? = some c → c ∉ cut)
    (hl : ∀ c, z.getLast? = some c → c ∉ cut) : trim z cut = z := by
  unfold trim
  have h1 : z.rdropWhile (fun c => decide (c ∈ cut)) = z := by
    rw [List.rdropWhile_eq_self_iff]
    intro hne
    have := hl _ (List.getLast?_eq_getLast _ hne)
    simpa using this
  rw [h1, List.dropWhile_eq_self_iff]
  intro hpos
  rcases z with _ | ⟨b, bs⟩
  · simp at hpos
  · simpa using hh b rfl

/-- Cleaning a cleaned word changes nothing. -/
theorem clean_idem (lowerTable : Nat → Nat) (hT : LowerTableOk lowerTable) (w : Str) :
    clean lowerTable (clean lowerTable w) = clean lowerTable w := by
  unfold clean
  obtain ⟨hh, hl⟩ := trim_ends w cutset
  simp only [toLower_eq_stringsMap]
  rw [trim_self _ cutset (head_stringsMap lowerTable hT _ hh)
    (getLast_stringsMap lowerTable hT _ hl)]
  exact stringsMap_idem lowerTable hT _

/-! ## ASCII case -/

set_option maxRecDepth 100000 in
theorem upperByte_mem_cutset : ∀ b : Byte, (upperByte b ∈ cutset) = (b ∈ cutset) := by decide

set_option maxRecDepth 100000 in
theorem lowerByte_upperByte : ∀ b : Byte, lowerByte (upperByte b) = lowerByte b := by decide

set_option maxRecDepth 100000 in
theorem upperByte_high : ∀ b : Byte, 0x80 ≤ b.val → upperByte b = b := by decide

set_option maxRecDepth 100000 in
theorem upperByte_low : ∀ b : Byte, b.val < 0x80 → (upperByte b).val < 0x80 := by decide

/-- Upper-casing commutes with trimming: no letter is in the cutset. -/
theorem trim_asciiUpper (w : Str) : trim (asciiUpper w) cutset = asciiUpper (trim w cutset) := by
  have hp : ((fun c => decide (c ∈ cutset)) ∘ upperByte) = (fun c : Byte => decide (c ∈ cutset)) := by
    funext b
    simp only [Function.comp, upperByte_mem_cutset]
  simp only [trim, asciiUpper, List.rdropWhile, ← List.map_reverse, List.dropWhile_map, hp]

theorem decodeRune_prefix_two (b0 b1 : Byte) (t : Str) (h : b0.val < 0xE0) :
    decodeRune (b0 :: b1 :: t) = decodeRune [b0, b1] := by
  simp only [decodeRune]
  split_ifs <;> rfl

theorem decodeRune_prefix_three (b0 b1 b2 : Byte) (t : Str) (h : b0.val < 0xF0) :
    decodeRune (b0 :: b1 :: b2 :: t) = decodeRune [b0, b1, b2] := by
  rcases t with _ | ⟨b3, t⟩
  · rfl
  · simp only [decodeRune]
    split_ifs <;> rfl

theorem decodeRune_bad_fourth (b0 b1 b2 b3 : Byte) (t : Str) (h : 0xF0 ≤ b0.val)
    (hb3 : ¬(0x80 ≤ b3.val ∧ b3.val < 0xC2)) :
    decodeRune (b0 :: b1 :: b2 :: b3 :: t) = (runeError, 1) := by
  have c1 : ¬ b0.val < 0x80 := by omega
  have c2 : ¬ b0.val < 0xC2 := by omega
  have c3 : ¬ b0.val < 0xE0 := by omega
  have c4 : ¬ b0.val < 0xF0 := by omega
  simp only [decodeRune, c1, c2, c3, c4, if_false]
  split_ifs <;>
    first
    | rfl
    | (exfalso; simp only [inRange, Bool.and_eq_true, decide_eq_true_eq] at *; omega)

theorem upperByte_cont (c : Byte) :
    (0x80 ≤ (upperByte c).val ∧ (upperByte c).val < 0xC2) ↔ (0x80 ≤ c.val ∧ c.val < 0xC2) := by
  by_cases h : 0x80 ≤ c.val
  · rw [upperByte_high c h]
  · have := upperByte_low c (by omega)
    constructor <;> intro h' <;> omega

/-- The bytes after a lead byte are read the same with their ASCII letters
upper-cased. -/
theorem decodeRune_map_upperByte (b : Byte) (bs : Str) (hb : 0x80 ≤ b.val) :
    decodeRune (b :: bs.map upperByte) = decodeRune (b :: bs) := by
  by_cases h0 : b.val < 0xC2
  · rw [decodeRune_cont b _ hb h0, decodeRune_cont b _ hb h0]
  rcases bs with _ | ⟨b1, t1⟩
  · rfl
  by_cases h1 : 0x80 ≤ b1.val ∧ b1.val < 0xC2
  swap
  · simp only [List.map_cons]
    rw [decodeRune_bad_second b _ _ (by omega) (by rw [upperByte_cont]; exact h1),
      decodeRune_bad_second b b1 _ (by omega) h1]
  simp only [List.map_cons, upperByte_high b1 h1.1]
  by_cases h2 : b.val < 0xE0
  · rw [decodeRune_prefix_two b b1 (List.map upperByte t1) h2, decodeRune_prefix_two b b1 t1 h2]
  rcases t1 with _ | ⟨b2, t2⟩
  · rfl
  by_cases h3 : 0x80 ≤ b2.val ∧ b2.val < 0xC2
  swap
  · simp only [List.map_cons]
    rw [decodeRune_bad_third b b1 _ _ (by omega) (by rw [upperByte_cont]; exact h3),
      decodeRune_bad_third b b1 b2 _ (by omega) h3]
  simp only [List.map_cons, upperByte_high b2 h3.1]
  by_cases h4 : b.val < 0xF0
  · rw [decodeRune_prefix_three b b1 b2 (List.map upperByte t2) h4,
      decodeRune_prefix_three b b1 b2 t2 h4]
  rcases t2 with _ | ⟨b3, t3⟩
  · rfl
  by_cases h5 : 0x80 ≤ b3.val ∧ b3.val < 0xC2
  swap
  · simp only [List.map_cons]
    rw [decodeRune_bad_fourth b b1 b2 _ _ (by omega) (by rw [upperByte_cont]; exact h5),
      decodeRune_bad_fourth b b1 b2 b3 _ (by omega) h5]
  simp only [List.map_cons, upperByte_high b3 h5.1]
  rw [← decodeRune_take (b :: b1 :: b2 :: b3 :: List.map upperByte t3) 4 le_rfl,
    ← decodeRune_take (b :: b1 :: b2 :: b3 :: t3) 4 le_rfl]
  rfl

/-- Lower-casing does not see the ASCII case of its input. -/
theorem stringsMap_asciiUpper (lowerTable : Nat → Nat) (s : Str) :
    stringsMap (unicodeToLower lowerTable) (asciiUpper s) =
      stringsMap (unicodeToLower lowerTable) s := by
  induction s using rune_induction with
  | nil => rfl
  | step b bs ih =>
    simp only [asciiUpper, List.map_cons] at ih ⊢
    rw [stringsMap_cons, stringsMap_cons]
    by_cases hb : b.val < 0x80
    · have hu := upperByte_low b hb
      rw [decodeRune_ascii _ _ hu, decodeRune_ascii _ _ hb,
        encodeRune_lower_ascii lowerTable _ hu, encodeRune_lower_ascii lowerTable _ hb,
        lowerByte_upperByte]
      rw [decodeRune_ascii _ _ hb] at ih
      simp only [List.drop_succ_cons, List.drop_zero] at ih ⊢
      rw [ih]
    · rw [upperByte_high b (by omega), decodeRune_map_upperByte b bs (by omega)]
      have e : List.drop (decodeRune (b :: bs)).2 (b :: List.map upperByte bs) =
          List.map upperByte (List.drop (decodeRune (b :: bs)).2 (b :: bs)) := by
        rw [List.map_drop, List.map_cons, upperByte_high b (by omega)]
      rw [e, ih]

/-- Cleaning does not see the ASCII case of the word. -/
theorem clean_asciiUpper (lowerTable : Nat → Nat) (w : Str) :
    clean lowerTable (asciiUpper w) = clean lowerTable w := by
  simp only [clean, toLower_eq_stringsMap, trim_asciiUpper, stringsMap_asciiUpper]

/-! ## Cleaning: the claim -/

/-- The identity is a case table as `LowerTableOk` asks. -/
theorem lowerTableOk_id : LowerTableOk id := by
  intro r hr hv
  refine ⟨hv, ?_, ?_⟩
  · simp only [unicodeToLower, id]
    rw [if_neg (by omega)]
  · intro c hc
    have := cutset_ascii c hc
    simp only [id]
    omega

/-- The Latin-1 part of the case tables is as `LowerTableOk` asks. -/
theorem lowerTableOk_latin1 : LowerTableOk latin1Lower := by
  intro r hr hv
  simp only [validRune] at hv
  by_cases h : 0xC0 ≤ r ∧ r ≤ 0xDE ∧ r ≠ 0xD7
  · have e : latin1Lower r = r + 32 := by simp only [latin1Lower]; rw [if_pos h]
    rw [e]
    refine ⟨by simp only [validRune]; omega, ?_, ?_⟩
    · simp only [unicodeToLower, latin1Lower]
      rw [if_neg (by omega), if_neg (by omega)]
    · intro c hc
      have := cutset_ascii c hc
      omega
  · have e : latin1Lower r = r := by simp only [latin1Lower]; rw [if_neg h]
    rw [e]
    refine ⟨by simp only [validRune]; omega, ?_, ?_⟩
    · simp only [unicodeToLower, latin1Lower]
      rw [if_neg (by omega), if_neg h]
    · intro c hc
      have := cutset_ascii c hc
      omega

/-- On ASCII words cleaning does not consult the case tables. -/
theorem clean_ascii (lowerTable : Nat → Nat) (w : Str)
    (h : w.all (fun c => decide (c.val < 0x80)) = true) :
    clean lowerTable w = clean id w ∧
      (clean lowerTable w).all (fun c => decide (c.val < 0x80)) = true := by
  have ht : (trim w cutset).all (fun c => decide (c.val < 0x80)) = true := by
    rw [List.all_eq_true] at h ⊢
    intro c hc
    apply h
    exact (List.rdropWhile_prefix _ _).subset ((List.dropWhile_suffix _).subset hc)
  have hl : ∀ b : Byte, b.val < 0x80 → (lowerByte b).val < 0x80 := by
    intro b hb
    simp only [lowerByte]
    split_ifs <;> omega
  simp only [clean, toLower, ht, if_true]
  refine ⟨trivial, ?_⟩
  rw [List.all_eq_true] at ht ⊢
  intro c hc
  obtain ⟨b, hb, rfl⟩ := List.mem_map.mp hc
  simpa using hl b (by simpa using ht b hb)

set_option maxRecDepth 100000 in
/-- C4: token cleaning does not see punctuation of the cutset around a word nor
the ASCII case of the word, and cleaning a cleaned word returns it unchanged
(for words outside ASCII this rests on the case tables of package `unicode`
being as `LowerTableOk` says); "Great!!!" and "great" are both cleaned to
"great" and so have the same score against any lexicon. -/
theorem clean_insensitive (lowerTable : Nat → Nat) :
    (∀ w p s : Str, (∀ c ∈ p, c ∈ cutset) → (∀ c ∈ s, c ∈ cutset) →
      clean lowerTable (p ++ w ++ s) = clean lowerTable w) ∧
    (∀ w : Str, clean lowerTable (asciiUpper w) = clean lowerTable w) ∧
    (∀ w : Str, w.all (fun c => decide (c.val < 0x80)) = true →
      clean lowerTable (clean lowerTable w) = clean lowerTable w) ∧
    (LowerTableOk lowerTable → ∀ w : Str,
      clean lowerTable (clean lowerTable w) = clean lowerTable w) ∧
    clean lowerTable (bytes "Great!!!") = bytes "great" ∧
    clean lowerTable (bytes "great") = bytes "great" ∧
    (∀ m : Lexicon, tokenScore lowerTable m (bytes "Great!!!") =
      tokenScore lowerTable m (bytes "great")) := by
  have hG : clean lowerTable (bytes "Great!!!") = bytes "great" := by rfl
  have hg : clean lowerTable (bytes "great") = bytes "great" := by rfl
  refine ⟨?_, clean_asciiUpper lowerTable, ?_, clean_idem lowerTable, hG, hg, ?_⟩
  · intro w p s hp hs
    simp only [clean, trim_append w p s cutset hp hs]
  · intro w hw
    obtain ⟨h1, h2⟩ := clean_ascii lowerTable w hw
    obtain ⟨h3, _⟩ := clean_ascii lowerTable (clean lowerTable w) h2
    rw [h3, h1]
    exact clean_idem id lowerTableOk_id w
  · intro m
    simp only [tokenScore, hG, hg]

set_option maxRecDepth 100000 in
/-- C4 at concrete words, with the Latin-1 case table: punctuation around
"Great", the upper-cased "great", and the twice cleaned "(Été!)". -/
theorem clean_insensitive_witness :
    clean latin1Lower (bytes "(\"" ++ bytes "Great" ++ bytes "!!!") =
      clean latin1Lower (bytes "Great") ∧
    clean latin1Lower (asciiUpper (bytes "great")) = clean latin1Lower (bytes "great") ∧
    clean latin1Lower (clean latin1Lower (bytes "Great!!!")) =
      clean latin1Lower (bytes "Great!!!") ∧
    clean latin1Lower (clean latin1Lower (bytes "(Été!)")) = clean latin1Lower (bytes "(Été!)") :=
  ⟨(clean_insensitive latin1Lower).1 (bytes "Great") (bytes "(\"") (bytes "!!!")
      (by decide) (by decide),
   (clean_insensitive latin1Lower).2.1 (bytes "great"),
   (clean_insensitive latin1Lower).2.2.1 (bytes "Great!!!") (by decide),
   (clean_insensitive latin1Lower).2.2.2.1 lowerTableOk_latin1 (bytes "(Été!)")⟩

/-! ## The driver: arguments -/

/-- C11: the driver resolves the target file name from the argument list alone.
With no extra argument it runs the pipeline on "review.txt", with one extra
argument on that argument, and with two or more extra arguments it prints the
usage error (the three lines "Error: Too many arguments", "Usage: program
<filename>" and the line about the default file, and nothing else) and exits
with status 1 whatever is on disk, having opened no file: neither the loader nor
the scorer runs. When the pipeline runs, the files it opens are "socialsent.csv"
and then, if the lexicon loads, the target file. -/
theorem main_resolves_filename (lowerTable : Nat → Nat) (w : World) :
    (∀ prog : Str, main lowerTable w [prog] = pipeline lowerTable w (bytes "review.txt")) ∧
    (∀ prog arg : Str, main lowerTable w [prog, arg] = pipeline lowerTable w arg) ∧
    (∀ (prog a1 a2 : Str) (more : List Str),
      main lowerTable w (prog :: a1 :: a2 :: more) =
        { stdout := [.println (bytes "Error: Too many arguments"),
                     .println (bytes "Usage: program <filename>"),
                     .println (bytes "\tIf a filename is not provided, 'review.txt' will be used")],
          opened := [], exitCode := 1 }) ∧
    (∀ filename : Str, (pipeline lowerTable w filename).exitCode = 0 ∧
      ((pipeline lowerTable w filename).opened = [bytes "socialsent.csv"] ∨
        (pipeline lowerTable w filename).opened = [bytes "socialsent.csv", filename])) := by
  refine ⟨fun _ => rfl, fun _ _ => rfl, fun _ _ _ _ => rfl, ?_⟩
  intro filename
  unfold pipeline
  cases buildSocialSentimentTable w.lexicon with
  | error e => exact ⟨rfl, Or.inl rfl⟩
  | ok m =>
    simp only
    cases (getSocialSentimentScore lowerTable (w.target filename) filename m).err with
    | none => exact ⟨rfl, Or.inr rfl⟩
    | some e => exact ⟨rfl, Or.inr rfl⟩

/-! ## The driver: a scoring pass that fails -/

/-- C12: a scoring pass that fails returns no partial total. Whenever
`getSocialSentimentScore` returns an error (the file cannot be opened, a read
fails, a word does not fit the scanner's buffer), the total it returns is 0, and
the driver, once the lexicon is loaded, prints what the scorer printed and the
error and ends the run without a line of stars. -/
theorem failed_pass_returns_zero (lowerTable : Nat → Nat) (file : Option FileData)
    (filename : Str) (m : Lexicon) (e : ScoreErr)
    (h : (getSocialSentimentScore lowerTable file filename m).err = some e) :
    (getSocialSentimentScore lowerTable file filename m).total = F64.zero ∧
    ∀ w : World, buildSocialSentimentTable w.lexicon = .ok m → w.target filename = file →
      pipeline lowerTable w filename =
        { stdout := (getSocialSentimentScore lowerTable file filename m).out.map .scorer ++
            [.scoreError e],
          opened := [lexiconPath, filename], exitCode := 0 } ∧
      ∀ n, StdoutLine.stars filename n ∉ (pipeline lowerTable w filename).stdout := by
  constructor
  · cases file with
    | none => rfl
    | some f =>
      simp only [getSocialSentimentScore] at h ⊢
      generalize scoreLoop lowerTable m f.readErr (f.content.length + 1) f.content
        { totalScore := F64.zero, out := [OutLine.heading] } = r at h ⊢
      obtain ⟨st, err⟩ := r
      cases err with
      | none => cases h
      | some err => rfl
  · intro w hw ht
    have hp : pipeline lowerTable w filename =
        { stdout := (getSocialSentimentScore lowerTable file filename m).out.map .scorer ++
            [.scoreError e],
          opened := [lexiconPath, filename], exitCode := 0 } := by
      simp only [pipeline, hw, ht, h]
    refine ⟨hp, ?_⟩
    intro n hn
    rw [hp] at hn
    simp at hn

set_option maxRecDepth 100000 in
/-- C12 at a concrete pass: a read error after "good good" has been scanned.
Two words were matched and the running total had reached 4.0; the total
returned is 0. -/
theorem failed_pass_returns_zero_witness :
    (getSocialSentimentScore id (some { content := bytes "good good", readErr := true })
      (bytes "review.txt") [(bytes "good", F64.ofInt 2)]).out =
      [OutLine.heading, OutLine.word (bytes "good") (F64.ofInt 2) (F64.ofInt 2),
        OutLine.word (bytes "good") (F64.ofInt 2) (F64.ofInt 4)] ∧
    (getSocialSentimentScore id (some { content := bytes "good good", readErr := true })
      (bytes "review.txt") [(bytes "good", F64.ofInt 2)]).total = F64.zero :=
  ⟨by decide,
   (failed_pass_returns_zero id (some { content := bytes "good good", readErr := true })
      (bytes "review.txt") [(bytes "good", F64.ofInt 2)] (.readFile .io) (by decide)).1⟩

/-! ## The driver: the usage error -/

set_option maxRecDepth 100000 in
/-- C13, as the code has it: with two or more extra arguments the driver prints
exactly three lines, one for each of the three calls of `fmt.Println` (their
texts hold no newline), opens no file and exits with status 1. -/
theorem usage_error_three_lines (lowerTable : Nat → Nat) (w : World) (args : List Str)
    (h : 3 ≤ args.length) :
    (main lowerTable w args).stdout =
      [.println (bytes "Error: Too many arguments"),
       .println (bytes "Usage: program <filename>"),
       .println (bytes "\tIf a filename is not provided, 'review.txt' will be used")] ∧
    printedLines (bytes "Error: Too many arguments") +
      printedLines (bytes "Usage: program <filename>") +
      printedLines (bytes "\tIf a filename is not provided, 'review.txt' will be used") = 3 ∧
    (main lowerTable w args).opened = [] ∧
    (main lowerTable w args).exitCode = 1 := by
  rcases args with _ | ⟨prog, _ | ⟨a1, _ | ⟨a2, more⟩⟩⟩
  · simp at h
  · simp at h
  · simp at h
  · exact ⟨rfl, by decide, rfl, rfl⟩

/-- C13 at the arguments `program a.txt b.txt`. -/
theorem usage_error_three_lines_witness :
    (main id { lexicon := none, target := fun _ => none }
      [bytes "program", bytes "a.txt", bytes "b.txt"]).stdout.length = 3 ∧
    (main id { lexicon := none, target := fun _ => none }
      [bytes "program", bytes "a.txt", bytes "b.txt"]).exitCode = 1 :=
  ⟨by rw [(usage_error_three_lines id { lexicon := none, target := fun _ => none }
      [bytes "program", bytes "a.txt", bytes "b.txt"] (by decide)).1]; rfl,
   (usage_error_three_lines id { lexicon := none, target := fun _ => none }
      [bytes "program", bytes "a.txt", bytes "b.txt"] (by decide)).2.2.2⟩

set_option maxRecDepth 100000 in
/-- C13 as stated fails: for the arguments `program a.txt b.txt` the usage error
is three printed texts of one line each, not two lines. -/
theorem usage_error_not_two_lines :
    (main id { lexicon := none, target := fun _ => none }
      [bytes "program", bytes "a.txt", bytes "b.txt"]).stdout =
      [.println (bytes "Error: Too many arguments"),
       .println (bytes "Usage: program <filename>"),
       .println (bytes "\tIf a filename is not provided, 'review.txt' will be used")] ∧
    printedLines (bytes "Error: Too many arguments") +
      printedLines (bytes "Usage: program <filename>") +
      printedLines (bytes "\tIf a filename is not provided, 'review.txt' will be used") ≠ 2 := by
  decide

set_option maxRecDepth 100000 in
/-- C11 at a concrete disk (`exampleWorld`). Without extra argument the run
opens "socialsent.csv" and "review.txt" and prints 4 stars for "review.txt";
with the extra argument "other.txt", which cannot be opened, it opens
"socialsent.csv" and "other.txt" and prints the error; with two extra arguments
it prints the three lines of the usage error, opens nothing and exits with
status 1. -/
theorem main_resolves_filename_witness :
    main id exampleWorld [bytes "program"] =
      { stdout := [.scorer .heading,
                   .scorer (.word (bytes "good") (F64.ofInt 2) (F64.ofInt 2)),
                   .scorer (.summary (bytes "review.txt") (F64.ofInt 2)),
                   .stars (bytes "review.txt") 4],
        opened := [bytes "socialsent.csv", bytes "review.txt"], exitCode := 0 } ∧
    main id exampleWorld [bytes "program", bytes "other.txt"] =
      { stdout := [.scoreError .openFile],
        opened := [bytes "socialsent.csv", bytes "other.txt"], exitCode := 0 } ∧
    main id exampleWorld [bytes "program", bytes "a.txt", bytes "b.txt"] =
      { stdout := [.println (bytes "Error: Too many arguments"),
                   .println (bytes "Usage: program <filename>"),
                   .println (bytes "\tIf a filename is not provided, 'review.txt' will be used")],
        opened := [], exitCode := 1 } :=
  ⟨((main_resolves_filename id exampleWorld).1 (bytes "program")).trans (by decide),
   ((main_resolves_filename id exampleWorld).2.1 (bytes "program") (bytes "other.txt")).trans
     (by decide),
   (main_resolves_filename id exampleWorld).2.2.1 (bytes "program") (bytes "a.txt")
     (bytes "b.txt") []⟩

/-! ## The rater: order and partition -/

/-- When no case holds the `switch` leaves the zero value. -/
theorem switchOn_none (cases : List ((F64 → Bool) × Int)) (t : F64)
    (h : casesHolding cases t = 0) : switchOn cases t = 0 := by
  induction cases with
  | nil => rfl
  | cons c rest ih =>
    simp only [casesHolding, List.countP_cons] at h
    have hc : c.1 t = false := by
      cases hct : c.1 t with
      | false => rfl
      | true => rw [hct] at h; simp at h
    simp only [switchOn, hc]
    exact ih (by simpa [casesHolding, hc] using h)

/-- When at most one case holds, the `switch` takes the case that holds,
wherever it stands in the list. -/
theorem switchOn_unique (cases : List ((F64 → Bool) × Int)) (t : F64)
    (h : casesHolding cases t ≤ 1) (c : (F64 → Bool) × Int) (hc : c ∈ cases)
    (hct : c.1 t = true) : switchOn cases t = c.2 := by
  induction cases with
  | nil => cases hc
  | cons d rest ih =>
    simp only [casesHolding, List.countP_cons] at h
    cases hd : d.1 t with
    | true =>
      simp only [switchOn, hd, if_true]
      rw [hd] at h
      simp only [if_true] at h
      have h0 : List.countP (fun c => c.1 t) rest = 0 := by omega
      rcases List.mem_cons.mp hc with rfl | hr
      · rfl
      · exfalso
        have hpos : 0 < List.countP (fun c => c.1 t) rest :=
          List.countP_pos_iff.mpr ⟨c, hr, hct⟩
        omega
    | false =>
      simp only [switchOn, hd]
      rw [hd] at h
      rcases List.mem_cons.mp hc with rfl | hr
      · rw [hd] at hct; cases hct
      · exact ih (by simpa [casesHolding] using h) hr

/-- At most one of the five conditions of the rater holds, and exactly one when
the total is not NaN. -/
theorem casesHolding_starCases (t : F64) :
    casesHolding starCases t ≤ 1 ∧ (t ≠ F64.nan → casesHolding starCases t = 1) := by
  cases t with
  | nan => exact ⟨by decide, fun h => absurd rfl h⟩
  | inf b => cases b <;> exact ⟨by decide, fun _ => by decide⟩
  | fin n m =>
    have hK := F64.one_pos
    simp only [casesHolding, starCases, List.countP_cons, List.countP_nil, F64.lt_ofInt,
      F64.ge_ofInt, Bool.and_eq_true, decide_eq_true_eq]
    generalize F64.signed n m = x
    generalize F64.one = K at *
    refine ⟨?_, fun _ => ?_⟩ <;> split_ifs <;> omega

/-- C14: the five conditions of `getStarRating` (`t < -5`, `-5 <= t < -1`,
`-1 <= t < 1`, `1 <= t < 5`, `t >= 5`, compared as Go compares float64 values)
partition the totals that are numbers. `getStarRating` is the `switch` over the
five cases in the order of the source; for every total at most one condition
holds (the conditions are pairwise disjoint); for every total that is not NaN,
the infinities included, exactly one holds (there is no gap); and testing the
cases in any other order gives the same rating. -/
theorem star_cases_partition (t : F64) :
    getStarRating t = switchOn starCases t ∧
    casesHolding starCases t ≤ 1 ∧
    (t ≠ F64.nan → casesHolding starCases t = 1) ∧
    ∀ cases : List ((F64 → Bool) × Int), cases.Perm starCases →
      switchOn cases t = getStarRating t := by
  have hsw : getStarRating t = switchOn starCases t := by
    simp only [getStarRating, switchOn, starCases]
  obtain ⟨h1, h2⟩ := casesHolding_starCases t
  refine ⟨hsw, h1, h2, ?_⟩
  intro cases hp
  have hcount : casesHolding cases t = casesHolding starCases t := hp.countP_eq _
  rw [hsw]
  rcases Nat.eq_zero_or_pos (casesHolding starCases t) with h0 | hpos
  · rw [switchOn_none cases t (by rw [hcount, h0]), switchOn_none starCases t h0]
  · obtain ⟨c, hc, hct⟩ := List.countP_pos_iff.mp hpos
    rw [switchOn_unique cases t (by rw [hcount]; exact h1) c (hp.mem_iff.mpr hc) hct,
      switchOn_unique starCases t h1 c hc hct]

set_option maxRecDepth 100000 in
/-- C14 at the total 3.0: the fourth condition is the one that holds, and the
cases tested from last to first give 4 stars as well. -/
theorem star_cases_partition_witness :
    casesHolding starCases (F64.ofInt 3) = 1 ∧
    switchOn starCases.reverse (F64.ofInt 3) = 4 :=
  ⟨(star_cases_partition (F64.ofInt 3)).2.2.1 (by decide),
   ((star_cases_partition (F64.ofInt 3)).2.2.2 starCases.reverse
      (List.reverse_perm starCases)).trans (by decide)⟩

/-! ## The rater: monotonicity -/

/-- C17: `getStarRating` is monotone non-decreasing. For all totals `a` and `b`
with `a <= b` (Go's comparison of float64 values, which holds for no NaN),
`getStarRating a <= getStarRating b`. -/
theorem getStarRating_monotone (a b : F64) (h : F64.le a b = true) :
    getStarRating a ≤ getStarRating b := by
  have hK := F64.one_pos
  cases a with
  | nan => simp [F64.le] at h
  | inf x =>
    cases b with
    | nan => simp [F64.le] at h
    | inf y => revert h; cases x <;> cases y <;> decide
    | fin n m =>
      have hx : x = true := by simpa [F64.le] using h
      subst hx
      have h1 : getStarRating (F64.inf true) = 1 := by decide
      rw [h1, getStarRating_fin]
      split_ifs <;> decide
  | fin n m =>
    cases b with
    | nan => simp [F64.le] at h
    | inf y =>
      have hy : y = false := by simpa [F64.le] using h
      subst hy
      have h5 : getStarRating (F64.inf false) = 5 := by decide
      rw [h5, getStarRating_fin]
      split_ifs <;> decide
    | fin n2 m2 =>
      simp only [F64.le, decide_eq_true_eq] at h
      rw [getStarRating_fin, getStarRating_fin]
      generalize F64.signed n m = x at *
      generalize F64.signed n2 m2 = y at *
      generalize F64.one = K at *
      split_ifs <;> first | decide | (exfalso; omega)

/-- C17 at the totals -3.0 and 2.0: two stars against four. -/
theorem getStarRating_monotone_witness :
    F64.le (F64.ofInt (-3)) (F64.ofInt 2) = true ∧
    getStarRating (F64.ofInt (-3)) ≤ getStarRating (F64.ofInt 2) :=
  ⟨by decide, getStarRating_monotone (F64.ofInt (-3)) (F64.ofInt 2) (by decide)⟩

/-! ## Words that clean to nothing -/

/-- `strings.Trim` returns the empty string exactly for the strings made of
bytes of the cutset. -/
theorem trim_eq_nil_iff (w cut : Str) : trim w cut = [] ↔ ∀ c ∈ w, c ∈ cut := by
  unfold trim
  constructor
  · intro h
    by_cases hne : w.rdropWhile (fun c => decide (c ∈ cut)) = []
    · intro c hc
      simpa using List.rdropWhile_eq_nil_iff.mp hne c hc
    · exfalso
      have h2 := List.rdropWhile_last_not (fun c => decide (c ∈ cut)) w hne
      have h3 := List.dropWhile_eq_nil_iff.mp h _ (List.getLast_mem hne)
      exact h2 h3
  · intro h
    have : w.rdropWhile (fun c => decide (c ∈ cut)) = [] :=
      List.rdropWhile_eq_nil_iff.mpr (fun c hc => by simpa using h c hc)
    rw [this]
    rfl

/-- Lower-casing returns the empty string for the empty string only. -/
theorem toLower_eq_nil_iff (lowerTable : Nat → Nat) (s : Str) :
    toLower lowerTable s = [] ↔ s = [] := by
  rw [toLower_eq_stringsMap]
  rcases s with _ | ⟨b, bs⟩
  · simp [stringsMap_nil]
  · simp [stringsMap_ne_nil]

/-- The cleaned form of a word is empty exactly when the word is made of bytes
of the cutset. -/
theorem clean_eq_nil_iff (lowerTable : Nat → Nat) (w : Str) :
    clean lowerTable w = [] ↔ ∀ c ∈ w, c ∈ cutset := by
  unfold clean
  rw [toLower_eq_nil_iff, trim_eq_nil_iff]

/-- A word whose cleaned form is empty leaves the state of the loop as it is. -/
theorem scoreWord_skip (lowerTable : Nat → Nat) (m : Lexicon) (st : ScoreState) (tok : Str)
    (h : clean lowerTable tok = []) : scoreWord lowerTable m st tok = st := by
  simp [scoreWord, h]

/-! ## The scorer: tokens of punctuation -/

/-- C15: a token whose cleaned form is empty is skipped. Such a token is made
only of bytes of the cutset of the trim (and every token made only of such
bytes has an empty cleaned form); for every lexicon, one with the empty string
as a key included, and every state of the loop, the body of the loop returns
the state unchanged, running total and output alike, and a pass over a list of
tokens ends in the same state with the token left out. -/
theorem empty_clean_token_skipped (lowerTable : Nat → Nat) (tok : Str)
    (h : clean lowerTable tok = []) :
    (∀ c ∈ tok, c ∈ cutset) ∧
    (∀ t : Str, (∀ c ∈ t, c ∈ cutset) → clean lowerTable t = []) ∧
    (∀ (m : Lexicon) (st : ScoreState), scoreWord lowerTable m st tok = st) ∧
    (∀ (m : Lexicon) (score : F64) (st : ScoreState),
      scoreWord lowerTable (Lexicon.assign m [] score) st tok = st) ∧
    ∀ (m : Lexicon) (st : ScoreState) (before after : List Str),
      (before ++ tok :: after).foldl (scoreWord lowerTable m) st =
        (before ++ after).foldl (scoreWord lowerTable m) st := by
  refine ⟨(clean_eq_nil_iff lowerTable tok).mp h,
    fun t ht => (clean_eq_nil_iff lowerTable t).mpr ht,
    fun m st => scoreWord_skip lowerTable m st tok h,
    fun m score st => scoreWord_skip lowerTable _ st tok h, ?_⟩
  intro m st before after
  simp only [List.foldl_append, List.foldl_cons]
  rw [scoreWord_skip lowerTable m _ tok h]

set_option maxRecDepth 100000 in
/-- C15 at the tokens "--" and "...", with a lexicon that has the empty string
as a key: the state with total 2.0 comes back unchanged, and the pass over
"good -- ..." gives what the pass over "good" gives. -/
theorem empty_clean_token_skipped_witness :
    scoreWord id [(bytes "", F64.ofInt 5), (bytes "good", F64.ofInt 2)]
      { totalScore := F64.ofInt 2, out := [OutLine.heading] } (bytes "--") =
      { totalScore := F64.ofInt 2, out := [OutLine.heading] } ∧
    scoreWord id [(bytes "", F64.ofInt 5), (bytes "good", F64.ofInt 2)]
      { totalScore := F64.ofInt 2, out := [OutLine.heading] } (bytes "...") =
      { totalScore := F64.ofInt 2, out := [OutLine.heading] } ∧
    getSocialSentimentScore id (some (textFile "good -- ...")) (bytes "review.txt")
      [(bytes "", F64.ofInt 5), (bytes "good", F64.ofInt 2)] =
    getSocialSentimentScore id (some (textFile "good")) (bytes "review.txt")
      [(bytes "", F64.ofInt 5), (bytes "good", F64.ofInt 2)] :=
  ⟨(empty_clean_token_skipped id (bytes "--") (by decide)).2.2.1 _ _,
   (empty_clean_token_skipped id (bytes "...") (by decide)).2.2.1 _ _,
   by decide⟩

/-! ## A rune and the bytes after it -/

theorem decodeRune_two_high (b0 b1 : Byte) (h : 0xE0 ≤ b0.val) :
    decodeRune [b0, b1] = (runeError, 1) := by
  simp only [decodeRune]
  split_ifs <;> first | rfl | omega

theorem decodeRune_three_high (b0 b1 b2 : Byte) (h : 0xF0 ≤ b0.val) :
    decodeRune [b0, b1, b2] = (runeError, 1) := by
  simp only [decodeRune]
  split_ifs <;> first | rfl | omega

/-- An ASCII byte after a string leaves the first rune of the string as it is:
the byte completes no encoding. -/
theorem decodeRune_append_ascii (b : Byte) (bs : Str) (a : Byte) (ha : a.val < 0x80) (t : Str) :
    decodeRune ((b :: bs) ++ a :: t) = decodeRune (b :: bs) := by
  have hna : ¬(0x80 ≤ a.val ∧ a.val < 0xC2) := by omega
  rcases bs with _ | ⟨b1, _ | ⟨b2, _ | ⟨b3, rest⟩⟩⟩
  · show decodeRune (b :: a :: t) = decodeRune [b]
    by_cases h1 : b.val < 0x80
    · rw [decodeRune_ascii b _ h1, decodeRune_ascii b _ h1]
    · by_cases h2 : b.val < 0xC2
      · rw [decodeRune_cont b _ (by omega) h2, decodeRune_cont b _ (by omega) h2]
      · rw [decodeRune_bad_second b a t (by omega) hna, decodeRune_single b (by omega)]
  · show decodeRune (b :: b1 :: a :: t) = decodeRune [b, b1]
    by_cases h : b.val < 0xE0
    · exact decodeRune_prefix_two b b1 _ h
    · rw [decodeRune_bad_third b b1 a t (by omega) hna, decodeRune_two_high b b1 (by omega)]
  · show decodeRune (b :: b1 :: b2 :: a :: t) = decodeRune [b, b1, b2]
    by_cases h : b.val < 0xF0
    · exact decodeRune_prefix_three b b1 b2 _ h
    · rw [decodeRune_bad_fourth b b1 b2 a t (by omega) hna,
        decodeRune_three_high b b1 b2 (by omega)]
  · have e1 := decodeRune_take ((b :: b1 :: b2 :: b3 :: rest) ++ a :: t) 4 le_rfl
    have e2 := decodeRune_take (b :: b1 :: b2 :: b3 :: rest) 4 le_rfl
    rw [← e1, ← e2]
    rfl

/-! ## The loops of `bufio.ScanWords` and their bounds -/

theorem skipSpaces_nil (fuel : Nat) : skipSpaces fuel [] = [] := by
  cases fuel <;> rfl

theorem skipSpaces_fuel (fuel : Nat) : ∀ (s : Str) (fuel' : Nat), s.length ≤ fuel →
    s.length ≤ fuel' → skipSpaces fuel s = skipSpaces fuel' s := by
  induction fuel with
  | zero =>
    intro s fuel' h _
    have : s = [] := List.length_eq_zero.mp (by omega)
    subst this
    rw [skipSpaces_nil, skipSpaces_nil]
  | succ fuel ih =>
    intro s fuel' h h'
    rcases s with _ | ⟨b, bs⟩
    · rw [skipSpaces_nil, skipSpaces_nil]
    · obtain ⟨fuel', rfl⟩ : ∃ k, fuel' = k + 1 := ⟨fuel' - 1, by simp at h'; omega⟩
      have hlt := length_drop_rune b bs
      simp only [List.length_cons] at h h' hlt
      simp only [skipSpaces]
      split_ifs
      · exact ih _ _ (by omega) (by omega)
      · rfl

theorem findSpace_fuel (fuel : Nat) : ∀ (s : Str) (fuel' : Nat), s.length ≤ fuel →
    s.length ≤ fuel' → findSpace fuel s = findSpace fuel' s := by
  induction fuel with
  | zero =>
    intro s fuel' h _
    have : s = [] := List.length_eq_zero.mp (by omega)
    subst this
    rw [findSpace_nil, findSpace_nil]
  | succ fuel ih =>
    intro s fuel' h h'
    rcases s with _ | ⟨b, bs⟩
    · rw [findSpace_nil, findSpace_nil]
    · obtain ⟨fuel', rfl⟩ : ∃ k, fuel' = k + 1 := ⟨fuel' - 1, by simp at h'; omega⟩
      have hlt := length_drop_rune b bs
      simp only [List.length_cons] at h h' hlt
      simp only [findSpace]
      split_ifs
      · rfl
      · rw [ih _ fuel' (by omega) (by omega)]

/-- The search for a space in a string followed by an ASCII space: the space
found in the string, or else the space after it. -/
theorem findSpace_append (a : Byte) (ha : isAsciiSpace a = true) (x : Str) (fuel : Nat) :
    ∀ (v : Str), v.length < fuel →
    findSpace fuel (v ++ a :: x) =
      match findSpace fuel v with
      | some p => some p
      | none => some (v.length, 1) := by
  simp only [isAsciiSpace, Bool.and_eq_true, decide_eq_true_eq] at ha
  induction fuel with
  | zero => intro v h; omega
  | succ fuel ih =>
    intro v h
    rcases v with _ | ⟨b, bs⟩
    · simp [findSpace, decodeRune_ascii a x ha.1, ha.2]
    · have hd := decodeRune_append_ascii b bs a ha.1 x
      have hw := decodeRune_width_le (b :: bs)
      have hp := decodeRune_width_pos b bs
      have hlt := length_drop_rune b bs
      simp only [List.length_cons] at h hlt
      rw [List.cons_append] at hd ⊢
      simp only [findSpace, hd]
      by_cases hsp : isSpace (decodeRune (b :: bs)).1 = true
      · simp [hsp]
      · simp only [hsp, Bool.false_eq_true, if_false]
        rw [← List.cons_append, List.drop_append_of_le_length hw, ih _ (by omega)]
        cases findSpace fuel (List.drop (decodeRune (b :: bs)).2 (b :: bs)) with
        | none =>
          simp only [Option.map_some', Option.map_none', Option.some.injEq, Prod.mk.injEq,
            and_true, List.length_drop, List.length_cons]
          simp only [List.length_cons] at hw
          omega
        | some p => rfl

/-- Skipping the leading spaces of a string followed by an ASCII byte. -/
theorem skipSpaces_append (a : Byte) (ha : a.val < 0x80) (x : Str) (fuel : Nat) :
    ∀ (u : Str) (fuel' : Nat), u.length ≤ fuel → (u ++ a :: x).length ≤ fuel' →
    (skipSpaces fuel u = [] → skipSpaces fuel' (u ++ a :: x) = skipSpaces fuel' (a :: x)) ∧
    (∀ b bs, skipSpaces fuel u = b :: bs →
      skipSpaces fuel' (u ++ a :: x) = (b :: bs) ++ a :: x) := by
  induction fuel with
  | zero =>
    intro u fuel' h _
    have : u = [] := List.length_eq_zero.mp (by omega)
    subst this
    exact ⟨fun _ => rfl, fun b bs hb => by simp [skipSpaces] at hb⟩
  | succ fuel ih =>
    intro u fuel' h h'
    rcases u with _ | ⟨b, bs⟩
    · exact ⟨fun _ => rfl, fun b bs hb => by simp [skipSpaces] at hb⟩
    · obtain ⟨fuel', rfl⟩ : ∃ k, fuel' = k + 1 := ⟨fuel' - 1, by simp at h'; omega⟩
      have hd := decodeRune_append_ascii b bs a ha x
      have hw := decodeRune_width_le (b :: bs)
      have hp := decodeRune_width_pos b bs
      have hlt := length_drop_rune b bs
      simp only [List.length_cons, List.length_append] at h h' hlt
      rw [List.cons_append] at hd ⊢
      by_cases hsp : isSpace (decodeRune (b :: bs)).1 = true
      · simp only [skipSpaces, hd, hsp, if_true]
        rw [← List.cons_append, List.drop_append_of_le_length hw]
        obtain ⟨i1, i2⟩ := ih (List.drop (decodeRune (b :: bs)).2 (b :: bs)) fuel' (by omega)
          (by simp only [List.length_append, List.length_cons, List.length_drop]; omega)
        refine ⟨fun h0 => ?_, i2⟩
        rw [i1 h0]
        exact skipSpaces_fuel fuel' (a :: x) (fuel' + 1) (by simp only [List.length_cons]; omega)
          (by simp only [List.length_cons]; omega)
      · have hsp' : isSpace (decodeRune (b :: bs)).1 = false := by simpa using hsp
        have e1 : skipSpaces (fuel + 1) (b :: bs) = b :: bs := by
          simp [skipSpaces, hsp']
        have e2 : skipSpaces (fuel' + 1) (b :: (bs ++ a :: x)) = b :: (bs ++ a :: x) := by
          simp [skipSpaces, hd, hsp']
        rw [e1, e2]
        exact ⟨fun h0 => (by cases h0), fun b' bs' hb => (by rw [← hb]; rfl)⟩

/-! ## Strings without white space -/

/-- A string cut before its first space holds no space. -/
theorem findSpace_take_none (fuel : Nat) : ∀ (s : Str) (n : Nat),
    (∀ p, findSpace fuel s = some p → n ≤ p.1) → s.length ≤ fuel →
    ∀ fuel', findSpace fuel' (s.take n) = none := by
  induction fuel with
  | zero =>
    intro s n _ hl fuel'
    have : s = [] := List.length_eq_zero.mp (by omega)
    subst this
    rw [List.take_nil, findSpace_nil]
  | succ fuel ih =>
    intro s n hp hl fuel'
    rcases s with _ | ⟨b, bs⟩
    · rw [List.take_nil, findSpace_nil]
    rcases n with _ | k
    · rw [List.take_zero, findSpace_nil]
    rcases decodeRune_take_or (b :: bs) (k + 1) with hd | hnone
    · rcases fuel' with _ | fuel'
      · rfl
      have hlt := length_drop_rune b bs
      simp only [List.length_cons] at hl hlt
      rw [List.take_succ_cons] at hd ⊢
      simp only [findSpace, hd]
      simp only [findSpace] at hp
      by_cases hsp : isSpace (decodeRune (b :: bs)).1 = true
      · simp only [hsp, if_true] at hp
        have := hp _ rfl
        simp at this
      · simp only [hsp, Bool.false_eq_true, if_false] at hp ⊢
        rw [← List.take_succ_cons, List.drop_take, ih _ _ _ (by omega)]
        · rfl
        · intro p hpp
          have := hp (p.1 + (decodeRune (b :: bs)).2, p.2) (by rw [hpp]; rfl)
          simp only at this
          omega
    · exact hnone fuel'

/-- The words of a text hold no space. -/
theorem wordsOf_noSpace (n : Nat) : ∀ (text : Str), text.length ≤ n →
    ∀ tok ∈ wordsOf text, ∀ fuel, findSpace fuel tok = none := by
  induction n using Nat.strong_induction_on with
  | _ n ih =>
    intro text hl tok htok fuel
    have hs := findSpace_spec text.length text le_rfl
    rcases hf : findSpace text.length text with _ | ⟨i, w⟩
    · rw [hf] at hs
      simp only at hs
      simp only [wordsOf, hs, List.mem_filter, List.mem_singleton] at htok
      rw [htok.1]
      have := findSpace_take_none text.length text text.length
        (fun p hp => by rw [hf] at hp; cases hp) le_rfl fuel
      rwa [List.take_length] at this
    · rw [hf] at hs
      obtain ⟨e, hle, hw, _⟩ := hs
      simp only [wordsOf, e, List.mem_filter, List.mem_cons] at htok
      rcases htok.1 with h1 | h2
      · rw [h1]
        exact findSpace_take_none text.length text i
          (fun p hp => by rw [hf] at hp; cases hp; exact le_rfl) le_rfl fuel
      · exact ih (text.length - (i + w)) (by omega) (text.drop (i + w))
          (by simp only [List.length_drop]; omega) tok
          (by simp only [wordsOf, List.mem_filter]; exact ⟨h2, htok.2⟩) fuel

/-- Trimming a string without space leaves a string without space. -/
theorem findSpace_trim (s : Str) (h : ∀ fuel, findSpace fuel s = none) :
    ∀ fuel, findSpace fuel (trim s cutset) = none := by
  unfold trim
  have h1 : ∀ fuel, findSpace fuel (s.rdropWhile (fun c => decide (c ∈ cutset))) = none := by
    have hp := List.rdropWhile_prefix (fun c => decide (c ∈ cutset)) s
    rw [List.prefix_iff_eq_take] at hp
    rw [hp]
    exact findSpace_take_none s.length s _ (fun p hp => by rw [h] at hp; cases hp) le_rfl
  generalize s.rdropWhile (fun c => decide (c ∈ cutset)) = l at h1
  induction l with
  | nil => exact h1
  | cons a t ih =>
    simp only [List.dropWhile_cons]
    split_ifs with hc
    · apply ih
      intro fuel
      have ha := cutset_ascii a (by simpa using hc)
      have := h1 (fuel + 1)
      simp only [findSpace, decodeRune_ascii a t ha] at this
      split_ifs at this
      simpa using this
    · exact h1

/-- The lower-case form of a rune that is not white space is a scalar value and
is not white space. -/
theorem unicodeToLower_space (lowerTable : Nat → Nat) (hT : LowerTableOk lowerTable)
    (hS : LowerTableSpace lowerTable) (r : Nat) (hv : validRune r) (hs : isSpace r = false) :
    validRune (unicodeToLower lowerTable r) ∧ isSpace (unicodeToLower lowerTable r) = false := by
  refine ⟨(unicodeToLower_idem lowerTable hT r hv).1, ?_⟩
  unfold unicodeToLower
  split_ifs with h1 h2
  · have h3 : r + 32 ≤ 0xFF := by omega
    simp only [isSpace, h3, if_true]
    simp only [Bool.or_eq_false_iff, decide_eq_false_iff_not]
    omega
  · exact hs
  · exact hS r (by omega) hv hs

/-- Mapping the runes of a string without space to runes that are not spaces
leaves a string without space. -/
theorem findSpace_stringsMap (f : Nat → Nat)
    (hf : ∀ r, validRune r → isSpace r = false → validRune (f r) ∧ isSpace (f r) = false)
    (s : Str) : (∀ fuel, findSpace fuel s = none) →
    ∀ fuel, findSpace fuel (stringsMap f s) = none := by
  induction s using rune_induction with
  | nil => intro _ fuel; rw [stringsMap_nil, findSpace_nil]
  | step b bs ih =>
    intro h fuel
    have h1 := h 1
    have hsp : isSpace (decodeRune (b :: bs)).1 = false := by
      cases hc : isSpace (decodeRune (b :: bs)).1 with
      | false => rfl
      | true => simp [findSpace, hc] at h1
    have hrest : ∀ fuel, findSpace fuel ((b :: bs).drop (decodeRune (b :: bs)).2) = none := by
      intro fuel
      have := h (fuel + 1)
      simpa [findSpace, hsp] using this
    obtain ⟨hv, hns⟩ := hf _ (decodeRune_valid (b :: bs)) hsp
    rw [stringsMap_cons]
    rcases fuel with _ | fuel
    · simp only [findSpace]
    have hd := decodeRune_encodeRune (f (decodeRune (b :: bs)).1)
      (stringsMap f ((b :: bs).drop (decodeRune (b :: bs)).2)) hv
    have hl := encodeRune_length_pos (f (decodeRune (b :: bs)).1)
    rcases he : encodeRune (f (decodeRune (b :: bs)).1) ++
        stringsMap f ((b :: bs).drop (decodeRune (b :: bs)).2) with _ | ⟨c, cs⟩
    · have := congrArg List.length he
      simp only [List.length_append, List.length_nil] at this
      omega
    · rw [he] at hd
      simp only [findSpace, hd, hns, Bool.false_eq_true, if_false]
      rw [← he, List.drop_left, ih hrest]
      rfl

/-- The cleaned form of a word of a text holds no space. -/
theorem findSpace_clean (lowerTable : Nat → Nat) (hT : LowerTableOk lowerTable)
    (hS : LowerTableSpace lowerTable) (text tok : Str) (h : tok ∈ wordsOf text) :
    ∀ fuel, findSpace fuel (clean lowerTable tok) = none := by
  unfold clean
  rw [toLower_eq_stringsMap]
  exact findSpace_stringsMap _ (unicodeToLower_space lowerTable hT hS) _
    (findSpace_trim tok (wordsOf_noSpace text.length text le_rfl tok h))

/-- The search for a space finds the space of a string that holds one. -/
theorem findSpace_of_hasSpace (s : Str) : hasSpace s = true → findSpace s.length s ≠ none := by
  induction s using rune_induction with
  | nil => intro h; simp [hasSpace, runes, chunks_nil] at h
  | step b bs ih =>
    intro h
    have hlt := length_drop_rune b bs
    simp only [List.length_cons] at hlt
    simp only [hasSpace, runes, chunks_cons, List.map_cons, List.any_cons, Bool.or_eq_true] at h
    simp only [List.length_cons, findSpace]
    split_ifs with hsp
    · simp
    · rcases h with h | h
      · exact absurd h hsp
      · have := ih (by simpa [hasSpace, runes] using h)
        rw [findSpace_fuel _ _ bs.length le_rfl (by omega)] at this
        simpa using this

/-! ## The runes of a mapped string -/

theorem runes_nil : runes [] = [] := rfl

theorem runes_cons (b : Byte) (bs : Str) :
    runes (b :: bs) = (decodeRune (b :: bs)).1 :: runes ((b :: bs).drop (decodeRune (b :: bs)).2) := by
  simp [runes, chunks_cons]

/-- The runes of an encoded scalar value followed by a string. -/
theorem runes_encode (r : Nat) (rest : Str) (h : validRune r) :
    runes (encodeRune r ++ rest) = r :: runes rest := by
  have hd := decodeRune_encodeRune r rest h
  have hl := encodeRune_length_pos r
  rcases he : encodeRune r ++ rest with _ | ⟨b, bs⟩
  · have := congrArg List.length he
    simp only [List.length_append, List.length_nil] at this
    omega
  · rw [runes_cons, ← he, hd]
    simp

/-- The runes of a mapped string are the images of the runes of the string,
when the images are scalar values. -/
theorem runes_stringsMap (f : Nat → Nat) (hf : ∀ r, validRune r → validRune (f r)) (s : Str) :
    runes (stringsMap f s) = (runes s).map f := by
  induction s using rune_induction with
  | nil => simp [stringsMap_nil, runes_nil]
  | step b bs ih =>
    rw [stringsMap_cons, runes_encode _ _ (hf _ (decodeRune_valid (b :: bs))), ih, runes_cons]
    rfl

theorem map_eq_self {α : Type} (f : α → α) (l : List α) (h : l.map f = l) :
    ∀ x ∈ l, f x = x := by
  induction l with
  | nil => intro x hx; cases hx
  | cons a t ih =>
    simp only [List.map_cons, List.cons.injEq] at h
    intro x hx
    rcases List.mem_cons.mp hx with rfl | hx
    · exact h.1
    · exact ih h.2 x hx

/-! ## Keys that are not cleaned words -/

/-- A cleaned word neither starts nor ends with a byte of the cutset. -/
theorem clean_ends (lowerTable : Nat → Nat) (hT : LowerTableOk lowerTable) (w : Str) :
    (∀ c, (clean lowerTable w).head? = some c → c ∉ cutset) ∧
    (∀ c, (clean lowerTable w).getLast? = some c → c ∉ cutset) := by
  unfold clean
  obtain ⟨hh, hl⟩ := trim_ends w cutset
  rw [toLower_eq_stringsMap]
  exact ⟨head_stringsMap lowerTable hT _ hh, getLast_stringsMap lowerTable hT _ hl⟩

/-- A cleaned word holds no rune with another lower-case form. -/
theorem clean_fixed_no_upper (lowerTable : Nat → Nat) (hT : LowerTableOk lowerTable) (k : Str)
    (h : clean lowerTable k = k) : hasUpper lowerTable k = false := by
  obtain ⟨hh, hl⟩ := clean_ends lowerTable hT k
  rw [h] at hh hl
  have ht : trim k cutset = k := trim_self k cutset hh hl
  have hm : stringsMap (unicodeToLower lowerTable) k = k := by
    have := h
    unfold clean at this
    rwa [toLower_eq_stringsMap, ht] at this
  have hr := runes_stringsMap (unicodeToLower lowerTable)
    (fun r hr => (unicodeToLower_idem lowerTable hT r hr).1) k
  rw [hm] at hr
  have hfix := map_eq_self _ _ hr.symm
  simp only [hasUpper, List.any_eq_false, decide_eq_true_eq, not_not]
  exact hfix

/-- The keys no cleaned word of a text is equal to. -/
theorem dead_key (lowerTable : Nat → Nat) (hT : LowerTableOk lowerTable)
    (hS : LowerTableSpace lowerTable) (k : Str)
    (hk : k = [] ∨ hasSpace k = true ∨ hasUpper lowerTable k = true ∨
      (∃ c, k.head? = some c ∧ c ∈ cutset) ∨ (∃ c, k.getLast? = some c ∧ c ∈ cutset) ∨
      clean lowerTable k ≠ k) (text tok : Str) (htok : tok ∈ wordsOf text) :
    clean lowerTable tok = [] ∨ clean lowerTable tok ≠ k := by
  by_cases he : clean lowerTable tok = []
  · exact Or.inl he
  refine Or.inr (fun hc => ?_)
  have hfix : clean lowerTable k = k := by
    rw [← hc]; exact clean_idem lowerTable hT tok
  obtain ⟨hh, hl⟩ := clean_ends lowerTable hT tok
  rw [hc] at hh hl he
  rcases hk with h | h | h | ⟨c, h1, h2⟩ | ⟨c, h1, h2⟩ | h
  · exact he h
  · have h1 := findSpace_clean lowerTable hT hS text tok htok k.length
    rw [hc] at h1
    exact findSpace_of_hasSpace k h h1
  · rw [clean_fixed_no_upper lowerTable hT k hfix] at h
    cases h
  · exact hh c h1 h2
  · exact hl c h1 h2
  · exact h hfix

/-- A word of a text is scored alike with and without a dead key. -/
theorem scoreWord_delete (lowerTable : Nat → Nat) (m : Lexicon) (k : Str) (st : ScoreState)
    (tok : Str) (h : clean lowerTable tok = [] ∨ clean lowerTable tok ≠ k) :
    scoreWord lowerTable (Lexicon.delete m k) st tok = scoreWord lowerTable m st tok := by
  unfold scoreWord
  rcases h with h | h
  · simp [h]
  · simp only [Lexicon.delete, Lexicon.index_filter_ne m k _ h]

theorem scoreLoop_delete (lowerTable : Nat → Nat) (m : Lexicon) (readErr : Bool) (k : Str)
    (hdead : ∀ text tok : Str, tok ∈ wordsOf text →
      clean lowerTable tok = [] ∨ clean lowerTable tok ≠ k) (fuel : Nat) :
    ∀ (rest : Str) (st : ScoreState),
      scoreLoop lowerTable (Lexicon.delete m k) readErr fuel rest st =
        scoreLoop lowerTable m readErr fuel rest st := by
  induction fuel with
  | zero => intro rest st; rfl
  | succ fuel ih =>
    intro rest st
    unfold scoreLoop
    cases hs : scan readErr rest with
    | token tok rest' =>
      obtain ⟨hw, _⟩ := scan_token readErr rest tok rest' hs
      simp only
      rw [ih, scoreWord_delete lowerTable m k st tok
        (hdead rest tok (by rw [hw]; exact List.mem_cons_self _ _))]
    | done err => rfl

theorem lowerTableSpace_id : LowerTableSpace id := fun _ _ _ h => h

/-! ## The lexicon: dead entries -/

/-- C16: lexicon keys that are not in cleaned form are dead entries. When the
case tables are as Go's are (`LowerTableOk`, `LowerTableSpace`), a key `k` that
is empty, holds a white-space rune, holds an upper-case letter (a rune with
another lower-case form), begins or ends with a byte of the cutset, or is in
any other way changed by cleaning, is the cleaned form of no token of any text:
every token is skipped or looked up under another key; and
`getSocialSentimentScore` returns and prints the same with the entry of `k`
deleted from the lexicon, for every target file and every lexicon. -/
theorem dead_lexicon_key (lowerTable : Nat → Nat) (hT : LowerTableOk lowerTable)
    (hS : LowerTableSpace lowerTable) (k : Str)
    (hk : k = [] ∨ hasSpace k = true ∨ hasUpper lowerTable k = true ∨
      (∃ c, k.head? = some c ∧ c ∈ cutset) ∨ (∃ c, k.getLast? = some c ∧ c ∈ cutset) ∨
      clean lowerTable k ≠ k) :
    (∀ text tok : Str, tok ∈ wordsOf text →
      clean lowerTable tok = [] ∨ clean lowerTable tok ≠ k) ∧
    ∀ (file : Option FileData) (filename : Str) (m : Lexicon),
      getSocialSentimentScore lowerTable file filename (Lexicon.delete m k) =
        getSocialSentimentScore lowerTable file filename m := by
  have hdead := dead_key lowerTable hT hS k hk
  refine ⟨hdead, ?_⟩
  intro file filename m
  cases file with
  | none => rfl
  | some f => simp only [getSocialSentimentScore, scoreLoop_delete lowerTable m f.readErr k hdead]

set_option maxRecDepth 100000 in
/-- C16 at the key "Good" in the lexicon `Good = 5.0, good = 2.0`: the text
"Good good" scores 4.0 with the entry and without it. -/
theorem dead_lexicon_key_witness :
    hasUpper id (bytes "Good") = true ∧
    getSocialSentimentScore id (some (textFile "Good good")) (bytes "review.txt")
      [(bytes "good", F64.ofInt 2)] =
    getSocialSentimentScore id (some (textFile "Good good")) (bytes "review.txt")
      [(bytes "Good", F64.ofInt 5), (bytes "good", F64.ofInt 2)] ∧
    (getSocialSentimentScore id (some (textFile "Good good")) (bytes "review.txt")
      [(bytes "Good", F64.ofInt 5), (bytes "good", F64.ofInt 2)]).total = F64.ofInt 4 :=
  ⟨by decide,
   (dead_lexicon_key id lowerTableOk_id lowerTableSpace_id (bytes "Good")
      (Or.inr (Or.inr (Or.inl (by decide))))).2 (some (textFile "Good good"))
      (bytes "review.txt") [(bytes "Good", F64.ofInt 5), (bytes "good", F64.ofInt 2)],
   by decide⟩

/-! ## A call of `scanner.Scan()` before a run of spaces -/

theorem scan_congr (readErr : Bool) (s s' : Str)
    (h : skipSpaces s.length s = skipSpaces s'.length s') : scan readErr s = scan readErr s' := by
  unfold scan
  rw [h]

/-- A leading ASCII space is skipped. -/
theorem scan_space (readErr : Bool) (a : Byte) (ha : isAsciiSpace a = true) (x : Str) :
    scan readErr (a :: x) = scan readErr x := by
  simp only [isAsciiSpace, Bool.and_eq_true, decide_eq_true_eq] at ha
  apply scan_congr
  simp [skipSpaces, decodeRune_ascii a x ha.1, ha.2]

/-- A leading run of ASCII spaces is skipped. -/
theorem scan_spaces (readErr : Bool) (sp : Str) (h : ∀ b ∈ sp, isAsciiSpace b = true) (x : Str) :
    scan readErr (sp ++ x) = scan readErr x := by
  induction sp with
  | nil => rfl
  | cons a sp ih =>
    rw [List.cons_append, scan_space readErr a (h a (List.mem_cons_self a sp))]
    exact ih (fun b hb => h b (List.mem_cons_of_mem a hb))

/-- What a call of `scanner.Scan()` does on a string `u` followed by an ASCII
space depends on `u` alone: it delivers a word of `u` and leaves a shorter part
of `u`, or delivers the last word of `u` and leaves what follows the space, or
fails on a word too long for the buffer, or, when `u` is white space, does what
it does on what follows the space. -/
theorem scan_append (readErr : Bool) (u : Str) :
    (∃ tok u', u'.length < u.length ∧ ∀ a x, isAsciiSpace a = true →
      scan readErr (u ++ a :: x) = .token tok (u' ++ a :: x)) ∨
    (∃ tok, ∀ a x, isAsciiSpace a = true → scan readErr (u ++ a :: x) = .token tok x) ∨
    (∀ a x, isAsciiSpace a = true → scan readErr (u ++ a :: x) = .done (some .tooLong)) ∨
    (∀ a x, isAsciiSpace a = true → scan readErr (u ++ a :: x) = scan readErr x) := by
  obtain ⟨_, hvl, _⟩ := skipSpaces_spec u.length u le_rfl
  rcases hv : skipSpaces u.length u with _ | ⟨b, bs⟩
  · refine Or.inr (Or.inr (Or.inr ?_))
    intro a x ha
    have ha' := ha
    simp only [isAsciiSpace, Bool.and_eq_true, decide_eq_true_eq] at ha'
    rw [← scan_space readErr a ha x]
    apply scan_congr
    rw [(skipSpaces_append a ha'.1 x u.length u _ le_rfl le_rfl).1 hv]
    exact skipSpaces_fuel _ _ _ (by simp) le_rfl
  · rw [hv] at hvl
    have hskip : ∀ a x, isAsciiSpace a = true →
        skipSpaces (u ++ a :: x).length (u ++ a :: x) = b :: (bs ++ a :: x) := by
      intro a x ha
      simp only [isAsciiSpace, Bool.and_eq_true, decide_eq_true_eq] at ha
      exact (skipSpaces_append a ha.1 x u.length u _ le_rfl le_rfl).2 b bs hv
    by_cases hN : (b :: bs).length < maxScanTokenSize
    · have hfs := findSpace_spec maxScanTokenSize (b :: bs) (by omega)
      rcases hf : findSpace maxScanTokenSize (b :: bs) with _ | ⟨i, w⟩
      · refine Or.inr (Or.inl ⟨b :: bs, ?_⟩)
        intro a x ha
        have hfa := findSpace_append a ha (x.take (maxScanTokenSize - (b :: bs).length - 1))
          maxScanTokenSize (b :: bs) hN
        rw [hf] at hfa
        have htake : (b :: (bs ++ a :: x)).take maxScanTokenSize =
            (b :: bs) ++ a :: x.take (maxScanTokenSize - (b :: bs).length - 1) := by
          rw [← List.cons_append, List.take_append_eq_append_take,
            List.take_of_length_le (by omega)]
          obtain ⟨k, hk⟩ : ∃ k, maxScanTokenSize - (b :: bs).length = k + 1 :=
            ⟨maxScanTokenSize - (b :: bs).length - 1, by omega⟩
          rw [hk, List.take_succ_cons]
          simp
        unfold scan
        rw [hskip a x ha]
        simp only [htake, hfa]
        congr 1
        · rw [← List.cons_append, List.take_left']
          rfl
        · rw [← List.cons_append, List.drop_append_eq_append_drop]
          simp
      · rw [hf] at hfs
        obtain ⟨_, hle, hw, _⟩ := hfs
        refine Or.inl ⟨(b :: bs).take i, (b :: bs).drop (i + w), ?_, ?_⟩
        · simp only [List.length_drop]; omega
        intro a x ha
        have hfa := findSpace_append a ha (x.take (maxScanTokenSize - (b :: bs).length - 1))
          maxScanTokenSize (b :: bs) hN
        rw [hf] at hfa
        have htake : (b :: (bs ++ a :: x)).take maxScanTokenSize =
            (b :: bs) ++ a :: x.take (maxScanTokenSize - (b :: bs).length - 1) := by
          rw [← List.cons_append, List.take_append_eq_append_take,
            List.take_of_length_le (by omega)]
          obtain ⟨k, hk⟩ : ∃ k, maxScanTokenSize - (b :: bs).length = k + 1 :=
            ⟨maxScanTokenSize - (b :: bs).length - 1, by omega⟩
          rw [hk, List.take_succ_cons]
          simp
        unfold scan
        rw [hskip a x ha]
        simp only [htake, hfa]
        congr 1
        · rw [← List.cons_append, List.take_append_of_le_length (by omega)]
        · rw [← List.cons_append, List.drop_append_of_le_length (by omega)]
    · have htake : ∀ a x, (b :: (bs ++ a :: x)).take maxScanTokenSize =
          (b :: bs).take maxScanTokenSize := by
        intro a x
        rw [← List.cons_append, List.take_append_of_le_length (by omega)]
      have hfs := findSpace_spec maxScanTokenSize ((b :: bs).take maxScanTokenSize)
        (by simp only [List.length_take]; omega)
      rcases hf : findSpace maxScanTokenSize ((b :: bs).take maxScanTokenSize) with _ | ⟨i, w⟩
      · refine Or.inr (Or.inr (Or.inl ?_))
        intro a x ha
        unfold scan
        rw [hskip a x ha]
        simp only [htake, hf]
        rw [if_neg]
        simp only [List.length_cons, List.length_append] at hN ⊢
        omega
      · rw [hf] at hfs
        obtain ⟨_, hle, hw, _⟩ := hfs
        simp only [List.length_take] at hle
        refine Or.inl ⟨(b :: bs).take i, (b :: bs).drop (i + w), ?_, ?_⟩
        · simp only [List.length_drop]; omega
        intro a x ha
        unfold scan
        rw [hskip a x ha]
        simp only [htake, hf]
        congr 1
        · rw [← List.cons_append, List.take_append_of_le_length (by omega)]
        · rw [← List.cons_append, List.drop_append_of_le_length (by omega)]

/-! ## The loop of the scorer and its bound -/

theorem scoreLoop_fuel (lowerTable : Nat → Nat) (m : Lexicon) (readErr : Bool) (fuel : Nat) :
    ∀ (rest : Str) (st : ScoreState) (fuel' : Nat), rest.length < fuel → rest.length < fuel' →
    scoreLoop lowerTable m readErr fuel rest st = scoreLoop lowerTable m readErr fuel' rest st := by
  induction fuel with
  | zero => intro rest st fuel' h; omega
  | succ fuel ih =>
    intro rest st fuel' h h'
    obtain ⟨fuel', rfl⟩ : ∃ k, fuel' = k + 1 := ⟨fuel' - 1, by omega⟩
    unfold scoreLoop
    cases hs : scan readErr rest with
    | token tok rest' =>
      obtain ⟨_, hl⟩ := scan_token readErr rest tok rest' hs
      exact ih _ _ _ (by omega) (by omega)
    | done err => rfl

/-- A leading run of ASCII spaces changes nothing in the loop. -/
theorem scoreLoop_spaces (lowerTable : Nat → Nat) (m : Lexicon) (readErr : Bool) (sp : Str)
    (h : ∀ b ∈ sp, isAsciiSpace b = true) (x : Str) (st : ScoreState) (fuel fuel' : Nat)
    (hf : (sp ++ x).length < fuel) (hf' : x.length < fuel') :
    scoreLoop lowerTable m readErr fuel (sp ++ x) st =
      scoreLoop lowerTable m readErr fuel' x st := by
  obtain ⟨fuel, rfl⟩ : ∃ k, fuel = k + 1 := ⟨fuel - 1, by omega⟩
  have e : scoreLoop lowerTable m readErr (fuel + 1) (sp ++ x) st =
      scoreLoop lowerTable m readErr (fuel + 1) x st := by
    simp only [scoreLoop, scan_spaces readErr sp h x]
  rw [e]
  simp only [List.length_append] at hf
  exact scoreLoop_fuel lowerTable m readErr _ _ _ _ (by omega) hf'

/-- The loop over `u`, an ASCII space and `x` against the loop over `u`,
another ASCII space and `y`, when the loops over `x` and `y` agree. -/
theorem scoreLoop_append (lowerTable : Nat → Nat) (m : Lexicon) (readErr : Bool)
    (a a' : Byte) (ha : isAsciiSpace a = true) (ha' : isAsciiSpace a' = true) (x y : Str)
    (hxy : ∀ (st : ScoreState) (fuel fuel' : Nat), x.length < fuel → y.length < fuel' →
      scoreLoop lowerTable m readErr fuel x st = scoreLoop lowerTable m readErr fuel' y st)
    (n : Nat) : ∀ (u : Str), u.length ≤ n → ∀ (st : ScoreState) (fuel fuel' : Nat),
      (u ++ a :: x).length < fuel → (u ++ a' :: y).length < fuel' →
      scoreLoop lowerTable m readErr fuel (u ++ a :: x) st =
        scoreLoop lowerTable m readErr fuel' (u ++ a' :: y) st := by
  induction n with
  | zero =>
    intro u hu st fuel fuel' hf hf'
    have : u = [] := List.length_eq_zero.mp (by omega)
    subst this
    simp only [List.nil_append, List.length_cons] at hf hf' ⊢
    rw [← List.singleton_append, ← List.singleton_append (l := y),
      scoreLoop_spaces lowerTable m readErr [a] (by simpa using ha) x st fuel fuel
        (by simp; omega) (by omega),
      scoreLoop_spaces lowerTable m readErr [a'] (by simpa using ha') y st fuel' fuel'
        (by simp; omega) (by omega)]
    exact hxy st fuel fuel' (by omega) (by omega)
  | succ n ih =>
    intro u hu st fuel fuel' hf hf'
    obtain ⟨fuel, rfl⟩ : ∃ k, fuel = k + 1 := ⟨fuel - 1, by omega⟩
    obtain ⟨fuel', rfl⟩ : ∃ k, fuel' = k + 1 := ⟨fuel' - 1, by omega⟩
    simp only [List.length_append, List.length_cons] at hf hf'
    rcases scan_append readErr u with ⟨tok, u', hlt, hs⟩ | ⟨tok, hs⟩ | hs | hs
    · simp only [scoreLoop, hs a x ha, hs a' y ha']
      exact ih u' (by omega) _ _ _ (by simp only [List.length_append, List.length_cons]; omega)
        (by simp only [List.length_append, List.length_cons]; omega)
    · simp only [scoreLoop, hs a x ha, hs a' y ha']
      exact hxy _ _ _ (by omega) (by omega)
    · simp only [scoreLoop, hs a x ha, hs a' y ha']
    · have e1 : scoreLoop lowerTable m readErr (fuel + 1) (u ++ a :: x) st =
          scoreLoop lowerTable m readErr (fuel + 1) x st := by
        simp only [scoreLoop, hs a x ha]
      have e2 : scoreLoop lowerTable m readErr (fuel' + 1) (u ++ a' :: y) st =
          scoreLoop lowerTable m readErr (fuel' + 1) y st := by
        simp only [scoreLoop, hs a' y ha']
      rw [e1, e2]
      exact hxy _ _ _ (by omega) (by omega)

/-! ## The words of a text and a run of spaces -/

theorem wordsOf_space (a : Byte) (ha : isAsciiSpace a = true) (x : Str) :
    wordsOf (a :: x) = wordsOf x := by
  simp only [isAsciiSpace, Bool.and_eq_true, decide_eq_true_eq] at ha
  have hd := decodeRune_ascii a x ha.1
  rw [wordsOf, fieldsOf_space a x (by rw [hd]; exact ha.2), hd]
  simp [wordsOf]

theorem wordsOf_spaces (sp : Str) (h : ∀ b ∈ sp, isAsciiSpace b = true) (x : Str) :
    wordsOf (sp ++ x) = wordsOf x := by
  induction sp with
  | nil => rfl
  | cons a sp ih =>
    rw [List.cons_append, wordsOf_space a (h a (List.mem_cons_self a sp))]
    exact ih (fun b hb => h b (List.mem_cons_of_mem a hb))

/-- The words of a string, an ASCII space and a second string are the words of
the first string followed by the words of the second. -/
theorem wordsOf_append (a : Byte) (ha : isAsciiSpace a = true) (x : Str) (n : Nat) :
    ∀ (u : Str), u.length ≤ n → wordsOf (u ++ a :: x) = wordsOf u ++ wordsOf x := by
  induction n using Nat.strong_induction_on with
  | _ n ih =>
    intro u hu
    have hF : u.length < (u ++ a :: x).length := by
      simp only [List.length_append, List.length_cons]; omega
    have h1 := findSpace_spec (u ++ a :: x).length (u ++ a :: x) le_rfl
    have h2 := findSpace_spec (u ++ a :: x).length u (by omega)
    have h3 := findSpace_append a ha x (u ++ a :: x).length u hF
    rcases hf : findSpace (u ++ a :: x).length u with _ | ⟨i, w⟩
    · rw [hf] at h2 h3
      rw [h3] at h1
      obtain ⟨e1, _⟩ := h1
      simp only at h2
      have e3 : List.drop (u.length + 1) (u ++ a :: x) = x := by
        rw [List.drop_append_eq_append_drop, List.drop_eq_nil_of_le (by omega)]
        simp
      rw [List.take_left' rfl, e3] at e1
      simp only [wordsOf, e1, h2, List.filter_cons, List.filter_nil]
      split_ifs <;> rfl
    · rw [hf] at h2 h3
      rw [h3] at h1
      obtain ⟨e1, _⟩ := h1
      obtain ⟨e2, hle, hw, _⟩ := h2
      rw [List.take_append_of_le_length (by omega),
        List.drop_append_of_le_length (by omega)] at e1
      have hi := ih (u.length - (i + w)) (by omega) (u.drop (i + w))
        (by simp only [List.length_drop]; omega)
      simp only [wordsOf] at hi ⊢
      rw [e1, e2]
      simp only [List.filter_cons]
      split_ifs <;> simp only [hi, List.cons_append]

/-! ## The total of a successful pass -/

theorem getSocialSentimentScore_total (lowerTable : Nat → Nat) (f : FileData) (filename : Str)
    (m : Lexicon) (h : (getSocialSentimentScore lowerTable (some f) filename m).err = none) :
    (getSocialSentimentScore lowerTable (some f) filename m).total =
      sumOfScores lowerTable m f.content := by
  simp only [getSocialSentimentScore] at h ⊢
  generalize hl : scoreLoop lowerTable m f.readErr (f.content.length + 1) f.content
      { totalScore := F64.zero, out := [OutLine.heading] } = r at h ⊢
  obtain ⟨st, e⟩ := r
  cases e with
  | some e => cases h
  | none =>
    simp only
    obtain ⟨ws, _, hst, he, _⟩ := scoreLoop_spec lowerTable m f.readErr _ _ _ _ _ (by omega) hl
    rw [hst, (he rfl).1, foldl_scoreWord_total]
    rfl

/-! ## Scoring texts joined by white space -/

/-- C18, as the code has it. For texts `t1` and `t2` joined by a non-empty run
`ws` of ASCII white space (space, tab, line feed, vertical tab, form feed,
carriage return): the tokens of the joined text are the tokens of `t1` followed
by the tokens of `t2`; replacing `ws` by another such run `ws'` changes nothing
in what `getSocialSentimentScore` returns and prints, errors included; and when
the pass over the joined text succeeds its total is the total of `t1` to which
the scores of the tokens of `t2` are added one by one, in order, each addition
rounded as float64 addition rounds. -/
theorem scoring_over_joined_texts (lowerTable : Nat → Nat) (m : Lexicon) (filename : Str)
    (readErr : Bool) (t1 t2 ws ws' : Str)
    (hws : ws ≠ [] ∧ ∀ b ∈ ws, isAsciiSpace b = true)
    (hws' : ws' ≠ [] ∧ ∀ b ∈ ws', isAsciiSpace b = true) :
    wordsOf (t1 ++ ws ++ t2) = wordsOf t1 ++ wordsOf t2 ∧
    getSocialSentimentScore lowerTable
        (some { content := t1 ++ ws' ++ t2, readErr := readErr }) filename m =
      getSocialSentimentScore lowerTable
        (some { content := t1 ++ ws ++ t2, readErr := readErr }) filename m ∧
    ((getSocialSentimentScore lowerTable
        (some { content := t1 ++ ws ++ t2, readErr := readErr }) filename m).err = none →
      (getSocialSentimentScore lowerTable
        (some { content := t1 ++ ws ++ t2, readErr := readErr }) filename m).total =
        ((wordsOf t2).filterMap (tokenScore lowerTable m)).foldl F64.add
          (sumOfScores lowerTable m t1)) := by
  obtain ⟨hne, hsp⟩ := hws
  obtain ⟨hne', hsp'⟩ := hws'
  rcases ws with _ | ⟨a, sp⟩
  · exact absurd rfl hne
  rcases ws' with _ | ⟨a', sp'⟩
  · exact absurd rfl hne'
  have ha := hsp a (List.mem_cons_self a sp)
  have ha' := hsp' a' (List.mem_cons_self a' sp')
  have hs : ∀ b ∈ sp, isAsciiSpace b = true := fun b hb => hsp b (List.mem_cons_of_mem a hb)
  have hs' : ∀ b ∈ sp', isAsciiSpace b = true := fun b hb => hsp' b (List.mem_cons_of_mem a' hb)
  have hw : wordsOf (t1 ++ (a :: sp) ++ t2) = wordsOf t1 ++ wordsOf t2 := by
    rw [List.append_assoc, List.cons_append, wordsOf_append a ha (sp ++ t2) t1.length t1 le_rfl,
      wordsOf_spaces sp hs t2]
  refine ⟨hw, ?_, ?_⟩
  · have hl : scoreLoop lowerTable m readErr ((t1 ++ (a' :: sp') ++ t2).length + 1)
          (t1 ++ (a' :: sp') ++ t2) { totalScore := F64.zero, out := [OutLine.heading] } =
        scoreLoop lowerTable m readErr ((t1 ++ (a :: sp) ++ t2).length + 1)
          (t1 ++ (a :: sp) ++ t2) { totalScore := F64.zero, out := [OutLine.heading] } := by
      simp only [List.append_assoc, List.cons_append]
      apply scoreLoop_append lowerTable m readErr a' a ha' ha (sp' ++ t2) (sp ++ t2) _
        t1.length t1 le_rfl
      · omega
      · omega
      · intro st fuel fuel' hf hf'
        simp only [List.length_append] at hf hf'
        rw [scoreLoop_spaces lowerTable m readErr sp' hs' t2 st fuel (t2.length + 1)
            (by simp only [List.length_append]; omega) (by omega),
          scoreLoop_spaces lowerTable m readErr sp hs t2 st fuel' (t2.length + 1)
            (by simp only [List.length_append]; omega) (by omega)]
    simp only [getSocialSentimentScore, hl]
  · intro h
    rw [getSocialSentimentScore_total lowerTable _ filename m h]
    simp only [sumOfScores, hw, List.filterMap_append, List.foldl_append]

set_option maxRecDepth 100000 in
/-- C18 at the texts "big" and "one one" with the lexicon
`big = 9007199254740992, one = 1`: a tab and a line feed between the texts give
what a space gives, and the total of the joined text is 9007199254740992, the
total of "big" with 1.0 added twice. -/
theorem scoring_over_joined_texts_witness :
    getSocialSentimentScore id
        (some { content := bytes "big" ++ bytes "\t\n" ++ bytes "one one", readErr := false })
        (bytes "review.txt")
        [(bytes "one", F64.ofInt 1), (bytes "big", F64.ofInt 9007199254740992)] =
      getSocialSentimentScore id
        (some { content := bytes "big" ++ bytes " " ++ bytes "one one", readErr := false })
        (bytes "review.txt")
        [(bytes "one", F64.ofInt 1), (bytes "big", F64.ofInt 9007199254740992)] ∧
    (getSocialSentimentScore id
        (some { content := bytes "big" ++ bytes " " ++ bytes "one one", readErr := false })
        (bytes "review.txt")
        [(bytes "one", F64.ofInt 1), (bytes "big", F64.ofInt 9007199254740992)]).total =
      F64.ofInt 9007199254740992 :=
  ⟨(scoring_over_joined_texts id
      [(bytes "one", F64.ofInt 1), (bytes "big", F64.ofInt 9007199254740992)]
      (bytes "review.txt") false (bytes "big") (bytes "one one") (bytes " ") (bytes "\t\n")
      (by decide) (by decide)).2.1,
   ((scoring_over_joined_texts id
      [(bytes "one", F64.ofInt 1), (bytes "big", F64.ofInt 9007199254740992)]
      (bytes "review.txt") false (bytes "big") (bytes "one one") (bytes " ") (bytes "\t\n")
      (by decide) (by decide)).2.2 (by decide)).trans (by decide)⟩

set_option maxRecDepth 100000 in
/-- C18 as stated fails: scoring is not additive over texts joined by a space.
The lexicon file with the rows `big,9007199254740992` and `one,1` loads; the
total of "big" is 9007199254740992 and the total of "one one" is 2, whose sum is
9007199254740994; the total of "big one one" is 9007199254740992, since twice
the sum of 9007199254740992 and 1 is rounded back to 9007199254740992. -/
theorem scoring_not_additive :
    buildSocialSentimentTable
        (some (csvFile [["word", "score"], ["big", "9007199254740992"], ["one", "1"]])) =
      .ok [(bytes "one", F64.ofInt 1), (bytes "big", F64.ofInt 9007199254740992)] ∧
    getSocialSentimentScore id
        (some { content := bytes "big", readErr := false }) (bytes "review.txt")
        [(bytes "one", F64.ofInt 1), (bytes "big", F64.ofInt 9007199254740992)] =
      { total := F64.ofInt 9007199254740992, err := none,
        out := [.heading,
          .word (bytes "big") (F64.ofInt 9007199254740992) (F64.ofInt 9007199254740992),
          .summary (bytes "review.txt") (F64.ofInt 9007199254740992)] } ∧
    getSocialSentimentScore id
        (some { content := bytes "one one", readErr := false }) (bytes "review.txt")
        [(bytes "one", F64.ofInt 1), (bytes "big", F64.ofInt 9007199254740992)] =
      { total := F64.ofInt 2, err := none,
        out := [.heading, .word (bytes "one") (F64.ofInt 1) (F64.ofInt 1),
          .word (bytes "one") (F64.ofInt 1) (F64.ofInt 2),
          .summary (bytes "review.txt") (F64.ofInt 2)] } ∧
    (getSocialSentimentScore id
        (some { content := bytes "big" ++ bytes " " ++ bytes "one one", readErr := false })
        (bytes "review.txt")
        [(bytes "one", F64.ofInt 1), (bytes "big", F64.ofInt 9007199254740992)]).err = none ∧
    (getSocialSentimentScore id
        (some { content := bytes "big" ++ bytes " " ++ bytes "one one", readErr := false })
        (bytes "review.txt")
        [(bytes "one", F64.ofInt 1), (bytes "big", F64.ofInt 9007199254740992)]).total =
      F64.ofInt 9007199254740992 ∧
    F64.add (F64.ofInt 9007199254740992) (F64.ofInt 2) = F64.ofInt 9007199254740994 ∧
    (getSocialSentimentScore id
        (some { content := bytes "big" ++ bytes " " ++ bytes "one one", readErr := false })
        (bytes "review.txt")
        [(bytes "one", F64.ofInt 1), (bytes "big", F64.ofInt 9007199254740992)]).total ≠
      F64.add
        (getSocialSentimentScore id
          (some { content := bytes "big", readErr := false }) (bytes "review.txt")
          [(bytes "one", F64.ofInt 1), (bytes "big", F64.ofInt 9007199254740992)]).total
        (getSocialSentimentScore id
          (some { content := bytes "one one", readErr := false }) (bytes "review.txt")
          [(bytes "one", F64.ofInt 1), (bytes "big", F64.ofInt 9007199254740992)]).total := by
  decide

end HW4
